import Mathlib

/-! Tablature string / fret assignment (libmscore/tablature.cpp)

A shallow embedding of `Tablature::convertPitch`, `Tablature::getPitch`,
`Tablature::fret`, `Tablature::fretChord`, `MusicXMLStepAltOct2Pitch` and
`Tablature::readMusicXML`.

Conventions of the embedding:

* C++ `int` values are modelled by `Int`.  In the fretting code pitches are MIDI
  pitches and string numbers are small, so its arithmetic stays far from the 32 bit
  range.  `MusicXMLStepAltOct2Pitch` computes with values that `QString::toInt`
  read from a file, which can be any `int`: there every arithmetic operation is
  reduced to the 32 bit two's complement range by `wrapInt`.
* An indexing operation of the source (`QList::at`, `operator[]`, the
  variable length array `bUsed`) is modelled by `listAt`, which answers `none`
  outside the bounds.  A function that performs such an access returns an
  `Option`; `none` means that the C++ code made an out-of-range access.
* A `Note *` is modelled by the position of the note in `chord->notes()`.
* `Score::undoChangeProperty` is an external collaborator: it is modelled as
  storing the new value in the note and recording the call.
* The XML element read by `readMusicXML` is modelled by the list of its child
  elements in document order, each with the values the code extracts from it.
-/

namespace Tab

/-! ## Data model -/

/-- Modelled from the spec: the constant FRET_NONE is declared in a header that is
not among the sources; the comment above `Tablature::fret` ("returns -1 if not
possible") fixes its value. -/
def FRET_NONE : Int := -1

/-- Modelled from the spec: the constant STRING_NONE is declared in a header that is
not among the sources; the comment in `fretChord` ("in case string is -1") fixes
its value. -/
def STRING_NONE : Int := -1

/-- The two data members of class `Tablature`: `_frets` and `stringTable`
(open pitch of every string, internal order). -/
structure Tablature where
  frets : Int
  stringTable : List Int
deriving DecidableEq, Repr

/-- The accessor `strings()`, i.e. `stringTable.size()`. -/
def Tablature.strings (t : Tablature) : Int := t.stringTable.length

/-- The array `guitarStrings`. -/
def guitarStrings : List Int := [40, 45, 50, 55, 59, 64]

/-- The global `guitarTablature(13, 6, guitarStrings)`. -/
def guitarTablature : Tablature := ⟨13, guitarStrings⟩

/-- Indexing with a C++ `int`: `none` stands for an access outside the bounds. -/
def listAt {α : Type} (l : List α) (i : Int) : Option α :=
  if i < 0 then none else l[i.toNat]?

/-- The fields of a `Note` that the fretting code reads and writes. -/
structure Note where
  pitch : Int
  string : Int
  fret : Int
  fretConflict : Bool
deriving DecidableEq, Repr

/-- The property identifiers passed to `undoChangeProperty`. -/
inductive P_ID where
  | P_FRET
  | P_STRING
deriving DecidableEq, Repr

/-- One call `note->score()->undoChangeProperty(note, id, value)`. -/
structure Change where
  note : Nat
  id : P_ID
  value : Int
deriving DecidableEq, Repr

/-- What `fretChord` can observe and modify: the static latch
`Tablature::bFretting`, the notes of the chord in the order of `chord->notes()`,
and the calls of `undoChangeProperty` made so far (oldest first). -/
structure ChordState where
  bFretting : Bool
  notes : List Note
  undo : List Change
deriving DecidableEq, Repr

/-- The values `convertPitch` hands back: its return value and the two
out-parameters `*string` and `*fret`. -/
structure Fretting where
  ok : Bool
  string : Int
  fret : Int
deriving DecidableEq, Repr

/-! ## convertPitch, getPitch, fret -/

/-- The loop `for (int i = strings-1; i >= 0; i--)` of `convertPitch`; the
counter is `i + 1`, and counter `0` is the code after the loop. -/
def convertPitchLoop (t : Tablature) (pitch : Int) : Nat → Option Fretting
  | 0 => some ⟨false, t.strings - 1, 0⟩
  | i + 1 =>
    match listAt t.stringTable (i : Int) with
    | none => none
    | some o =>
      if pitch ≥ o then some ⟨true, t.strings - (i : Int) - 1, pitch - o⟩
      else convertPitchLoop t pitch i

/-- The function `Tablature::convertPitch`. -/
def convertPitch (t : Tablature) (pitch : Int) : Option Fretting :=
  match listAt t.stringTable (t.strings - 1) with
  | none => none
  | some top =>
    if pitch > top + t.frets then some ⟨false, 0, 0⟩
    else convertPitchLoop t pitch t.stringTable.length

/-- The function `Tablature::getPitch`. -/
def getPitch (t : Tablature) (string fret : Int) : Option Int :=
  match listAt t.stringTable (t.strings - string - 1) with
  | none => none
  | some o => some (o + fret)

/-- The function `Tablature::fret`. -/
def fret (t : Tablature) (pitch string : Int) : Option Int :=
  if string < 0 ∨ string ≥ t.strings then some FRET_NONE
  else
    match listAt t.stringTable (t.strings - string - 1) with
    | none => none
    | some o =>
      if pitch - o < 0 ∨ pitch - o ≥ t.frets then some FRET_NONE
      else some (pitch - o)

/-! ## fretChord -/

/-- The sort key computed for a note in the first loop of `fretChord`. -/
def sortKey (note : Note) (idx : Int) : Int :=
  let key := note.string * 100000
  let key := if key < 0 then -key else key
  key - (note.pitch * 100 + idx)

/-- The method `QMap<int, Note*>::insert`: entries are kept in ascending key order and
an entry with an equal key has its value replaced. -/
def qmapInsert : List (Int × Nat) → Int → Nat → List (Int × Nat)
  | [], key, v => [(key, v)]
  | (k, w) :: rest, key, v =>
    if key < k then (key, v) :: (k, w) :: rest
    else if key = k then (k, v) :: rest
    else (k, w) :: qmapInsert rest key v

/-- The loop `foreach(Note * note, chord->notes())` that fills `sortedNotes`;
`idx` is the running counter of the source. -/
def fillSortedNotes : List Note → Nat → List (Int × Nat) → List (Int × Nat)
  | [], _, sortedNotes => sortedNotes
  | note :: rest, idx, sortedNotes =>
    fillSortedNotes rest (idx + 1) (qmapInsert sortedNotes (sortKey note idx) idx)

/-- The notes in the order in which `foreach(Note * note, sortedNotes)` visits them. -/
def sortedNotes (notes : List Note) : List Nat :=
  (fillSortedNotes notes 0 []).map Prod.snd

/-- The mutable state of the main loop: the notes, the recorded
`undoChangeProperty` calls and the array `bUsed`. -/
structure Scan where
  notes : List Note
  undo : List Change
  bUsed : List Bool
deriving DecidableEq, Repr

/-- The call `note->setFretConflict(b)` for the note at position `i`. -/
def setFretConflict (s : Scan) (i : Nat) (b : Bool) : Scan :=
  match s.notes[i]? with
  | none => s
  | some note => { s with notes := s.notes.set i { note with fretConflict := b } }

/-- Modelled from the spec: `Score::undoChangeProperty` belongs to the external note and
undo model, which is not among the sources; the spec describes it as writing the
field (`setString`, `setFret`) and emitting one change notification. -/
def undoChangeProperty (s : Scan) (i : Nat) (id : P_ID) (v : Int) : Scan :=
  match s.notes[i]? with
  | none => s
  | some note =>
    { s with
      notes := s.notes.set i
        (match id with
         | .P_FRET => { note with fret := v }
         | .P_STRING => { note with string := v })
      undo := s.undo ++ [⟨i, id, v⟩] }

/-- The test `nString == STRING_NONE || nFret == FRET_NONE ||
getPitch(nString, nFret) != note->pitch()`; `getPitch` is only evaluated when
the first two tests fail. -/
def needsFretting (t : Tablature) (note : Note) : Option Bool :=
  if note.string = STRING_NONE ∨ note.fret = FRET_NONE then some true
  else
    match getPitch t note.string note.fret with
    | none => none
    | some p => some (decide (p ≠ note.pitch))

/-- The loop `foreach(Note * note2, sortedNotes)` up to its `break`: is there a
note other than note `i` whose string is `nNewString`? -/
def otherNoteOnString (notes : List Note) (i : Nat) (nNewString : Int) : List Nat → Bool
  | [] => false
  | j :: rest =>
    if j ≠ i ∧ (notes[j]?).map Note.string = some nNewString then true
    else otherNoteOnString notes i nNewString rest

/-- Outcome of the first half of the loop body (up to "check we are not reusing a
string"): either `convertPitch` failed, or a target `nNewString`, `nNewFret` is
chosen. -/
inductive Target where
  | unfrettable (nNewString nNewFret : Int)
  | position (nNewString nNewFret : Int)
deriving DecidableEq, Repr

/-- The first half of the loop body of `fretChord` for the note at position `i`. -/
def chooseTarget (t : Tablature) (sorted : List Nat) (notes : List Note) (i : Nat)
    (note : Note) : Option Target :=
  match needsFretting t note with
  | none => none
  | some false => some (.position note.string note.fret)
  | some true =>
    match convertPitch t note.pitch with
    | none => none
    | some r =>
      if r.ok = false then some (.unfrettable r.string r.fret)
      else if otherNoteOnString notes i r.string sorted then
        match fret t note.pitch note.string with
        | none => none
        | some nTempFret =>
          if nTempFret ≠ FRET_NONE then some (.position note.string nTempFret)
          else some (.position r.string r.fret)
      else some (.position r.string r.fret)

/-- The loop `for(nTempString=0; nTempString < strings(); nTempString++)`.  The
first argument counts the strings still to try.  `some none` means that the loop
ran to its end, `some (some (nTempString, nTempFret))` that it left by `break`. -/
def findString (t : Tablature) (pitch : Int) (bUsed : List Bool) :
    Nat → Nat → Option (Option (Int × Int))
  | 0, _ => some none
  | k + 1, nTempString =>
    match listAt bUsed (nTempString : Int) with
    | none => none
    | some true => findString t pitch bUsed k (nTempString + 1)
    | some false =>
      match fret t pitch (nTempString : Int) with
      | none => none
      | some nTempFret =>
        if nTempFret ≠ FRET_NONE then some (some ((nTempString : Int), nTempFret))
        else findString t pitch bUsed k (nTempString + 1)

/-- The two statements "if fretting did change, store as a fret change". -/
def storeFretting (s : Scan) (i : Nat) (nString nFret nNewString nNewFret : Int) : Scan :=
  let s1 := if nFret ≠ nNewFret then undoChangeProperty s i .P_FRET nNewFret else s
  if nString ≠ nNewString then undoChangeProperty s1 i .P_STRING nNewString else s1

/-- The statement `bUsed[nNewString] = true`. -/
def markUsed (s : Scan) (nNewString : Int) : Scan :=
  { s with bUsed := s.bUsed.set nNewString.toNat true }

/-- One iteration of `foreach(Note * note, sortedNotes)` for the note at position `i`. -/
def fretNote (t : Tablature) (sorted : List Nat) (s : Scan) (i : Nat) : Option Scan :=
  match s.notes[i]? with
  | none => none
  | some note =>
    let s1 := setFretConflict s i false
    match chooseTarget t sorted s1.notes i note with
    | none => none
    | some (.unfrettable nNewString nNewFret) =>
      some (storeFretting (setFretConflict s1 i true) i note.string note.fret nNewString nNewFret)
    | some (.position nNewString nNewFret) =>
      match listAt s1.bUsed nNewString with
      | none => none
      | some false =>
        some (markUsed (storeFretting s1 i note.string note.fret nNewString nNewFret) nNewString)
      | some true =>
        match findString t note.pitch s1.bUsed t.stringTable.length 0 with
        | none => none
        | some none => some (setFretConflict s1 i true)
        | some (some (nTempString, nTempFret)) =>
          some (markUsed (storeFretting s1 i note.string note.fret nTempString nTempFret)
            nTempString)

/-- The main loop `foreach(Note * note, sortedNotes)`. -/
def fretLoop (t : Tablature) (sorted : List Nat) : List Nat → Scan → Option Scan
  | [], s => some s
  | i :: rest, s =>
    match fretNote t sorted s i with
    | none => none
    | some s1 => fretLoop t sorted rest s1

/-- The function `Tablature::fretChord`. -/
def fretChord (t : Tablature) (c : ChordState) : Option ChordState :=
  if c.bFretting then some c
  else
    match fretLoop t (sortedNotes c.notes) (sortedNotes c.notes)
        ⟨c.notes, c.undo, List.replicate t.stringTable.length false⟩ with
    | none => none
    | some s => some ⟨false, s.notes, s.undo⟩

/-! ## Tuning import (readMusicXML) -/

/-- The value that an arithmetic operation on C++ `int` leaves in a 32 bit `int`: the
mathematical result reduced to `[-2^31, 2^31)` (two's complement wrap-around). -/
def wrapInt (x : Int) : Int :=
  (x + 2147483648) % 4294967296 - 2147483648

/-- The function `MusicXMLStepAltOct2Pitch`.  The access `table[istep]` is guarded by the
range test on `istep`, so the default of `getD` is never used.  The expression
`table[istep] + alter + (octave+1) * 12` is evaluated in `int`: each of its four
operations goes through `wrapInt`. -/
def MusicXMLStepAltOct2Pitch (step : Char) (alter octave : Int) : Int :=
  let istep : Int := (step.toNat : Int) - ('A'.toNat : Int)
  if istep < 0 ∨ istep > 6 then -1
  else
    let pitch := wrapInt
      (wrapInt (([9, 11, 0, 2, 4, 5, 7] : List Int).getD istep.toNat 0 + alter)
        + wrapInt (wrapInt (octave + 1) * 12))
    let pitch := if pitch < 0 then -1 else pitch
    let pitch := if pitch > 127 then -1 else pitch
    pitch

/-- A child element `ee` of a `staff-tuning` element: its tag and its text (already
converted by `toInt()` where the code does so). -/
inductive TuningChild where
  | tuningAlter (val : Int)
  | tuningOctave (val : Int)
  | tuningStep (text : List Char)
  | unknown
deriving DecidableEq, Repr

/-- The local variables `step`, `alter` and `octave` of the `staff-tuning` branch. -/
structure Tuning where
  step : List Char
  alter : Int
  octave : Int
deriving DecidableEq, Repr

/-- One iteration of the inner loop over the children of a `staff-tuning` element. -/
def readTuningChild (s : Tuning) : TuningChild → Tuning
  | .tuningAlter val => { s with alter := val }
  | .tuningOctave val => { s with octave := val }
  | .tuningStep text => { s with step := text }
  | .unknown => s

/-- The inner loop over the children of a `staff-tuning` element, starting from an empty
`step`, `alter = 0` and `octave = 0`. -/
def readTuning (children : List TuningChild) : Tuning :=
  children.foldl readTuningChild ⟨[], 0, 0⟩

/-- The expression `step[0].toLatin1()`: reading past the end of a `QString` gives the
character 0, and `toLatin1` maps a character above 0xff to 0. -/
def firstLatin1 (step : List Char) : Char :=
  match step with
  | [] => Char.ofNat 0
  | ch :: _ => if ch.toNat > 255 then Char.ofNat 0 else ch

/-- A child element `e` of the element handed to `readMusicXML`: `staff-lines` with its
text converted by `toInt()`, `staff-tuning` with its attribute `line` and its children,
or any other element (`capo` included), which is ignored. -/
inductive StaffDetail where
  | staffLines (val : Int)
  | staffTuning (line : Int) (children : List TuningChild)
  | ignored
deriving DecidableEq, Repr

/-- The pitch computed in the `staff-tuning` branch. -/
def tuningPitch (children : List TuningChild) : Int :=
  MusicXMLStepAltOct2Pitch (firstLatin1 (readTuning children).step)
    (readTuning children).alter (readTuning children).octave

/-- One iteration of the outer loop of `readMusicXML`. -/
def readStaffDetail (t : Tablature) : StaffDetail → Tablature
  | .staffLines val =>
    if val > 0 then { t with stringTable := List.replicate val.toNat 0 } else t
  | .staffTuning line children =>
    if 0 < line ∧ line ≤ t.strings then
      if tuningPitch children ≥ 0 then
        { t with stringTable := t.stringTable.set (line - 1).toNat (tuningPitch children) }
      else t
    else t
  | .ignored => t

/-- The function `Tablature::readMusicXML`: `_frets = 25`, then the loop over the children of
`de`. -/
def readMusicXML (t : Tablature) (de : List StaffDetail) : Tablature :=
  de.foldl readStaffDetail { t with frets := 25 }

/-! ## Predicates and sample inputs used in the statements -/

/-- The `undoChangeProperty` calls made by the statements "if fretting did change, store as
a fret change", in call order. -/
def fretChanges (i : Nat) (nString nFret nNewString nNewFret : Int) : List Change :=
  (if nFret ≠ nNewFret then [⟨i, .P_FRET, nNewFret⟩] else []) ++
  (if nString ≠ nNewString then [⟨i, .P_STRING, nNewString⟩] else [])

/-- The pitch can be played on the visual string: `fret` accepts it. -/
def Playable (t : Tablature) (pitch string : Int) : Prop :=
  ∃ f, fret t pitch string = some f ∧ f ≠ FRET_NONE

/-- Note `j` has no conflict and sits on visual string `k`. -/
def HoldsString (notes : List Note) (j k : Nat) : Prop :=
  ∃ note, notes[j]? = some note ∧ note.fretConflict = false ∧ note.string = (k : Int)

/-- The invariant of the main loop of `fretChord` after the notes listed in `done` have been
visited, starting from the notes `notes0`. -/
structure ScanInv (t : Tablature) (notes0 : List Note) (done : List Nat) (s : Scan) : Prop where
  length_notes : s.notes.length = notes0.length
  length_bUsed : s.bUsed.length = t.stringTable.length
  pitch : ∀ j : Nat, (s.notes[j]?).map Note.pitch = (notes0[j]?).map Note.pitch
  untouched : ∀ j : Nat, j ∉ done → s.notes[j]? = notes0[j]?
  placed : ∀ j ∈ done, ∀ note, s.notes[j]? = some note → note.fretConflict = false →
    ∃ k : Nat, note.string = (k : Int) ∧ s.bUsed[k]? = some true ∧
      getPitch t note.string note.fret = some note.pitch
  holder : ∀ k : Nat, s.bUsed[k]? = some true → ∃ j ∈ done, HoldsString s.notes j k
  inj : ∀ j1 ∈ done, ∀ j2 ∈ done, ∀ k : Nat,
    HoldsString s.notes j1 k → HoldsString s.notes j2 k → j1 = j2
  maximal : ∀ j ∈ done, ∀ note, s.notes[j]? = some note → note.fretConflict = true →
    (∃ r, convertPitch t note.pitch = some r ∧ r.ok = false) ∨
    ∀ k : Nat, s.bUsed[k]? = some false → fret t note.pitch (k : Int) = some FRET_NONE

/-- The stored string of a note is `STRING_NONE` or a visual string of the profile. -/
def StringOk (t : Tablature) (note : Note) : Prop :=
  note.string = STRING_NONE ∨ (0 ≤ note.string ∧ note.string < t.strings)

instance (t : Tablature) (note : Note) : Decidable (StringOk t note) := by
  unfold StringOk
  exact inferInstance

/-- A chord on which `fretChord` makes no access outside the bounds: the profile has a
string and every stored string is `STRING_NONE` or a visual string of the profile. -/
def ChordOk (t : Tablature) (c : ChordState) : Prop :=
  t.stringTable ≠ [] ∧ ∀ note ∈ c.notes, StringOk t note

/-- A chord of 101 notes in which the first note (pitch 61, stale position string 0 fret 3)
and the last note (pitch 60 on string 0) get the same sort key. -/
def staleChord : List Note :=
  ⟨61, 0, 3, false⟩ ::
    (List.replicate 99 ⟨30, STRING_NONE, FRET_NONE, false⟩ ++ [⟨60, 0, 3, false⟩])

/-- A chord of 101 notes in which the first note (pitch 65, string 0 fret 1) and the last
note (pitch 64, string 0 fret 0) get the same sort key. -/
def sharedStringChord : List Note :=
  ⟨65, 0, 1, false⟩ ::
    (List.replicate 99 ⟨30, STRING_NONE, FRET_NONE, false⟩ ++ [⟨64, 0, 0, false⟩])

/-- Seven notes without a position. -/
def sevenNotes : List Note :=
  [⟨40, STRING_NONE, FRET_NONE, false⟩, ⟨45, STRING_NONE, FRET_NONE, false⟩,
   ⟨50, STRING_NONE, FRET_NONE, false⟩, ⟨55, STRING_NONE, FRET_NONE, false⟩,
   ⟨59, STRING_NONE, FRET_NONE, false⟩, ⟨64, STRING_NONE, FRET_NONE, false⟩,
   ⟨70, STRING_NONE, FRET_NONE, false⟩]

/-- Number of notes whose conflict flag is set. -/
def conflictCount (notes : List Note) : Nat :=
  (notes.filter (fun n => n.fretConflict)).length

/-- An assignment gives every note of the chord a visual string or leaves it unplaced
(`none`).  It is admissible when it has one entry per note, the strings it uses are
pairwise distinct and `fret` accepts the pitch of every placed note on its string. -/
def admissible (t : Tablature) (notes : List Note) (a : List (Option Int)) : Bool :=
  decide (a.length = notes.length) && decide (a.filterMap id).Nodup &&
  (notes.zip a).all (fun na =>
    match na.2 with
    | none => true
    | some s =>
      match fret t na.1.pitch s with
      | none => false
      | some f => decide (f ≠ FRET_NONE))

/-- Number of notes an assignment leaves unplaced. -/
def unplacedCount (a : List (Option Int)) : Nat :=
  (a.filter Option.isNone).length

/-- The open pitch of a visual string: `stringTable[strings - string - 1]`, the access made
by `getPitch` and `fret`. -/
def openPitch (t : Tablature) (string : Int) : Option Int :=
  listAt t.stringTable (t.strings - string - 1)

/-- A chord of 101 notes without a position in which the first note (pitch 61) and the last
note (pitch 60) get the same sort key. -/
def unvisitedChord : List Note :=
  ⟨61, STRING_NONE, FRET_NONE, false⟩ ::
    (List.replicate 99 ⟨30, STRING_NONE, FRET_NONE, false⟩ ++
      [⟨60, STRING_NONE, FRET_NONE, false⟩])

/-- The step table in the words of the spec: A..G map to 9, 11, 0, 2, 4, 5, 7. -/
def stepTable (step : Char) : Option Int :=
  if step = 'A' then some 9
  else if step = 'B' then some 11
  else if step = 'C' then some 0
  else if step = 'D' then some 2
  else if step = 'E' then some 4
  else if step = 'F' then some 5
  else if step = 'G' then some 7
  else none

/-- A chord of 101 notes for the stability preference: the first note (pitch 65 on string 1,
fret 6) and the last note (pitch 64, no string) get the same sort key; the note at
position 50 has pitch 59 and the stale position string 2, fret 0. -/
def stabilityChord : List Note :=
  ⟨65, 1, 6, false⟩ ::
    (List.replicate 49 ⟨30, STRING_NONE, FRET_NONE, false⟩ ++
      (⟨59, 2, 0, false⟩ ::
        (List.replicate 49 ⟨30, STRING_NONE, FRET_NONE, false⟩ ++
          [⟨64, STRING_NONE, FRET_NONE, false⟩])))

/-- A chord of 101 notes without positions whose pitches are all below the lowest string: the
first note (pitch 30) and the last note (pitch 29) get the same sort key. -/
def unfrettableChord : List Note :=
  List.replicate 100 ⟨30, STRING_NONE, FRET_NONE, false⟩ ++
    [⟨29, STRING_NONE, FRET_NONE, false⟩]

/-- A chord of 101 notes in which the first note (pitch 45 on string 4, fret 0, a valid
position, conflict flag set) and the last note (pitch 44 with the stale position string 4,
fret 0) get the same sort key. -/
def reuseChord : List Note :=
  ⟨45, 4, 0, true⟩ ::
    (List.replicate 99 ⟨30, STRING_NONE, FRET_NONE, false⟩ ++ [⟨44, 4, 0, false⟩])

/-- A chord of 102 notes in which no two notes get the same sort key: the first note has pitch
60 and no string, the last note has pitch 59 and is stored on string 1, fret 0. -/
def interleaveChord : List Note :=
  ⟨60, STRING_NONE, FRET_NONE, false⟩ ::
    (List.replicate 100 ⟨30, STRING_NONE, FRET_NONE, false⟩ ++ [⟨59, 1, 0, false⟩])

/-- The map `π` sends each position of the note list `l` to the position that holds the same
note in the rearranged list `l'`. -/
structure Rearranged (π : Nat → Nat) (l l' : List Note) : Prop where
  length_eq : l'.length = l.length
  lt : ∀ j, j < l.length → π j < l.length
  inj : ∀ j1 j2, j1 < l.length → j2 < l.length → π j1 = π j2 → j1 = j2
  get : ∀ j, j < l.length → l'[π j]? = l[j]?

/-- The loop states of two runs of `fretChord`, on a chord of `n` notes and on a
rearrangement of it, agree: `bUsed` is the same and position `π j` of the second holds the
note at position `j` of the first. -/
structure SameScan (π : Nat → Nat) (n : Nat) (s s' : Scan) : Prop where
  length : s.notes.length = n
  length' : s'.notes.length = n
  notes : ∀ j, j < n → s'.notes[π j]? = s.notes[j]?
  bUsed : s'.bUsed = s.bUsed

/-! ## Theorems -/

theorem listAt_natCast {α : Type} (l : List α) (i : Nat) : listAt l (i : Int) = l[i]? := by
  simp [listAt]

theorem listAt_of_nonneg {α : Type} (l : List α) (i : Int) (h : 0 ≤ i) :
    listAt l i = l[i.toNat]? := by
  simp [listAt, not_lt.mpr h]

theorem listAt_of_neg {α : Type} (l : List α) (i : Int) (h : i < 0) : listAt l i = none := by
  simp [listAt, h]

theorem convertPitchLoop_found (t : Tablature) (pitch : Int) (i : Nat) (o : Int)
    (hi : t.stringTable[i]? = some o) (ho : o ≤ pitch) :
    ∀ k, i < k → k ≤ t.stringTable.length →
      (∀ j o', i < j → j < k → t.stringTable[j]? = some o' → pitch < o') →
      convertPitchLoop t pitch k = some ⟨true, t.strings - (i : Int) - 1, pitch - o⟩ := by
  intro k
  induction k with
  | zero => intro h; omega
  | succ k ih =>
    intro hik hk hall
    have hklt : k < t.stringTable.length := by omega
    rw [convertPitchLoop, listAt_natCast, List.getElem?_eq_getElem hklt]
    by_cases hki : k = i
    · subst hki
      rw [List.getElem?_eq_getElem hklt] at hi
      cases hi
      simp [ho]
    · have hlt : pitch < t.stringTable[k] :=
        hall k _ (by omega) (by omega) (List.getElem?_eq_getElem hklt)
      simp only [ge_iff_le, not_le.mpr hlt, if_false]
      exact ih (by omega) (by omega) (fun j o' h1 h2 h3 => hall j o' h1 (by omega) h3)

theorem convertPitchLoop_below (t : Tablature) (pitch : Int) :
    ∀ k, k ≤ t.stringTable.length →
      (∀ j o', j < k → t.stringTable[j]? = some o' → pitch < o') →
      convertPitchLoop t pitch k = some ⟨false, t.strings - 1, 0⟩ := by
  intro k
  induction k with
  | zero => intro _ _; rfl
  | succ k ih =>
    intro hk hall
    have hklt : k < t.stringTable.length := by omega
    rw [convertPitchLoop, listAt_natCast, List.getElem?_eq_getElem hklt]
    have hlt : pitch < t.stringTable[k] :=
      hall k _ (by omega) (List.getElem?_eq_getElem hklt)
    simp only [ge_iff_le, not_le.mpr hlt, if_false]
    exact ih (by omega) (fun j o' h1 h3 => hall j o' (by omega) h3)

theorem convertPitchLoop_fail (t : Tablature) (pitch : Int) :
    ∀ k r, convertPitchLoop t pitch k = some r → r.ok = false →
      ∀ j o', j < k → t.stringTable[j]? = some o' → pitch < o' := by
  intro k
  induction k with
  | zero => intro r _ _ j o' hj; omega
  | succ k ih =>
    intro r hr hok j o' hj hjo
    rw [convertPitchLoop, listAt_natCast] at hr
    cases hk : t.stringTable[k]? with
    | none => rw [hk] at hr; cases hr
    | some ok =>
      rw [hk] at hr
      simp only at hr
      by_cases hge : pitch ≥ ok
      · rw [if_pos hge] at hr
        cases hr
        cases hok
      · rw [if_neg hge] at hr
        by_cases hjk : j = k
        · subst hjk
          rw [hk] at hjo
          cases hjo
          exact not_le.mp hge
        · exact ih r hr hok j o' (by omega) hjo

theorem convertPitchLoop_isSome (t : Tablature) (pitch : Int) :
    ∀ k, k ≤ t.stringTable.length → ∃ r, convertPitchLoop t pitch k = some r := by
  intro k
  induction k with
  | zero => intro _; exact ⟨_, rfl⟩
  | succ k ih =>
    intro hk
    have hklt : k < t.stringTable.length := by omega
    rw [convertPitchLoop, listAt_natCast, List.getElem?_eq_getElem hklt]
    by_cases hge : pitch ≥ t.stringTable[k]
    · simp only [if_pos hge]; exact ⟨_, rfl⟩
    · simp only [if_neg hge]; exact ih (by omega)

theorem listAt_top (t : Tablature) (top : Int) (h : t.stringTable.getLast? = some top) :
    listAt t.stringTable (t.strings - 1) = some top := by
  have hne : t.stringTable ≠ [] := by
    intro h0; rw [h0] at h; cases h
  have hpos : 0 < t.stringTable.length := List.length_pos.mpr hne
  rw [List.getLast?_eq_getElem?] at h
  have : t.strings - 1 = ((t.stringTable.length - 1 : Nat) : Int) := by
    unfold Tablature.strings; omega
  rw [this, listAt_natCast, h]


/-- C1: on a profile with at least one string, a pitch that is not above the open pitch
of the last string plus the fret count and that reaches some string is converted
successfully to visual string `n-1-i` and fret `pitch - stringTable[i]`, where `i`
is the greatest internal index with open pitch at most `pitch`; on the guitar
profile 64, 45 and 52 give (0, 0), (4, 0) and (3, 2). -/
theorem convertPitch_highest_string :
    (∀ (t : Tablature) (pitch : Int) (i : Nat) (o top : Int),
      t.stringTable[i]? = some o → o ≤ pitch →
      (∀ j o', i < j → t.stringTable[j]? = some o' → pitch < o') →
      t.stringTable.getLast? = some top → pitch ≤ top + t.frets →
      convertPitch t pitch = some ⟨true, t.strings - 1 - (i : Int), pitch - o⟩) ∧
    convertPitch guitarTablature 64 = some ⟨true, 0, 0⟩ ∧
    convertPitch guitarTablature 45 = some ⟨true, 4, 0⟩ ∧
    convertPitch guitarTablature 52 = some ⟨true, 3, 2⟩ := by
  refine ⟨?_, by decide, by decide, by decide⟩
  intro t pitch i o top hi ho hall htop hle
  have hilt : i < t.stringTable.length := by
    by_contra hcon
    rw [List.getElem?_eq_none (by omega)] at hi
    cases hi
  rw [convertPitch, listAt_top t top htop]
  simp only [gt_iff_lt, not_lt.mpr hle, if_false]
  rw [convertPitchLoop_found t pitch i o hi ho _ hilt (le_refl _)
    (fun j o' h1 _ h3 => hall j o' h1 h3)]
  congr 2
  omega

/-- Witness for C1: on a two-string profile the pitch 52 is found on internal string 0. -/
theorem convertPitch_highest_string_witness :
    convertPitch ⟨5, [50, 60]⟩ 52 = some ⟨true, 1, 2⟩ :=
  convertPitch_highest_string.1 ⟨5, [50, 60]⟩ 52 0 50 60 rfl (by decide)
    (by
      intro j o' hj h
      match j, hj, h with
      | 1, _, h => cases h; decide
      | (j + 2), _, h => cases h)
    rfl (by decide)

/-- C9: round trip; for a valid visual string and a fret in `[0, fretCount)` the pitch
given by `getPitch` is converted back to the same fret by `fret`. -/
theorem fret_getPitch_round_trip (t : Tablature) (s f : Int)
    (hs : 0 ≤ s ∧ s < t.strings) (hf : 0 ≤ f ∧ f < t.frets) :
    ∃ p, getPitch t s f = some p ∧ fret t p s = some f := by
  have hidx : 0 ≤ t.strings - s - 1 := by omega
  have hlt : (t.strings - s - 1).toNat < t.stringTable.length := by
    unfold Tablature.strings at *; omega
  have hat : listAt t.stringTable (t.strings - s - 1)
      = some (t.stringTable[(t.strings - s - 1).toNat]) := by
    rw [listAt_of_nonneg _ _ hidx, List.getElem?_eq_getElem hlt]
  refine ⟨t.stringTable[(t.strings - s - 1).toNat] + f, ?_, ?_⟩
  · simp [getPitch, hat]
  · have h1 : ¬ (s < 0 ∨ s ≥ t.strings) := by omega
    have h2 : ¬ (f < 0 ∨ t.frets ≤ f) := by omega
    simp [fret, hat, h1, h2]

/-- Witness for C9 on the guitar profile: string 3, fret 2. -/
theorem fret_getPitch_round_trip_witness :
    ∃ p, getPitch guitarTablature 3 2 = some p ∧ fret guitarTablature p 3 = some 2 :=
  fret_getPitch_round_trip guitarTablature 3 2 (by decide) (by decide)

/-- C10: on a profile with at least one string, strictly increasing open pitches and a
fret count that is not negative, `convertPitch` always returns; a pitch above the
highest open pitch plus the fret count gives (string 0, fret 0, failure), a pitch
below the lowest open pitch gives (string n-1, fret 0, failure), and a failure
happens in no other case. -/
theorem convertPitch_failure_edges (t : Tablature) (pitch low top : Int)
    (hinc : t.stringTable.Pairwise (· < ·)) (hfrets : 0 ≤ t.frets)
    (hlow : t.stringTable.head? = some low) (htop : t.stringTable.getLast? = some top) :
    (∃ r, convertPitch t pitch = some r) ∧
    (pitch > top + t.frets → convertPitch t pitch = some ⟨false, 0, 0⟩) ∧
    (pitch < low → convertPitch t pitch = some ⟨false, t.strings - 1, 0⟩) ∧
    (∀ r, convertPitch t pitch = some r → r.ok = false →
      pitch > top + t.frets ∨ pitch < low) := by
  have hne : t.stringTable ≠ [] := by
    intro h0; rw [h0] at hlow; cases hlow
  have hpos : 0 < t.stringTable.length := List.length_pos.mpr hne
  have h0 : t.stringTable[0]? = some low := by rw [← List.head?_eq_getElem?]; exact hlow
  have hlast : t.stringTable[t.stringTable.length - 1]? = some top := by
    rw [← List.getLast?_eq_getElem?]; exact htop
  have hmono : ∀ (j : Nat) (o' : Int), t.stringTable[j]? = some o' → low ≤ o' := by
    intro j o' hj
    have hjlt : j < t.stringTable.length := by
      by_contra hcon
      rw [List.getElem?_eq_none (by omega)] at hj
      cases hj
    rw [List.getElem?_eq_getElem hjlt] at hj
    rw [List.getElem?_eq_getElem hpos] at h0
    cases hj; cases h0
    rcases Nat.eq_zero_or_pos j with hj0 | hj0
    · subst hj0; exact le_refl _
    · exact le_of_lt (List.pairwise_iff_getElem.mp hinc 0 j hpos hjlt hj0)
  have hlowtop : low ≤ top := hmono (t.stringTable.length - 1) top hlast
  refine ⟨?_, ?_, ?_, ?_⟩
  · rw [convertPitch, listAt_top t top htop]
    by_cases hgt : pitch > top + t.frets
    · simp only [if_pos hgt]; exact ⟨_, rfl⟩
    · simp only [if_neg hgt]; exact convertPitchLoop_isSome t pitch _ (le_refl _)
  · intro hgt
    rw [convertPitch, listAt_top t top htop]
    simp only [if_pos hgt]
  · intro hlt
    rw [convertPitch, listAt_top t top htop]
    have hngt : ¬ pitch > top + t.frets := by omega
    simp only [if_neg hngt]
    exact convertPitchLoop_below t pitch _ (le_refl _)
      (fun j o' _ hj => lt_of_lt_of_le hlt (hmono j o' hj))
  · intro r hr hok
    rw [convertPitch, listAt_top t top htop] at hr
    by_cases hgt : pitch > top + t.frets
    · exact Or.inl hgt
    · right
      simp only [if_neg hgt] at hr
      exact convertPitchLoop_fail t pitch _ r hr hok 0 low hpos h0

/-- Witness for C10 on the guitar profile with the pitch 30, below the lowest string. -/
theorem convertPitch_failure_edges_witness :
    (∃ r, convertPitch guitarTablature 30 = some r) ∧
    (30 > 64 + guitarTablature.frets → convertPitch guitarTablature 30 = some ⟨false, 0, 0⟩) ∧
    ((30 : Int) < 40 →
      convertPitch guitarTablature 30 = some ⟨false, guitarTablature.strings - 1, 0⟩) ∧
    (∀ r, convertPitch guitarTablature 30 = some r → r.ok = false →
      30 > 64 + guitarTablature.frets ∨ (30 : Int) < 40) :=
  convertPitch_failure_edges guitarTablature 30 40 64 (by decide) (by decide) rfl rfl

theorem lt_length_of_getElem?_eq_some {α : Type} {l : List α} {i : Nat} {a : α}
    (h : l[i]? = some a) : i < l.length := by
  by_contra hcon
  rw [List.getElem?_eq_none (by omega)] at h
  cases h

theorem setFretConflict_eq (s : Scan) (i : Nat) (note : Note) (b : Bool)
    (h : s.notes[i]? = some note) :
    setFretConflict s i b = ⟨s.notes.set i { note with fretConflict := b }, s.undo, s.bUsed⟩ := by
  simp [setFretConflict, h]

theorem storeFretting_eq (s : Scan) (i : Nat) (note : Note) (c d : Int)
    (h : s.notes[i]? = some note) :
    storeFretting s i note.string note.fret c d =
      ⟨s.notes.set i ⟨note.pitch, c, d, note.fretConflict⟩,
        s.undo ++ fretChanges i note.string note.fret c d, s.bUsed⟩ := by
  have hlt := lt_length_of_getElem?_eq_some h
  obtain ⟨p, a, b, cf⟩ := note
  have hself : s.notes.set i ⟨p, a, b, cf⟩ = s.notes := by
    apply List.ext_getElem? ; intro j
    by_cases hj : i = j
    · subst hj; rw [List.getElem?_set_self hlt, h]
    · rw [List.getElem?_set_ne hj]
  by_cases h1 : b = d <;> by_cases h2 : a = c
  · subst h1; subst h2
    simp [storeFretting, fretChanges, hself]
  · subst h1
    simp [storeFretting, fretChanges, h2, undoChangeProperty, h]
  · subst h2
    simp [storeFretting, fretChanges, h1, undoChangeProperty, h]
  · simp [storeFretting, fretChanges, h1, h2, undoChangeProperty, h, List.getElem?_set_self hlt]


theorem listAt_eq_some {α : Type} {l : List α} {i : Int} {a : α} (h : listAt l i = some a) :
    0 ≤ i ∧ i.toNat < l.length ∧ l[i.toNat]? = some a := by
  unfold listAt at h
  by_cases hi : i < 0
  · rw [if_pos hi] at h; cases h
  · rw [if_neg hi] at h
    exact ⟨by omega, lt_length_of_getElem?_eq_some h, h⟩

theorem getPitch_eq_some {t : Tablature} {a b p : Int} (h : getPitch t a b = some p) :
    0 ≤ a ∧ a < t.strings := by
  unfold getPitch at h
  cases hat : listAt t.stringTable (t.strings - a - 1) with
  | none => rw [hat] at h; cases h
  | some o =>
    have := listAt_eq_some hat
    unfold Tablature.strings at *
    omega

theorem convertPitchLoop_ok (t : Tablature) (pitch : Int) :
    ∀ k r, k ≤ t.stringTable.length → convertPitchLoop t pitch k = some r → r.ok = true →
      getPitch t r.string r.fret = some pitch ∧ 0 ≤ r.fret := by
  intro k
  induction k with
  | zero => intro r _ hr hok; cases hr; cases hok
  | succ k ih =>
    intro r hk hr hok
    rw [convertPitchLoop, listAt_natCast] at hr
    cases hkk : t.stringTable[k]? with
    | none => rw [hkk] at hr; cases hr
    | some ok =>
      rw [hkk] at hr
      simp only at hr
      by_cases hge : pitch ≥ ok
      · rw [if_pos hge] at hr
        cases hr
        have hidx : t.strings - (t.strings - (k : Int) - 1) - 1 = (k : Int) := by omega
        simp only [getPitch, hidx, listAt_natCast, hkk]
        constructor
        · congr 1; omega
        · omega
      · rw [if_neg hge] at hr
        exact ih r (by omega) hr hok

theorem convertPitch_ok {t : Tablature} {pitch : Int} {r : Fretting}
    (h : convertPitch t pitch = some r) (hok : r.ok = true) :
    getPitch t r.string r.fret = some pitch ∧ 0 ≤ r.fret := by
  unfold convertPitch at h
  cases htop : listAt t.stringTable (t.strings - 1) with
  | none => rw [htop] at h; cases h
  | some top =>
    rw [htop] at h
    simp only at h
    by_cases hgt : pitch > top + t.frets
    · rw [if_pos hgt] at h; cases h; cases hok
    · rw [if_neg hgt] at h
      exact convertPitchLoop_ok t pitch _ r (le_refl _) h hok

theorem fret_ok {t : Tablature} {pitch a f : Int} (h : fret t pitch a = some f)
    (hf : f ≠ FRET_NONE) :
    getPitch t a f = some pitch ∧ 0 ≤ a ∧ a < t.strings ∧ 0 ≤ f ∧ f < t.frets := by
  unfold fret at h
  by_cases ha : a < 0 ∨ a ≥ t.strings
  · rw [if_pos ha] at h; cases h; exact absurd rfl hf
  · rw [if_neg ha] at h
    cases hat : listAt t.stringTable (t.strings - a - 1) with
    | none => rw [hat] at h; cases h
    | some o =>
      rw [hat] at h
      simp only at h
      by_cases hr : pitch - o < 0 ∨ pitch - o ≥ t.frets
      · rw [if_pos hr] at h; cases h; exact absurd rfl hf
      · rw [if_neg hr] at h
        cases h
        refine ⟨?_, by omega, by omega, by omega, by omega⟩
        simp only [getPitch, hat]
        congr 1; omega

theorem chooseTarget_position {t : Tablature} {sorted : List Nat} {notes : List Note}
    {i : Nat} {note : Note} {a b : Int}
    (h : chooseTarget t sorted notes i note = some (.position a b)) :
    getPitch t a b = some note.pitch := by
  unfold chooseTarget at h
  cases hn : needsFretting t note with
  | none => rw [hn] at h; cases h
  | some st =>
    rw [hn] at h
    cases st with
    | false =>
      simp only at h
      cases h
      unfold needsFretting at hn
      by_cases hs : note.string = STRING_NONE ∨ note.fret = FRET_NONE
      · rw [if_pos hs] at hn; cases hn
      · rw [if_neg hs] at hn
        cases hg : getPitch t note.string note.fret with
        | none => rw [hg] at hn; cases hn
        | some p =>
          rw [hg] at hn
          simp only [Option.some.injEq, decide_eq_false_iff_not, ne_eq, not_not] at hn
          rw [hn]
    | true =>
      simp only at h
      cases hc : convertPitch t note.pitch with
      | none => rw [hc] at h; cases h
      | some r =>
        rw [hc] at h
        simp only at h
        by_cases hok : r.ok = false
        · rw [if_pos hok] at h; cases h
        · rw [if_neg hok] at h
          have hok' : r.ok = true := by simpa using hok
          by_cases ho : otherNoteOnString notes i r.string sorted = true
          · rw [if_pos ho] at h
            cases hf : fret t note.pitch note.string with
            | none => rw [hf] at h; cases h
            | some f =>
              rw [hf] at h
              simp only at h
              by_cases hfn : f ≠ FRET_NONE
              · rw [if_pos hfn] at h; cases h
                exact (fret_ok hf hfn).1
              · rw [if_neg hfn] at h; cases h
                exact (convertPitch_ok hc hok').1
          · rw [if_neg ho] at h; cases h
            exact (convertPitch_ok hc hok').1

theorem chooseTarget_unfrettable {t : Tablature} {sorted : List Nat} {notes : List Note}
    {i : Nat} {note : Note} {a b : Int}
    (h : chooseTarget t sorted notes i note = some (.unfrettable a b)) :
    convertPitch t note.pitch = some ⟨false, a, b⟩ := by
  unfold chooseTarget at h
  cases hn : needsFretting t note with
  | none => rw [hn] at h; cases h
  | some st =>
    rw [hn] at h
    cases st with
    | false => cases h
    | true =>
      simp only at h
      cases hc : convertPitch t note.pitch with
      | none => rw [hc] at h; cases h
      | some r =>
        rw [hc] at h
        simp only at h
        by_cases hok : r.ok = false
        · rw [if_pos hok] at h; cases h
          obtain ⟨ok, s, f⟩ := r
          simp only at hok
          rw [hok]
        · rw [if_neg hok] at h
          by_cases ho : otherNoteOnString notes i r.string sorted = true
          · rw [if_pos ho] at h
            cases hf : fret t note.pitch note.string with
            | none => rw [hf] at h; cases h
            | some f =>
              rw [hf] at h
              simp only at h
              by_cases hfn : f ≠ FRET_NONE
              · rw [if_pos hfn] at h; cases h
              · rw [if_neg hfn] at h; cases h
          · rw [if_neg ho] at h; cases h

theorem findString_none (t : Tablature) (pitch : Int) (bUsed : List Bool) :
    ∀ k j0, findString t pitch bUsed k j0 = some none →
      ∀ m, j0 ≤ m → m < j0 + k → bUsed[m]? = some false →
        fret t pitch (m : Int) = some FRET_NONE := by
  intro k
  induction k with
  | zero => intro j0 _ m h1 h2; omega
  | succ k ih =>
    intro j0 h m h1 h2 hm
    rw [findString, listAt_natCast] at h
    cases hb : bUsed[j0]? with
    | none => rw [hb] at h; cases h
    | some b =>
      rw [hb] at h
      cases b with
      | true =>
        simp only at h
        have hne : m ≠ j0 := by
          intro he; subst he; rw [hb] at hm; cases hm
        exact ih (j0 + 1) h m (by omega) (by omega) hm
      | false =>
        simp only at h
        cases hf : fret t pitch (j0 : Int) with
        | none => rw [hf] at h; cases h
        | some f =>
          rw [hf] at h
          simp only at h
          by_cases hfn : f ≠ FRET_NONE
          · rw [if_pos hfn] at h; cases h
          · rw [if_neg hfn] at h
            by_cases he : m = j0
            · subst he
              rw [hf]
              simpa using hfn
            · exact ih (j0 + 1) h m (by omega) (by omega) hm

theorem findString_some (t : Tablature) (pitch : Int) (bUsed : List Bool) :
    ∀ k j0 a f, findString t pitch bUsed k j0 = some (some (a, f)) →
      ∃ m : Nat, a = (m : Int) ∧ j0 ≤ m ∧ m < j0 + k ∧ bUsed[m]? = some false ∧
        fret t pitch (m : Int) = some f ∧ f ≠ FRET_NONE ∧
        ∀ m', j0 ≤ m' → m' < m → bUsed[m']? = some false →
          fret t pitch (m' : Int) = some FRET_NONE := by
  intro k
  induction k with
  | zero => intro j0 a f h; cases h
  | succ k ih =>
    intro j0 a f h
    rw [findString, listAt_natCast] at h
    cases hb : bUsed[j0]? with
    | none => rw [hb] at h; cases h
    | some b =>
      rw [hb] at h
      cases b with
      | true =>
        simp only at h
        obtain ⟨m, h1, h2, h3, h4, h5, h6, h7⟩ := ih (j0 + 1) a f h
        refine ⟨m, h1, by omega, by omega, h4, h5, h6, ?_⟩
        intro m' hm1 hm2 hm3
        by_cases he : m' = j0
        · subst he; rw [hb] at hm3; cases hm3
        · exact h7 m' (by omega) hm2 hm3
      | false =>
        simp only at h
        cases hf : fret t pitch (j0 : Int) with
        | none => rw [hf] at h; cases h
        | some f0 =>
          rw [hf] at h
          simp only at h
          by_cases hfn : f0 ≠ FRET_NONE
          · rw [if_pos hfn] at h
            simp only [Option.some.injEq, Prod.mk.injEq] at h
            obtain ⟨h1, h2⟩ := h
            subst h2
            exact ⟨j0, h1.symm, le_refl _, by omega, hb, hf, hfn,
              fun m' hm1 hm2 _ => by omega⟩
          · rw [if_neg hfn] at h
            obtain ⟨m, h1, h2, h3, h4, h5, h6, h7⟩ := ih (j0 + 1) a f h
            refine ⟨m, h1, by omega, by omega, h4, h5, h6, ?_⟩
            intro m' hm1 hm2 hm3
            by_cases he : m' = j0
            · subst he; rw [hf]; simpa using hfn
            · exact h7 m' (by omega) hm2 hm3


theorem fretNote_cases {t : Tablature} {sorted : List Nat} {s s' : Scan} {i : Nat}
    {note : Note} (hni : s.notes[i]? = some note) (h : fretNote t sorted s i = some s') :
    (∃ a b, chooseTarget t sorted (s.notes.set i { note with fretConflict := false }) i note
          = some (.unfrettable a b) ∧
        s' = ⟨s.notes.set i ⟨note.pitch, a, b, true⟩,
          s.undo ++ fretChanges i note.string note.fret a b, s.bUsed⟩) ∨
    (∃ a b, chooseTarget t sorted (s.notes.set i { note with fretConflict := false }) i note
          = some (.position a b) ∧ listAt s.bUsed a = some false ∧
        s' = ⟨s.notes.set i ⟨note.pitch, a, b, false⟩,
          s.undo ++ fretChanges i note.string note.fret a b, s.bUsed.set a.toNat true⟩) ∨
    (∃ a b, chooseTarget t sorted (s.notes.set i { note with fretConflict := false }) i note
          = some (.position a b) ∧ listAt s.bUsed a = some true ∧
        findString t note.pitch s.bUsed t.stringTable.length 0 = some none ∧
        s' = ⟨s.notes.set i ⟨note.pitch, note.string, note.fret, true⟩, s.undo, s.bUsed⟩) ∨
    (∃ a b k f, chooseTarget t sorted (s.notes.set i { note with fretConflict := false }) i note
          = some (.position a b) ∧ listAt s.bUsed a = some true ∧
        findString t note.pitch s.bUsed t.stringTable.length 0 = some (some (k, f)) ∧
        s' = ⟨s.notes.set i ⟨note.pitch, k, f, false⟩,
          s.undo ++ fretChanges i note.string note.fret k f, s.bUsed.set k.toNat true⟩) := by
  have hlt := lt_length_of_getElem?_eq_some hni
  have h1 : setFretConflict s i false
      = ⟨s.notes.set i { note with fretConflict := false }, s.undo, s.bUsed⟩ :=
    setFretConflict_eq s i note false hni
  have hni1 : (s.notes.set i { note with fretConflict := false })[i]?
      = some { note with fretConflict := false } := List.getElem?_set_self hlt
  unfold fretNote at h
  rw [hni] at h
  simp only [h1] at h
  cases hc : chooseTarget t sorted (s.notes.set i { note with fretConflict := false }) i note with
  | none => rw [hc] at h; cases h
  | some tg =>
    rw [hc] at h
    cases tg with
    | unfrettable a b =>
      left
      refine ⟨a, b, rfl, ?_⟩
      simp only [Option.some.injEq] at h
      rw [← h, setFretConflict_eq _ i _ true hni1]
      have hni2 : ((s.notes.set i { note with fretConflict := false }).set i
          ⟨note.pitch, note.string, note.fret, true⟩)[i]?
          = some ⟨note.pitch, note.string, note.fret, true⟩ :=
        List.getElem?_set_self (by simpa using hlt)
      have := storeFretting_eq
        ⟨(s.notes.set i { note with fretConflict := false }).set i
          ⟨note.pitch, note.string, note.fret, true⟩, s.undo, s.bUsed⟩ i
        ⟨note.pitch, note.string, note.fret, true⟩ a b hni2
      simp only at this
      rw [this]
      simp [List.set_set]
    | position a b =>
      right
      simp only at h
      have hstore : ∀ c d, storeFretting
          ⟨s.notes.set i { note with fretConflict := false }, s.undo, s.bUsed⟩ i
          note.string note.fret c d
          = ⟨s.notes.set i ⟨note.pitch, c, d, false⟩,
              s.undo ++ fretChanges i note.string note.fret c d, s.bUsed⟩ := by
        intro c d
        have := storeFretting_eq
          ⟨s.notes.set i { note with fretConflict := false }, s.undo, s.bUsed⟩ i
          { note with fretConflict := false } c d hni1
        simp only at this
        rw [this]
        simp [List.set_set]
      cases hb : listAt s.bUsed a with
      | none => rw [hb] at h; cases h
      | some u =>
        rw [hb] at h
        cases u with
        | false =>
          left
          simp only [Option.some.injEq] at h
          refine ⟨a, b, rfl, hb, ?_⟩
          rw [← h, hstore]
          rfl
        | true =>
          right
          simp only at h
          cases hf : findString t note.pitch s.bUsed t.stringTable.length 0 with
          | none => rw [hf] at h; cases h
          | some res =>
            rw [hf] at h
            cases res with
            | none =>
              left
              simp only [Option.some.injEq] at h
              refine ⟨a, b, rfl, hb, rfl, ?_⟩
              rw [← h, setFretConflict_eq _ i _ true hni1]
              simp [List.set_set]
            | some kf =>
              right
              obtain ⟨k, f⟩ := kf
              simp only [Option.some.injEq] at h
              refine ⟨a, b, k, f, rfl, hb, rfl, ?_⟩
              rw [← h, hstore]
              rfl


theorem fretNote_note {t : Tablature} {sorted : List Nat} {s s' : Scan} {i : Nat}
    (h : fretNote t sorted s i = some s') : ∃ note, s.notes[i]? = some note := by
  unfold fretNote at h
  cases hni : s.notes[i]? with
  | none => rw [hni] at h; cases h
  | some note => exact ⟨note, rfl⟩

theorem fretNote_spec {t : Tablature} {sorted : List Nat} {s s' : Scan} {i : Nat}
    {note : Note} (hlen : s.bUsed.length = t.stringTable.length)
    (hni : s.notes[i]? = some note) (h : fretNote t sorted s i = some s') :
    ∃ n' : Note, n'.pitch = note.pitch ∧ s'.notes = s.notes.set i n' ∧
      ((n'.fretConflict = true ∧ s'.bUsed = s.bUsed ∧
          ((∃ r, convertPitch t note.pitch = some r ∧ r.ok = false) ∨
            ∀ k : Nat, s.bUsed[k]? = some false →
              fret t note.pitch (k : Int) = some FRET_NONE)) ∨
        (n'.fretConflict = false ∧ ∃ k : Nat, n'.string = (k : Int) ∧
          s.bUsed[k]? = some false ∧ s'.bUsed = s.bUsed.set k true ∧
          getPitch t n'.string n'.fret = some n'.pitch)) := by
  rcases fretNote_cases hni h with
    ⟨a, b, hc, rfl⟩ | ⟨a, b, hc, hb, rfl⟩ | ⟨a, b, hc, hb, hf, rfl⟩ | ⟨a, b, k, f, hc, hb, hf, rfl⟩
  · exact ⟨⟨note.pitch, a, b, true⟩, rfl, rfl,
      Or.inl ⟨rfl, rfl, Or.inl ⟨_, chooseTarget_unfrettable hc, rfl⟩⟩⟩
  · obtain ⟨h0, _, hget⟩ := listAt_eq_some hb
    refine ⟨⟨note.pitch, a, b, false⟩, rfl, rfl,
      Or.inr ⟨rfl, a.toNat, ?_, hget, rfl,
        (chooseTarget_position hc : getPitch t a b = some note.pitch)⟩⟩
    simp only
    omega
  · refine ⟨⟨note.pitch, note.string, note.fret, true⟩, rfl, rfl, Or.inl ⟨rfl, rfl, Or.inr ?_⟩⟩
    intro k hk
    have hklt := lt_length_of_getElem?_eq_some hk
    exact findString_none t note.pitch s.bUsed _ 0 hf k (Nat.zero_le _) (by omega) hk
  · obtain ⟨m, hm, _, _, hbm, hfm, hfn, _⟩ := findString_some t note.pitch s.bUsed _ 0 k f hf
    subst hm
    refine ⟨⟨note.pitch, (m : Int), f, false⟩, rfl, rfl,
      Or.inr ⟨rfl, m, rfl, hbm, ?_, (fret_ok hfm hfn).1⟩⟩
    simp

theorem ScanInv.step {t : Tablature} {sorted : List Nat} {notes0 : List Note}
    {done : List Nat} {s s' : Scan} {i : Nat} (inv : ScanInv t notes0 done s)
    (hi : i ∉ done) (h : fretNote t sorted s i = some s') :
    ScanInv t notes0 (i :: done) s' := by
  obtain ⟨note, hni⟩ := fretNote_note h
  have hlt := lt_length_of_getElem?_eq_some hni
  obtain ⟨n', hp, hnotes, hcase⟩ := fretNote_spec inv.length_bUsed hni h
  have hself : s'.notes[i]? = some n' := by rw [hnotes]; exact List.getElem?_set_self hlt
  have hother : ∀ j : Nat, j ≠ i → s'.notes[j]? = s.notes[j]? := by
    intro j hj; rw [hnotes]; exact List.getElem?_set_ne (Ne.symm hj)
  have hdone : ∀ j ∈ done, s'.notes[j]? = s.notes[j]? := by
    intro j hj; exact hother j (fun he => hi (he ▸ hj))
  have hholds : ∀ j ∈ done, ∀ k, HoldsString s'.notes j k ↔ HoldsString s.notes j k := by
    intro j hj k; unfold HoldsString; rw [hdone j hj]
  -- the array bUsed only grows
  have hmono : ∀ k : Nat, s.bUsed[k]? = some true → s'.bUsed[k]? = some true := by
    intro k hk
    rcases hcase with ⟨_, hb, _⟩ | ⟨_, k0, _, hb0, hb, _⟩
    · rw [hb]; exact hk
    · rw [hb, List.getElem?_set]
      split
      · simp [lt_length_of_getElem?_eq_some hb0]
      · exact hk
  have hfalse : ∀ k : Nat, s'.bUsed[k]? = some false → s.bUsed[k]? = some false := by
    intro k hk
    rcases hcase with ⟨_, hb, _⟩ | ⟨_, k0, _, _, hb, _⟩
    · rw [hb] at hk; exact hk
    · rw [hb, List.getElem?_set] at hk
      split at hk
      · split at hk <;> cases hk
      · exact hk
  refine ⟨?_, ?_, ?_, ?_, ?_, ?_, ?_, ?_⟩
  · rw [hnotes, List.length_set]; exact inv.length_notes
  · rcases hcase with ⟨_, hb, _⟩ | ⟨_, k0, _, _, hb, _⟩
    · rw [hb]; exact inv.length_bUsed
    · rw [hb, List.length_set]; exact inv.length_bUsed
  · intro j
    by_cases hj : j = i
    · subst hj; rw [hself, ← inv.pitch, hni]; simp [hp]
    · rw [hother j hj]; exact inv.pitch j
  · intro j hj
    have hji : j ≠ i := fun he => hj (he ▸ List.mem_cons_self _ _)
    rw [hother j hji]
    exact inv.untouched j (fun hm => hj (List.mem_cons_of_mem _ hm))
  · intro j hj nt hnt hcf
    rcases List.mem_cons.mp hj with rfl | hjd
    · rw [hself] at hnt
      cases hnt
      rcases hcase with ⟨hcf', _⟩ | ⟨_, k0, hs, hb0, hb, hg⟩
      · rw [hcf] at hcf'; cases hcf'
      · refine ⟨k0, hs, ?_, hg⟩
        rw [hb]
        exact List.getElem?_set_self (lt_length_of_getElem?_eq_some hb0)
    · rw [hdone j hjd] at hnt
      obtain ⟨k, h1, h2, h3⟩ := inv.placed j hjd nt hnt hcf
      exact ⟨k, h1, hmono k h2, h3⟩
  · intro k hk
    by_cases hold : s.bUsed[k]? = some true
    · obtain ⟨j, hj, hh⟩ := inv.holder k hold
      exact ⟨j, List.mem_cons_of_mem _ hj, (hholds j hj k).mpr hh⟩
    · rcases hcase with ⟨_, hb, _⟩ | ⟨hcf, k0, hs, hb0, hb, hg⟩
      · rw [hb] at hk; exact absurd hk hold
      · rw [hb, List.getElem?_set] at hk
        split at hk
        · rename_i hkk
          subst hkk
          exact ⟨i, List.mem_cons_self _ _, n', hself, hcf, hs⟩
        · exact absurd hk hold
  · -- a note placed now sits on a string that was free, a note placed before on a used one
    have hnew : ∀ j ∈ done, ∀ k, HoldsString s'.notes i k → HoldsString s.notes j k → False := by
      intro j hj k hik hjk
      obtain ⟨n1, hn1, hcf1, hs1⟩ := hik
      rw [hself] at hn1
      cases hn1
      obtain ⟨n2, hn2, hcf2, hs2⟩ := hjk
      obtain ⟨k2, hk2, hb2, _⟩ := inv.placed j hj n2 hn2 hcf2
      rcases hcase with ⟨hcf', _⟩ | ⟨_, k0, hs, hb0, _, _⟩
      · rw [hcf1] at hcf'; cases hcf'
      · have e1 : k0 = k := by omega
        have e2 : k2 = k := by omega
        subst e1; subst e2
        rw [hb0] at hb2; cases hb2
    intro j1 hj1 j2 hj2 k h1 h2
    rcases List.mem_cons.mp hj1 with rfl | hd1 <;> rcases List.mem_cons.mp hj2 with rfl | hd2
    · rfl
    · exact (hnew j2 hd2 k h1 ((hholds j2 hd2 k).mp h2)).elim
    · exact (hnew j1 hd1 k h2 ((hholds j1 hd1 k).mp h1)).elim
    · exact inv.inj j1 hd1 j2 hd2 k ((hholds j1 hd1 k).mp h1) ((hholds j2 hd2 k).mp h2)
  · intro j hj nt hnt hcf
    rcases List.mem_cons.mp hj with rfl | hjd
    · rw [hself] at hnt
      cases hnt
      rcases hcase with ⟨_, _, hmax⟩ | ⟨hcf', _⟩
      · rcases hmax with hconv | hall
        · left; rw [hp]; exact hconv
        · right; intro k hk; rw [hp]; exact hall k (hfalse k hk)
      · rw [hcf] at hcf'; cases hcf'
    · rw [hdone j hjd] at hnt
      rcases inv.maximal j hjd nt hnt hcf with hconv | hall
      · exact Or.inl hconv
      · exact Or.inr (fun k hk => hall k (hfalse k hk))


theorem ScanInv.init (t : Tablature) (notes0 : List Note) (undo : List Change) :
    ScanInv t notes0 [] ⟨notes0, undo, List.replicate t.stringTable.length false⟩ := by
  refine ⟨rfl, by simp, fun _ => rfl, fun _ _ => rfl, ?_, ?_, ?_, ?_⟩
  · intro j hj; cases hj
  · intro k hk
    simp only [List.getElem?_replicate] at hk
    split at hk <;> cases hk
  · intro j hj; cases hj
  · intro j hj; cases hj

theorem ScanInv.loop {t : Tablature} {sorted : List Nat} {notes0 : List Note} :
    ∀ (rest done : List Nat) (s s' : Scan), ScanInv t notes0 done s →
      (∀ i ∈ rest, i ∉ done) → rest.Nodup → fretLoop t sorted rest s = some s' →
      ScanInv t notes0 (rest.reverse ++ done) s' := by
  intro rest
  induction rest with
  | nil =>
    intro done s s' inv _ _ h
    simp only [fretLoop, Option.some.injEq] at h
    subst h
    simpa using inv
  | cons i rest ih =>
    intro done s s' inv hnot hnd h
    rw [fretLoop] at h
    cases h1 : fretNote t sorted s i with
    | none => rw [h1] at h; cases h
    | some s1 =>
      rw [h1] at h
      simp only at h
      have hi : i ∉ done := hnot i (List.mem_cons_self _ _)
      have inv1 := inv.step hi h1
      have hnd' := List.nodup_cons.mp hnd
      have := ih (i :: done) s1 s' inv1
        (by
          intro j hj hmem
          rcases List.mem_cons.mp hmem with rfl | hm
          · exact hnd'.1 hj
          · exact hnot j (List.mem_cons_of_mem _ hj) hm)
        hnd'.2 h
      simpa [List.reverse_cons, List.append_assoc] using this

/-! ### The map `sortedNotes` -/

theorem mem_qmapInsert {m : List (Int × Nat)} {key : Int} {v : Nat} {e : Int × Nat}
    (h : e ∈ qmapInsert m key v) : e = (key, v) ∨ e ∈ m := by
  induction m with
  | nil => simp only [qmapInsert, List.mem_singleton] at h; exact Or.inl h
  | cons hd tl ih =>
    obtain ⟨k, w⟩ := hd
    rw [qmapInsert] at h
    by_cases h1 : key < k
    · rw [if_pos h1] at h
      rcases List.mem_cons.mp h with h | h
      · exact Or.inl h
      · exact Or.inr h
    · rw [if_neg h1] at h
      by_cases h2 : key = k
      · rw [if_pos h2] at h
        rcases List.mem_cons.mp h with h | h
        · left; rw [h, h2]
        · exact Or.inr (List.mem_cons_of_mem _ h)
      · rw [if_neg h2] at h
        rcases List.mem_cons.mp h with h | h
        · right; rw [h]; exact List.mem_cons_self _ _
        · rcases ih h with h | h
          · exact Or.inl h
          · exact Or.inr (List.mem_cons_of_mem _ h)

theorem mem_qmapInsert_self (m : List (Int × Nat)) (key : Int) (v : Nat) :
    (key, v) ∈ qmapInsert m key v := by
  induction m with
  | nil => simp [qmapInsert]
  | cons hd tl ih =>
    obtain ⟨k, w⟩ := hd
    rw [qmapInsert]
    by_cases h1 : key < k
    · rw [if_pos h1]; exact List.mem_cons_self _ _
    · rw [if_neg h1]
      by_cases h2 : key = k
      · rw [if_pos h2, h2]; exact List.mem_cons_self _ _
      · rw [if_neg h2]; exact List.mem_cons_of_mem _ ih

theorem mem_qmapInsert_of_mem {m : List (Int × Nat)} {key : Int} {v : Nat} {e : Int × Nat}
    (h : e ∈ m) (hne : e.1 ≠ key) : e ∈ qmapInsert m key v := by
  induction m with
  | nil => cases h
  | cons hd tl ih =>
    obtain ⟨k, w⟩ := hd
    rw [qmapInsert]
    by_cases h1 : key < k
    · rw [if_pos h1]; exact List.mem_cons_of_mem _ h
    · rw [if_neg h1]
      by_cases h2 : key = k
      · rw [if_pos h2]
        rcases List.mem_cons.mp h with h | h
        · rw [h] at hne; exact absurd h2.symm hne
        · exact List.mem_cons_of_mem _ h
      · rw [if_neg h2]
        rcases List.mem_cons.mp h with h | h
        · rw [h]; exact List.mem_cons_self _ _
        · exact List.mem_cons_of_mem _ (ih h)

theorem nodup_qmapInsert {m : List (Int × Nat)} {key : Int} {v : Nat}
    (hnd : (m.map Prod.snd).Nodup) (hv : v ∉ m.map Prod.snd) :
    ((qmapInsert m key v).map Prod.snd).Nodup := by
  induction m with
  | nil => simp [qmapInsert]
  | cons hd tl ih =>
    obtain ⟨k, w⟩ := hd
    simp only [List.map_cons, List.nodup_cons, List.mem_cons, not_or] at hnd hv
    rw [qmapInsert]
    by_cases h1 : key < k
    · rw [if_pos h1]
      simp only [List.map_cons, List.nodup_cons, List.mem_cons, not_or]
      exact ⟨⟨hv.1, hv.2⟩, hnd.1, hnd.2⟩
    · rw [if_neg h1]
      by_cases h2 : key = k
      · rw [if_pos h2]
        simp only [List.map_cons, List.nodup_cons]
        exact ⟨hv.2, hnd.2⟩
      · rw [if_neg h2]
        simp only [List.map_cons, List.nodup_cons]
        refine ⟨?_, ih hnd.2 hv.2⟩
        intro hmem
        obtain ⟨e, he, hew⟩ := List.mem_map.mp hmem
        rcases mem_qmapInsert he with h | h
        · rw [h] at hew; exact hv.1 hew
        · exact hnd.1 (hew ▸ List.mem_map_of_mem Prod.snd h)

theorem fillSortedNotes_spec :
    ∀ (notes : List Note) (idx : Nat) (m : List (Int × Nat)),
      (m.map Prod.snd).Nodup → (∀ v ∈ m.map Prod.snd, v < idx) →
      ((fillSortedNotes notes idx m).map Prod.snd).Nodup ∧
      ∀ v ∈ (fillSortedNotes notes idx m).map Prod.snd, v < idx + notes.length := by
  intro notes
  induction notes with
  | nil => intro idx m hnd hlt; exact ⟨hnd, hlt⟩
  | cons note rest ih =>
    intro idx m hnd hlt
    rw [fillSortedNotes]
    have hv : idx ∉ m.map Prod.snd := fun hmem => Nat.lt_irrefl _ (hlt idx hmem)
    have h1 := @nodup_qmapInsert m (sortKey note idx) idx hnd hv
    have h2 : ∀ v ∈ (qmapInsert m (sortKey note idx) idx).map Prod.snd, v < idx + 1 := by
      intro v hmem
      obtain ⟨e, he, hev⟩ := List.mem_map.mp hmem
      rcases mem_qmapInsert he with h | h
      · rw [h] at hev; simp only at hev; omega
      · have := hlt v (hev ▸ List.mem_map_of_mem Prod.snd h); omega
    obtain ⟨h3, h4⟩ := ih (idx + 1) _ h1 h2
    refine ⟨h3, ?_⟩
    intro v hmem
    have := h4 v hmem
    simp only [List.length_cons]
    omega

theorem sortedNotes_nodup (notes : List Note) : (sortedNotes notes).Nodup :=
  (fillSortedNotes_spec notes 0 [] List.nodup_nil (fun _ h => by cases h)).1

theorem sortedNotes_lt (notes : List Note) : ∀ j ∈ sortedNotes notes, j < notes.length := by
  intro j hj
  have := (fillSortedNotes_spec notes 0 [] List.nodup_nil (fun _ h => by cases h)).2 j hj
  omega

theorem sortKey_mod (note : Note) (idx : Nat) : (sortKey note idx + idx) % 100 = 0 := by
  unfold sortKey
  simp only
  split <;> omega

theorem fillSortedNotes_complete :
    ∀ (notes : List Note) (idx : Nat) (m : List (Int × Nat)),
      idx + notes.length ≤ 100 →
      (∀ e ∈ m, (e.1 + (e.2 : Int)) % 100 = 0 ∧ e.2 < idx) →
      (∀ v ∈ m.map Prod.snd, v ∈ (fillSortedNotes notes idx m).map Prod.snd) ∧
      ∀ j, idx ≤ j → j < idx + notes.length →
        j ∈ (fillSortedNotes notes idx m).map Prod.snd := by
  intro notes
  induction notes with
  | nil =>
    intro idx m _ _
    refine ⟨fun v hv => hv, ?_⟩
    intro j h1 h2
    simp only [List.length_nil] at h2
    omega
  | cons note rest ih =>
    intro idx m hle hm
    rw [fillSortedNotes]
    simp only [List.length_cons] at hle
    have hm' : ∀ e ∈ qmapInsert m (sortKey note idx) idx,
        (e.1 + (e.2 : Int)) % 100 = 0 ∧ e.2 < idx + 1 := by
      intro e he
      rcases mem_qmapInsert he with h | h
      · rw [h]; exact ⟨sortKey_mod note idx, Nat.lt_succ_self _⟩
      · exact ⟨(hm e h).1, Nat.lt_succ_of_lt (hm e h).2⟩
    obtain ⟨h1, h2⟩ := ih (idx + 1) _ (by omega) hm'
    have hkeep : ∀ e ∈ m, e ∈ qmapInsert m (sortKey note idx) idx := by
      intro e he
      apply mem_qmapInsert_of_mem he
      intro heq
      have := hm e he
      have := sortKey_mod note idx
      omega
    refine ⟨?_, ?_⟩
    · intro v hv
      obtain ⟨e, he, hev⟩ := List.mem_map.mp hv
      exact h1 v (hev ▸ List.mem_map_of_mem Prod.snd (hkeep e he))
    · intro j hj1 hj2
      simp only [List.length_cons] at hj2
      by_cases hj : j = idx
      · subst hj
        exact h1 j (List.mem_map_of_mem Prod.snd (mem_qmapInsert_self m (sortKey note j) j))
      · exact h2 j (by omega) (by omega)

theorem sortedNotes_complete (notes : List Note) (hlen : notes.length ≤ 100) :
    ∀ j, j < notes.length → j ∈ sortedNotes notes := by
  intro j hj
  exact (fillSortedNotes_complete notes 0 [] (by omega) (fun _ h => by cases h)).2 j
    (Nat.zero_le _) (by omega)


/-! ### The loop returns: no access outside the bounds -/

theorem listAt_isSome {α : Type} (l : List α) (i : Int) (h0 : 0 ≤ i) (h1 : i < l.length) :
    ∃ a, listAt l i = some a := by
  have hlt : i.toNat < l.length := by omega
  exact ⟨l[i.toNat], by rw [listAt_of_nonneg _ _ h0, List.getElem?_eq_getElem hlt]⟩

theorem fret_isSome (t : Tablature) (pitch a : Int) : ∃ f, fret t pitch a = some f := by
  unfold fret
  by_cases ha : a < 0 ∨ a ≥ t.strings
  · rw [if_pos ha]; exact ⟨_, rfl⟩
  · rw [if_neg ha]
    obtain ⟨o, ho⟩ := listAt_isSome t.stringTable (t.strings - a - 1) (by omega)
      (by unfold Tablature.strings at *; omega)
    rw [ho]
    simp only
    split <;> exact ⟨_, rfl⟩

theorem convertPitch_isSome (t : Tablature) (pitch : Int) (hne : t.stringTable ≠ []) :
    ∃ r, convertPitch t pitch = some r := by
  have hpos : 0 < t.stringTable.length := List.length_pos.mpr hne
  obtain ⟨top, htop⟩ := listAt_isSome t.stringTable (t.strings - 1)
    (by unfold Tablature.strings; omega) (by unfold Tablature.strings; omega)
  rw [convertPitch, htop]
  simp only
  split
  · exact ⟨_, rfl⟩
  · exact convertPitchLoop_isSome t pitch _ (le_refl _)

theorem convertPitchLoop_fail_string (t : Tablature) (pitch : Int) :
    ∀ k r, convertPitchLoop t pitch k = some r → r.ok = false →
      r.string = t.strings - 1 ∧ r.fret = 0 := by
  intro k
  induction k with
  | zero => intro r hr _; cases hr; exact ⟨rfl, rfl⟩
  | succ k ih =>
    intro r hr hok
    rw [convertPitchLoop] at hr
    cases hk : listAt t.stringTable (k : Int) with
    | none => rw [hk] at hr; cases hr
    | some o =>
      rw [hk] at hr
      simp only at hr
      split at hr
      · cases hr; cases hok
      · exact ih r hr hok

theorem convertPitch_fail_string {t : Tablature} {pitch : Int} {r : Fretting}
    (h : convertPitch t pitch = some r) (hok : r.ok = false) :
    (r.string = 0 ∨ r.string = t.strings - 1) ∧ r.fret = 0 ∧ 0 < t.strings := by
  unfold convertPitch at h
  cases htop : listAt t.stringTable (t.strings - 1) with
  | none => rw [htop] at h; cases h
  | some top =>
    have hpos : 0 < t.strings := by
      have := listAt_eq_some htop
      omega
    rw [htop] at h
    simp only at h
    split at h
    · cases h; exact ⟨Or.inl rfl, rfl, hpos⟩
    · have := convertPitchLoop_fail_string t pitch _ r h hok
      exact ⟨Or.inr this.1, this.2, hpos⟩

theorem needsFretting_isSome {t : Tablature} {note : Note} (hok : StringOk t note) :
    ∃ b, needsFretting t note = some b := by
  unfold needsFretting
  by_cases hs : note.string = STRING_NONE ∨ note.fret = FRET_NONE
  · rw [if_pos hs]; exact ⟨_, rfl⟩
  · rw [if_neg hs]
    rcases hok with h | h
    · exact absurd (Or.inl h) hs
    · obtain ⟨o, ho⟩ := listAt_isSome t.stringTable (t.strings - note.string - 1) (by omega)
        (by unfold Tablature.strings at *; omega)
      simp only [getPitch, ho]
      exact ⟨_, rfl⟩

theorem chooseTarget_isSome {t : Tablature} (sorted : List Nat) (notes : List Note) (i : Nat)
    {note : Note} (hne : t.stringTable ≠ []) (hok : StringOk t note) :
    ∃ tg, chooseTarget t sorted notes i note = some tg := by
  unfold chooseTarget
  obtain ⟨b, hb⟩ := needsFretting_isSome hok
  rw [hb]
  cases b with
  | false => exact ⟨_, rfl⟩
  | true =>
    simp only
    obtain ⟨r, hr⟩ := convertPitch_isSome t note.pitch hne
    rw [hr]
    simp only
    split
    · exact ⟨_, rfl⟩
    · split
      · obtain ⟨f, hf⟩ := fret_isSome t note.pitch note.string
        rw [hf]
        simp only
        split <;> exact ⟨_, rfl⟩
      · exact ⟨_, rfl⟩

theorem findString_isSome (t : Tablature) (pitch : Int) (bUsed : List Bool) :
    ∀ k j0, j0 + k ≤ bUsed.length → ∃ r, findString t pitch bUsed k j0 = some r := by
  intro k
  induction k with
  | zero => intro j0 _; exact ⟨_, rfl⟩
  | succ k ih =>
    intro j0 hle
    have hlt : j0 < bUsed.length := by omega
    rw [findString, listAt_natCast, List.getElem?_eq_getElem hlt]
    cases bUsed[j0] with
    | true => exact ih (j0 + 1) (by omega)
    | false =>
      simp only
      obtain ⟨f, hf⟩ := fret_isSome t pitch (j0 : Int)
      rw [hf]
      simp only
      split
      · exact ⟨_, rfl⟩
      · exact ih (j0 + 1) (by omega)

theorem fretNote_total {t : Tablature} (sorted : List Nat) {s : Scan} {i : Nat} {note : Note}
    (hne : t.stringTable ≠ []) (hlen : s.bUsed.length = t.stringTable.length)
    (hni : s.notes[i]? = some note) (hok : StringOk t note) :
    ∃ s', fretNote t sorted s i = some s' ∧ s'.bUsed.length = t.stringTable.length ∧
      ∃ n', s'.notes = s.notes.set i n' ∧ StringOk t n' := by
  have hsome : ∃ s', fretNote t sorted s i = some s' := by
    unfold fretNote
    rw [hni]
    simp only [setFretConflict_eq s i note false hni]
    obtain ⟨tg, htg⟩ := chooseTarget_isSome sorted
      (s.notes.set i { note with fretConflict := false }) i hne hok
    rw [htg]
    cases tg with
    | unfrettable a b => exact ⟨_, rfl⟩
    | position a b =>
      simp only
      have hr := getPitch_eq_some (chooseTarget_position htg)
      obtain ⟨u, hu⟩ := listAt_isSome s.bUsed a hr.1
        (by unfold Tablature.strings at hr; omega)
      rw [hu]
      cases u with
      | false => exact ⟨_, rfl⟩
      | true =>
        simp only
        obtain ⟨r, hr⟩ := findString_isSome t note.pitch s.bUsed t.stringTable.length 0
          (by omega)
        rw [hr]
        cases r with
        | none => exact ⟨_, rfl⟩
        | some kf => exact ⟨_, rfl⟩
  obtain ⟨s', hs'⟩ := hsome
  refine ⟨s', hs', ?_, ?_⟩
  · obtain ⟨n', _, _, hcase⟩ := fretNote_spec hlen hni hs'
    rcases hcase with ⟨_, hb, _⟩ | ⟨_, k0, _, _, hb, _⟩
    · rw [hb]; exact hlen
    · rw [hb, List.length_set]; exact hlen
  · rcases fretNote_cases hni hs' with
      ⟨a, b, hc, rfl⟩ | ⟨a, b, hc, hb, rfl⟩ | ⟨a, b, hc, hb, hf, rfl⟩ |
      ⟨a, b, k, f, hc, hb, hf, rfl⟩
    · refine ⟨_, rfl, Or.inr ?_⟩
      have := convertPitch_fail_string (chooseTarget_unfrettable hc) rfl
      simp only at this ⊢
      omega
    · exact ⟨_, rfl, Or.inr (getPitch_eq_some (chooseTarget_position hc))⟩
    · exact ⟨_, rfl, hok⟩
    · obtain ⟨m, hm, _, _, hbm, hfm, hfn, _⟩ := findString_some t note.pitch s.bUsed _ 0 k f hf
      have := fret_ok hfm hfn
      refine ⟨_, rfl, Or.inr ?_⟩
      simp only
      omega

theorem fretLoop_total {t : Tablature} (sorted : List Nat) (hne : t.stringTable ≠ []) :
    ∀ (rest : List Nat) (s : Scan), s.bUsed.length = t.stringTable.length →
      (∀ i ∈ rest, i < s.notes.length) → (∀ note ∈ s.notes, StringOk t note) →
      ∃ s', fretLoop t sorted rest s = some s' := by
  intro rest
  induction rest with
  | nil => intro s _ _ _; exact ⟨s, rfl⟩
  | cons i rest ih =>
    intro s hlen hlt hok
    have hi : i < s.notes.length := hlt i (List.mem_cons_self _ _)
    have hni : s.notes[i]? = some s.notes[i] := List.getElem?_eq_getElem hi
    obtain ⟨s1, hs1, hlen1, n', hn', hok'⟩ :=
      fretNote_total sorted hne hlen hni (hok _ (List.getElem_mem _))
    rw [fretLoop, hs1]
    simp only
    apply ih s1 hlen1
    · intro j hj
      rw [hn', List.length_set]
      exact hlt j (List.mem_cons_of_mem _ hj)
    · intro nt hnt
      rw [hn'] at hnt
      rcases List.mem_or_eq_of_mem_set hnt with h | h
      · exact hok nt h
      · rw [h]; exact hok'

theorem fretChord_total {t : Tablature} {c : ChordState} (hok : ChordOk t c) :
    ∃ c', fretChord t c = some c' := by
  unfold fretChord
  split
  · exact ⟨_, rfl⟩
  · obtain ⟨s', hs'⟩ := fretLoop_total (sortedNotes c.notes) hok.1 (sortedNotes c.notes)
      ⟨c.notes, c.undo, List.replicate t.stringTable.length false⟩ (by simp)
      (sortedNotes_lt c.notes) hok.2
    rw [hs']
    exact ⟨_, rfl⟩

theorem ScanInv.congr {t : Tablature} {notes0 : List Note} {d1 d2 : List Nat} {s : Scan}
    (hd : ∀ j, j ∈ d1 ↔ j ∈ d2) (inv : ScanInv t notes0 d1 s) : ScanInv t notes0 d2 s :=
  ⟨inv.length_notes, inv.length_bUsed, inv.pitch,
    fun j hj => inv.untouched j (fun h => hj ((hd j).mp h)),
    fun j hj => inv.placed j ((hd j).mpr hj),
    fun k hk => by
      obtain ⟨j, hj, hh⟩ := inv.holder k hk
      exact ⟨j, (hd j).mp hj, hh⟩,
    fun j1 h1 j2 h2 => inv.inj j1 ((hd j1).mpr h1) j2 ((hd j2).mpr h2),
    fun j hj => inv.maximal j ((hd j).mpr hj)⟩

theorem fretChord_scan {t : Tablature} {c c' : ChordState} (hb : c.bFretting = false)
    (h : fretChord t c = some c') :
    ∃ s, ScanInv t c.notes (sortedNotes c.notes) s ∧ c'.notes = s.notes ∧
      c'.undo = s.undo ∧ c'.bFretting = false := by
  unfold fretChord at h
  rw [hb] at h
  simp only [Bool.false_eq_true, if_false] at h
  cases hl : fretLoop t (sortedNotes c.notes) (sortedNotes c.notes)
      ⟨c.notes, c.undo, List.replicate t.stringTable.length false⟩ with
  | none => rw [hl] at h; cases h
  | some s =>
    rw [hl] at h
    simp only [Option.some.injEq] at h
    subst h
    refine ⟨s, ?_, rfl, rfl, rfl⟩
    have := ScanInv.loop (sortedNotes c.notes) [] _ s (ScanInv.init t c.notes c.undo)
      (fun _ _ hn => by cases hn) (sortedNotes_nodup c.notes) hl
    exact this.congr (fun j => by simp)

/-- For a chord of at most 100 notes: after a run of `fretChord` that was not nested, a note
without conflict sits on a string of the profile and its string and fret give its pitch. -/
theorem fretChord_pitch_of_no_conflict {t : Tablature} {c c' : ChordState}
    (hb : c.bFretting = false) (hlen : c.notes.length ≤ 100) (h : fretChord t c = some c') :
    ∀ note ∈ c'.notes, note.fretConflict = false →
      0 ≤ note.string ∧ note.string < t.strings ∧
      getPitch t note.string note.fret = some note.pitch := by
  obtain ⟨s, inv, hn, _, _⟩ := fretChord_scan hb h
  intro note hmem hcf
  rw [hn] at hmem
  obtain ⟨j, hj⟩ := List.mem_iff_getElem?.mp hmem
  have hjlt : j < c.notes.length := by
    rw [← inv.length_notes]; exact lt_length_of_getElem?_eq_some hj
  obtain ⟨k, _, _, hg⟩ := inv.placed j (sortedNotes_complete c.notes hlen j hjlt) note hj hcf
  have := getPitch_eq_some hg
  exact ⟨this.1, this.2, hg⟩

/-- For a chord of at most 100 notes: after a run of `fretChord` that was not nested, two
different notes without conflict sit on different strings. -/
theorem fretChord_strings_distinct {t : Tablature} {c c' : ChordState}
    (hb : c.bFretting = false) (hlen : c.notes.length ≤ 100) (h : fretChord t c = some c') :
    ∀ (j1 j2 : Nat) (n1 n2 : Note), c'.notes[j1]? = some n1 → c'.notes[j2]? = some n2 →
      n1.fretConflict = false → n2.fretConflict = false → n1.string = n2.string → j1 = j2 := by
  obtain ⟨s, inv, hn, _, _⟩ := fretChord_scan hb h
  intro j1 j2 n1 n2 h1 h2 hc1 hc2 hs
  rw [hn] at h1 h2
  have hlt : ∀ j n, s.notes[j]? = some n → j ∈ sortedNotes c.notes := by
    intro j n hj
    apply sortedNotes_complete c.notes hlen
    rw [← inv.length_notes]; exact lt_length_of_getElem?_eq_some hj
  obtain ⟨k, hk, _, _⟩ := inv.placed j1 (hlt j1 n1 h1) n1 h1 hc1
  exact inv.inj j1 (hlt j1 n1 h1) j2 (hlt j2 n2 h2) k ⟨n1, h1, hc1, hk⟩
    ⟨n2, h2, hc2, by rw [← hs]; exact hk⟩

theorem fretChord_exists_conflict {t : Tablature} {c c' : ChordState}
    (hb : c.bFretting = false) (hlen : c.notes.length ≤ 100)
    (hlt : t.stringTable.length < c.notes.length) (h : fretChord t c = some c') :
    ∃ note ∈ c'.notes, note.fretConflict = true := by
  obtain ⟨s, inv, hn, _, _⟩ := fretChord_scan hb h
  by_contra hcon
  have hall : ∀ note ∈ s.notes, note.fretConflict = false := by
    intro note hmem
    cases hcf : note.fretConflict with
    | false => rfl
    | true => exact (hcon ⟨note, hn ▸ hmem, hcf⟩).elim
  have hplaced : ∀ j, j < c.notes.length → ∃ k : Nat, HoldsString s.notes j k ∧
      k < t.stringTable.length := by
    intro j hj
    have hj' : j < s.notes.length := by rw [inv.length_notes]; exact hj
    have hnj : s.notes[j]? = some s.notes[j] := List.getElem?_eq_getElem hj'
    have hcf := hall _ (List.getElem_mem hj')
    obtain ⟨k, hk, hbk, _⟩ :=
      inv.placed j (sortedNotes_complete c.notes hlen j hj) _ hnj hcf
    refine ⟨k, ⟨_, hnj, hcf, hk⟩, ?_⟩
    rw [← inv.length_bUsed]
    exact lt_length_of_getElem?_eq_some hbk
  let f : Nat → Nat := fun j => ((s.notes[j]?).map (fun n => n.string.toNat)).getD 0
  have hf : ∀ j k, HoldsString s.notes j k → f j = k := by
    intro j k ⟨n, hnj, _, hs⟩
    simp only [f, hnj, Option.map_some', Option.getD_some, hs, Int.toNat_ofNat]
  obtain ⟨x, hx, y, hy, hxy, hfxy⟩ :=
    Finset.exists_ne_map_eq_of_card_lt_of_maps_to
      (s := Finset.range c.notes.length) (t := Finset.range t.stringTable.length) (f := f)
      (by simpa using hlt)
      (by
        intro j hj
        obtain ⟨k, hk, hklt⟩ := hplaced j (Finset.mem_range.mp hj)
        rw [hf j k hk]
        exact Finset.mem_range.mpr hklt)
  have hx' := Finset.mem_range.mp hx
  have hy' := Finset.mem_range.mp hy
  obtain ⟨k1, hk1, _⟩ := hplaced x hx'
  obtain ⟨k2, hk2, _⟩ := hplaced y hy'
  have e : k1 = k2 := by rw [← hf x k1 hk1, ← hf y k2 hk2]; exact hfxy
  subst e
  exact hxy (inv.inj x (sortedNotes_complete c.notes hlen x hx') y
    (sortedNotes_complete c.notes hlen y hy') k1 hk1 hk2)

set_option maxRecDepth 100000 in
/-- C2 (the code at the failing input): on the guitar profile, in the 101 note chord
`staleChord` the first note gets the same sort key as the last one (-6100), its entry
in `sortedNotes` is replaced and it is never visited; after `fretChord` it still has no
conflict, string 0 and fret 3, while `getPitch(0, 3)` is 67 and its pitch is 61. -/
theorem fretChord_stale_note_kept :
    sortKey ⟨61, 0, 3, false⟩ 0 = -6100 ∧ sortKey ⟨60, 0, 3, false⟩ 100 = -6100 ∧
    0 ∉ sortedNotes staleChord ∧
    (fretChord guitarTablature ⟨false, staleChord, []⟩).map (fun c => c.notes[0]?)
      = some (some ⟨61, 0, 3, false⟩) ∧
    getPitch guitarTablature 0 3 = some 67 := by
  decide

set_option maxRecDepth 100000 in
/-- C3 (the code at the failing input): on the guitar profile, in the 101 note chord
`sharedStringChord` the first note gets the same sort key as the last one (-6500) and
is never visited; after `fretChord` the first and the last note both have no conflict
and both sit on string 0. -/
theorem fretChord_shared_string :
    sortKey ⟨65, 0, 1, false⟩ 0 = -6500 ∧ sortKey ⟨64, 0, 0, false⟩ 100 = -6500 ∧
    0 ∉ sortedNotes sharedStringChord ∧
    (fretChord guitarTablature ⟨false, sharedStringChord, []⟩).map
        (fun c => (c.notes[0]?, c.notes[100]?))
      = some (some ⟨65, 0, 1, false⟩, some ⟨64, 0, 0, false⟩) := by
  decide

/-- C4 (the code at the failing input): on the guitar profile (13 frets) `convertPitch`
accepts the pitch 77 with fret 13 on string 0, a fret that `fret` rejects, and
`fretChord` stores fret 13 without a conflict. -/
theorem fretChord_fret_equals_fretCount :
    convertPitch guitarTablature 77 = some ⟨true, 0, 13⟩ ∧
    fret guitarTablature 77 0 = some FRET_NONE ∧
    fretChord guitarTablature ⟨false, [⟨77, STRING_NONE, FRET_NONE, false⟩], []⟩
      = some ⟨false, [⟨77, 0, 13, false⟩], [⟨0, .P_FRET, 13⟩, ⟨0, .P_STRING, 0⟩]⟩ := by
  decide

/-- C5 (counterexample): on the guitar profile the two note chord with the distinct pitches
40 and 41, each accepted by `convertPitch` and by `fret` on string 5, ends with the
note of pitch 40 in conflict: both pitches can only be played on the lowest string.
A second chord shows that stored positions matter as well: pitch 50 stored on string 5
fret 10 and pitch 42 with the stale position string 5 fret 0 could be played on the
strings 3 and 5, yet the note of pitch 42 ends in conflict. -/
theorem fretChord_full_chord_counterexample :
    convertPitch guitarTablature 40 = some ⟨true, 5, 0⟩ ∧
    convertPitch guitarTablature 41 = some ⟨true, 5, 1⟩ ∧
    fret guitarTablature 40 5 = some 0 ∧ fret guitarTablature 41 5 = some 1 ∧
    fretChord guitarTablature
        ⟨false, [⟨40, STRING_NONE, FRET_NONE, false⟩, ⟨41, STRING_NONE, FRET_NONE, false⟩], []⟩
      = some ⟨false, [⟨40, STRING_NONE, FRET_NONE, true⟩, ⟨41, 5, 1, false⟩],
          [⟨1, .P_FRET, 1⟩, ⟨1, .P_STRING, 5⟩]⟩ ∧
    fret guitarTablature 50 3 = some 0 ∧ fret guitarTablature 42 5 = some 2 ∧
    fretChord guitarTablature ⟨false, [⟨50, 5, 10, false⟩, ⟨42, 5, 0, false⟩], []⟩
      = some ⟨false, [⟨50, 5, 10, false⟩, ⟨42, 5, 0, true⟩], []⟩ := by
  decide

/-- C6 (counterexample): on the guitar profile, for the chord of a note of pitch 45 stored
on string 5 fret 5 and a note of pitch 40 with the stale position string 5 fret 3,
`fretChord` leaves one note in conflict, while the admissible assignment of pitch 45
to string 4 and pitch 40 to string 5 leaves none. -/
theorem fretChord_not_minimal :
    fretChord guitarTablature ⟨false, [⟨45, 5, 5, false⟩, ⟨40, 5, 3, false⟩], []⟩
      = some ⟨false, [⟨45, 5, 5, false⟩, ⟨40, 5, 3, true⟩], []⟩ ∧
    conflictCount [⟨45, 5, 5, false⟩, ⟨40, 5, 3, true⟩] = 1 ∧
    admissible guitarTablature [⟨45, 5, 5, false⟩, ⟨40, 5, 3, false⟩] [some 4, some 5] = true ∧
    unplacedCount [some 4, some 5] = 0 := by
  decide

/-- C6 (amended): after a run of `fretChord` that was not nested on a chord of at most 100
notes, a note is left in conflict only if `convertPitch` rejects its pitch or every
string on which `fret` accepts its pitch is held by a note without conflict. -/
theorem fretChord_conflict_unavoidable (t : Tablature) (c c' : ChordState)
    (hb : c.bFretting = false) (hlen : c.notes.length ≤ 100)
    (h : fretChord t c = some c') :
    ∀ note ∈ c'.notes, note.fretConflict = true →
      (∃ r, convertPitch t note.pitch = some r ∧ r.ok = false) ∨
      ∀ k f : Int, fret t note.pitch k = some f → f ≠ FRET_NONE →
        ∃ other ∈ c'.notes, other.fretConflict = false ∧ other.string = k := by
  obtain ⟨s, inv, hn, _, _⟩ := fretChord_scan hb h
  intro note hmem hcf
  rw [hn] at hmem ⊢
  obtain ⟨j, hj⟩ := List.mem_iff_getElem?.mp hmem
  have hjlt : j < c.notes.length := by
    rw [← inv.length_notes]; exact lt_length_of_getElem?_eq_some hj
  rcases inv.maximal j (sortedNotes_complete c.notes hlen j hjlt) note hj hcf with hconv | hall
  · exact Or.inl hconv
  · right
    intro k f hf hfn
    obtain ⟨_, hk0, hk1, _, _⟩ := fret_ok hf hfn
    have hklt : k.toNat < s.bUsed.length := by
      rw [inv.length_bUsed]; unfold Tablature.strings at hk1; omega
    have hkk : ((k.toNat : Nat) : Int) = k := by omega
    cases hu : s.bUsed[k.toNat] with
    | false =>
      have := hall k.toNat (by rw [List.getElem?_eq_getElem hklt, hu])
      rw [hkk, hf] at this
      exact absurd (Option.some.inj this) hfn
    | true =>
      obtain ⟨j2, _, n2, hn2, hcf2, hs2⟩ :=
        inv.holder k.toNat (by rw [List.getElem?_eq_getElem hklt, hu])
      exact ⟨n2, List.mem_iff_getElem?.mpr ⟨j2, hn2⟩, hcf2, by rw [hs2, hkk]⟩

/-- Witness for C6 (amended): the chord of the counterexample, where the note of pitch 40
stays in conflict because string 5, the only one that accepts it, is held. -/
theorem fretChord_conflict_unavoidable_witness :
    (∃ r, convertPitch guitarTablature 40 = some r ∧ r.ok = false) ∨
      ∀ k f : Int, fret guitarTablature 40 k = some f → f ≠ FRET_NONE →
        ∃ other ∈ [(⟨45, 5, 5, false⟩ : Note), ⟨40, 5, 3, true⟩],
          other.fretConflict = false ∧ other.string = k :=
  fretChord_conflict_unavoidable guitarTablature
    ⟨false, [⟨45, 5, 5, false⟩, ⟨40, 5, 3, false⟩], []⟩
    ⟨false, [⟨45, 5, 5, false⟩, ⟨40, 5, 3, true⟩], []⟩ rfl (by decide) (by decide)
    ⟨40, 5, 3, true⟩ (by decide) rfl

/-- C7: on a profile with 6 strings, a run of `fretChord` that is not nested on a chord of 7
notes returns when the stored strings are `STRING_NONE` or strings of the profile, and
whenever it returns at least one note has its conflict flag set. -/
theorem fretChord_overflow_conflict (t : Tablature) (c : ChordState)
    (hstrings : t.stringTable.length = 6) (hnotes : c.notes.length = 7)
    (hb : c.bFretting = false) :
    (ChordOk t c → ∃ c', fretChord t c = some c') ∧
    ∀ c', fretChord t c = some c' → ∃ note ∈ c'.notes, note.fretConflict = true :=
  ⟨fun hok => fretChord_total hok,
    fun _ h => fretChord_exists_conflict hb (by omega) (by omega) h⟩

/-- Witness for C7: seven notes without a position on the guitar profile. -/
theorem fretChord_overflow_conflict_witness :
    ∃ c', fretChord guitarTablature ⟨false, sevenNotes, []⟩ = some c' ∧
      ∃ note ∈ c'.notes, note.fretConflict = true := by
  have h := fretChord_overflow_conflict guitarTablature ⟨false, sevenNotes, []⟩ rfl rfl rfl
  obtain ⟨c', hc'⟩ := h.1 ⟨by decide, by decide⟩
  exact ⟨c', hc', h.2 c' hc'⟩

theorem set_eq_self_of_getElem? {α : Type} {l : List α} {i : Nat} {a : α}
    (h : l[i]? = some a) : l.set i a = l := by
  apply List.ext_getElem?
  intro j
  by_cases hj : i = j
  · subst hj; rw [List.getElem?_set_self (lt_length_of_getElem?_eq_some h), h]
  · rw [List.getElem?_set_ne hj]

theorem chooseTarget_of_valid {t : Tablature} (sorted : List Nat) (notes : List Note)
    (i : Nat) {note : Note} (hs : note.string ≠ STRING_NONE) (hf : note.fret ≠ FRET_NONE)
    (hg : getPitch t note.string note.fret = some note.pitch) :
    chooseTarget t sorted notes i note = some (.position note.string note.fret) := by
  have : needsFretting t note = some false := by
    unfold needsFretting
    have hn : ¬ (note.string = STRING_NONE ∨ note.fret = FRET_NONE) := by
      intro h; rcases h with h | h
      · exact hs h
      · exact hf h
    rw [if_neg hn, hg]
    simp
  unfold chooseTarget
  rw [this]

theorem fretLoop_stable {t : Tablature} (sorted : List Nat) {notes0 : List Note}
    (hvalid : ∀ note ∈ notes0, 0 ≤ note.string ∧ note.string < t.strings ∧
      note.fret ≠ FRET_NONE ∧ getPitch t note.string note.fret = some note.pitch ∧
      note.fretConflict = false)
    (hdistinct : (notes0.map Note.string).Nodup) :
    ∀ (rest done : List Nat) (s : Scan), s.notes = notes0 →
      s.bUsed.length = t.stringTable.length →
      (∀ k : Nat, s.bUsed[k]? = some true →
        ∃ j ∈ done, ∃ note, notes0[j]? = some note ∧ note.string = (k : Int)) →
      (∀ i ∈ rest, i ∉ done) → rest.Nodup → (∀ i ∈ rest, i < notes0.length) →
      ∃ s', fretLoop t sorted rest s = some s' ∧ s'.notes = notes0 ∧ s'.undo = s.undo := by
  intro rest
  induction rest with
  | nil => intro done s hn _ _ _ _ _; exact ⟨s, rfl, hn, rfl⟩
  | cons i rest ih =>
    intro done s hn hlen hused hnot hnd hlt
    have hi : i < notes0.length := hlt i (List.mem_cons_self _ _)
    have hni : s.notes[i]? = some notes0[i] := by rw [hn]; exact List.getElem?_eq_getElem hi
    obtain ⟨h0, h1, hfr, hg, hcf⟩ := hvalid notes0[i] (List.getElem_mem hi)
    have hsn : notes0[i].string ≠ STRING_NONE := by
      intro h; rw [h] at h0; exact absurd h0 (by decide)
    have hne : t.stringTable ≠ [] := by
      intro h; unfold Tablature.strings at h1; rw [h] at h1; simp at h1; omega
    obtain ⟨s1, hs1, hlen1, _⟩ := fretNote_total sorted hne hlen hni (Or.inr ⟨h0, h1⟩)
    have htarget := chooseTarget_of_valid (t := t) sorted
      (s.notes.set i { notes0[i] with fretConflict := false }) i hsn hfr hg
    have hfree : listAt s.bUsed notes0[i].string = some false := by
      obtain ⟨u, hu⟩ := listAt_isSome s.bUsed notes0[i].string h0
        (by unfold Tablature.strings at h1; omega)
      cases u with
      | false => exact hu
      | true =>
        exfalso
        obtain ⟨_, _, hget⟩ := listAt_eq_some hu
        obtain ⟨j, hj, nj, hnj, hsj⟩ := hused _ hget
        have hjlt := lt_length_of_getElem?_eq_some hnj
        have : i = j := by
          have hilt' : i < (notes0.map Note.string).length := by simpa using hi
          apply List.getElem?_inj hilt' hdistinct
          rw [List.getElem?_map, List.getElem?_map, hnj, List.getElem?_eq_getElem hi]
          simp only [Option.map_some', Option.some.injEq]
          omega
        exact hnot i (List.mem_cons_self _ _) (this ▸ hj)
    have hs1eq : s1 = ⟨notes0, s.undo, s.bUsed.set notes0[i].string.toNat true⟩ := by
      rcases fretNote_cases hni hs1 with
        ⟨a, b, hc, _⟩ | ⟨a, b, hc, hb, h⟩ | ⟨a, b, hc, hb, _, _⟩ | ⟨a, b, k, f, hc, hb, _, _⟩
      · rw [htarget] at hc; cases hc
      · rw [htarget] at hc
        simp only [Option.some.injEq, Target.position.injEq] at hc
        obtain ⟨ha, hb'⟩ := hc
        subst ha; subst hb'
        rw [h]
        have hnote : (⟨notes0[i].pitch, notes0[i].string, notes0[i].fret, false⟩ : Note)
            = notes0[i] := by
          rw [← hcf]
        rw [hnote, set_eq_self_of_getElem? hni, hn]
        simp [fretChanges]
      · rw [htarget] at hc
        simp only [Option.some.injEq, Target.position.injEq] at hc
        rw [← hc.1, hfree] at hb; cases hb
      · rw [htarget] at hc
        simp only [Option.some.injEq, Target.position.injEq] at hc
        rw [← hc.1, hfree] at hb; cases hb
    have hnd' := List.nodup_cons.mp hnd
    obtain ⟨s', hs', hn', hu'⟩ := ih (i :: done) s1 (by rw [hs1eq]) hlen1
      (by
        intro k hk
        rw [hs1eq] at hk
        simp only at hk
        rw [List.getElem?_set] at hk
        split at hk
        · rename_i hkk
          refine ⟨i, List.mem_cons_self _ _, notes0[i], List.getElem?_eq_getElem hi, ?_⟩
          omega
        · obtain ⟨j, hj, hh⟩ := hused k hk
          exact ⟨j, List.mem_cons_of_mem _ hj, hh⟩)
      (by
        intro j hj hmem
        rcases List.mem_cons.mp hmem with rfl | hm
        · exact hnd'.1 hj
        · exact hnot j (List.mem_cons_of_mem _ hj) hm)
      hnd'.2 (fun j hj => hlt j (List.mem_cons_of_mem _ hj))
    refine ⟨s', ?_, hn', ?_⟩
    · rw [fretLoop, hs1]; exact hs'
    · rw [hu', hs1eq]

/-- C8: stability; when every note of the chord has a string of the profile, a defined fret
with `getPitch(string, fret)` equal to its pitch and no conflict, and the strings are
pairwise distinct, `fretChord` returns, makes no `undoChangeProperty` call and leaves
every note (string, fret and conflict flag) as it was. -/
theorem fretChord_stable (t : Tablature) (c : ChordState)
    (hvalid : ∀ note ∈ c.notes, 0 ≤ note.string ∧ note.string < t.strings ∧
      note.fret ≠ FRET_NONE ∧ getPitch t note.string note.fret = some note.pitch ∧
      note.fretConflict = false)
    (hdistinct : (c.notes.map Note.string).Nodup) :
    ∃ c', fretChord t c = some c' ∧ c'.notes = c.notes ∧ c'.undo = c.undo := by
  unfold fretChord
  split
  · exact ⟨c, rfl, rfl, rfl⟩
  · obtain ⟨s', hs', hn, hu⟩ := fretLoop_stable (sortedNotes c.notes) hvalid hdistinct
      (sortedNotes c.notes) []
      ⟨c.notes, c.undo, List.replicate t.stringTable.length false⟩ rfl (by simp)
      (by
        intro k hk
        simp only [List.getElem?_replicate] at hk
        split at hk <;> cases hk)
      (fun _ _ hn => by cases hn) (sortedNotes_nodup c.notes) (sortedNotes_lt c.notes)
    rw [hs']
    exact ⟨_, rfl, hn, hu⟩

/-- Witness for C8: an open E major chord on the guitar profile, every note in place. -/
theorem fretChord_stable_witness :
    ∃ c', fretChord guitarTablature
        ⟨false, [⟨40, 5, 0, false⟩, ⟨47, 4, 2, false⟩, ⟨52, 3, 2, false⟩, ⟨56, 2, 1, false⟩,
          ⟨59, 1, 0, false⟩, ⟨64, 0, 0, false⟩], []⟩ = some c' ∧
      c'.notes = [⟨40, 5, 0, false⟩, ⟨47, 4, 2, false⟩, ⟨52, 3, 2, false⟩, ⟨56, 2, 1, false⟩,
          ⟨59, 1, 0, false⟩, ⟨64, 0, 0, false⟩] ∧ c'.undo = [] :=
  fretChord_stable guitarTablature
    ⟨false, [⟨40, 5, 0, false⟩, ⟨47, 4, 2, false⟩, ⟨52, 3, 2, false⟩, ⟨56, 2, 1, false⟩,
      ⟨59, 1, 0, false⟩, ⟨64, 0, 0, false⟩], []⟩ (by decide) (by decide)

/-! ### Order of the visit -/

theorem pairwise_qmapInsert {m : List (Int × Nat)} {key : Int} {v : Nat}
    (h : m.Pairwise (fun e1 e2 => e1.1 < e2.1)) :
    (qmapInsert m key v).Pairwise (fun e1 e2 => e1.1 < e2.1) := by
  induction m with
  | nil => simp [qmapInsert]
  | cons hd tl ih =>
    obtain ⟨k, w⟩ := hd
    have h' := List.pairwise_cons.mp h
    rw [qmapInsert]
    by_cases h1 : key < k
    · rw [if_pos h1]
      refine List.pairwise_cons.mpr ⟨?_, h⟩
      intro e he
      rcases List.mem_cons.mp he with rfl | he
      · exact h1
      · exact lt_trans h1 (h'.1 e he)
    · rw [if_neg h1]
      by_cases h2 : key = k
      · rw [if_pos h2]
        exact List.pairwise_cons.mpr ⟨h'.1, h'.2⟩
      · rw [if_neg h2]
        refine List.pairwise_cons.mpr ⟨?_, ih h'.2⟩
        intro e he
        rcases mem_qmapInsert he with rfl | he
        · simp only; omega
        · exact h'.1 e he

theorem fillSortedNotes_sorted :
    ∀ (notes : List Note) (idx : Nat) (m : List (Int × Nat)),
      m.Pairwise (fun e1 e2 => e1.1 < e2.1) →
      (fillSortedNotes notes idx m).Pairwise (fun e1 e2 => e1.1 < e2.1) := by
  intro notes
  induction notes with
  | nil => intro idx m h; exact h
  | cons note rest ih =>
    intro idx m h
    rw [fillSortedNotes]
    exact ih _ _ (pairwise_qmapInsert h)

theorem fillSortedNotes_key :
    ∀ (notes : List Note) (idx : Nat) (m : List (Int × Nat)) (e : Int × Nat),
      e ∈ fillSortedNotes notes idx m →
      e ∈ m ∨ ∃ note, idx ≤ e.2 ∧ notes[e.2 - idx]? = some note ∧ e.1 = sortKey note e.2 := by
  intro notes
  induction notes with
  | nil => intro idx m e he; exact Or.inl he
  | cons note rest ih =>
    intro idx m e he
    rw [fillSortedNotes] at he
    rcases ih _ _ e he with h | ⟨n, h1, h2, h3⟩
    · rcases mem_qmapInsert h with rfl | h
      · right
        exact ⟨note, le_refl _, by simp, rfl⟩
      · exact Or.inl h
    · right
      refine ⟨n, by omega, ?_, h3⟩
      have : e.2 - idx = (e.2 - (idx + 1)) + 1 := by omega
      rw [this, List.getElem?_cons_succ]
      exact h2

theorem sortedNotes_sorted (notes : List Note) :
    (sortedNotes notes).Pairwise (fun (v1 v2 : Nat) =>
      ∀ n1 n2, notes[v1]? = some n1 → notes[v2]? = some n2 →
        sortKey n1 (v1 : Int) < sortKey n2 (v2 : Int)) := by
  unfold sortedNotes
  rw [List.pairwise_map]
  refine List.Pairwise.imp_of_mem ?_ (fillSortedNotes_sorted notes 0 [] List.Pairwise.nil)
  intro e1 e2 he1 he2 hlt n1 n2 hn1 hn2
  rcases fillSortedNotes_key notes 0 [] e1 he1 with h | ⟨m1, _, hm1, hk1⟩
  · cases h
  rcases fillSortedNotes_key notes 0 [] e2 he2 with h | ⟨m2, _, hm2, hk2⟩
  · cases h
  simp only [Nat.sub_zero] at hm1 hm2
  rw [hn1] at hm1; rw [hn2] at hm2
  cases hm1; cases hm2
  rw [← hk1, ← hk2]
  exact hlt

theorem pitch_le_of_sortKey_lt {n1 n2 : Note} {v1 v2 : Nat}
    (h1 : n1.string = STRING_NONE) (h2 : n2.string = STRING_NONE)
    (hv1 : v1 < 100) (hv2 : v2 < 100) (h : sortKey n1 v1 < sortKey n2 v2) :
    n2.pitch ≤ n1.pitch := by
  unfold sortKey at h
  rw [h1, h2] at h
  simp only [STRING_NONE] at h
  norm_num at h
  omega

/-! ### Strings that accept a pitch -/

theorem playable_iff {t : Tablature} {pitch a : Int} :
    Playable t pitch a ↔ ∃ o, listAt t.stringTable (t.strings - a - 1) = some o ∧
      0 ≤ pitch - o ∧ pitch - o < t.frets := by
  constructor
  · rintro ⟨f, hf, hfn⟩
    unfold fret at hf
    by_cases ha : a < 0 ∨ a ≥ t.strings
    · rw [if_pos ha] at hf; cases hf; exact absurd rfl hfn
    · rw [if_neg ha] at hf
      cases hat : listAt t.stringTable (t.strings - a - 1) with
      | none => rw [hat] at hf; cases hf
      | some o =>
        rw [hat] at hf
        simp only at hf
        by_cases hr : pitch - o < 0 ∨ pitch - o ≥ t.frets
        · rw [if_pos hr] at hf; cases hf; exact absurd rfl hfn
        · exact ⟨o, rfl, by omega, by omega⟩
  · rintro ⟨o, ho, h1, h2⟩
    have hidx := listAt_eq_some ho
    have ha : ¬ (a < 0 ∨ a ≥ t.strings) := by
      unfold Tablature.strings at *; omega
    have hr : ¬ (pitch - o < 0 ∨ pitch - o ≥ t.frets) := by omega
    refine ⟨pitch - o, ?_, ?_⟩
    · unfold fret
      rw [if_neg ha, ho]
      simp only [if_neg hr]
    · unfold FRET_NONE; omega

theorem not_playable {t : Tablature} {pitch a : Int} (h : fret t pitch a = some FRET_NONE) :
    ¬ Playable t pitch a := by
  rintro ⟨f, hf, hfn⟩
  rw [h] at hf
  exact hfn (Option.some.inj hf).symm

theorem open_le_of_lt {t : Tablature} (hmono : t.stringTable.Pairwise (· ≤ ·))
    {a b o1 o2 : Int} (hab : a < b)
    (h1 : listAt t.stringTable a = some o1) (h2 : listAt t.stringTable b = some o2) :
    o1 ≤ o2 := by
  obtain ⟨ha0, halt, hag⟩ := listAt_eq_some h1
  obtain ⟨hb0, hblt, hbg⟩ := listAt_eq_some h2
  rw [List.getElem?_eq_getElem halt] at hag
  rw [List.getElem?_eq_getElem hblt] at hbg
  cases hag; cases hbg
  exact List.pairwise_iff_getElem.mp hmono a.toNat b.toNat halt hblt (by omega)

/-- A lower pitch that fits a higher string also fits any lower string that a higher pitch
fits. -/
theorem playable_exchange {t : Tablature} (hmono : t.stringTable.Pairwise (· ≤ ·))
    {p q m0 m1 : Int} (hq : q ≤ p) (hm : m1 < m0)
    (h0 : Playable t p m0) (h1 : Playable t q m1) : Playable t q m0 := by
  obtain ⟨o0, ho0, h01, h02⟩ := playable_iff.mp h0
  obtain ⟨o1, ho1, h11, h12⟩ := playable_iff.mp h1
  have := open_le_of_lt hmono (by omega) ho0 ho1
  exact playable_iff.mpr ⟨o0, ho0, by omega, by omega⟩

theorem not_playable_of_convertPitch_fail {t : Tablature}
    (hmono : t.stringTable.Pairwise (· ≤ ·)) {pitch : Int} {r : Fretting}
    (h : convertPitch t pitch = some r) (hok : r.ok = false) (a : Int) :
    ¬ Playable t pitch a := by
  intro hp
  obtain ⟨o, ho, h1, h2⟩ := playable_iff.mp hp
  obtain ⟨hi0, hilt, hig⟩ := listAt_eq_some ho
  unfold convertPitch at h
  cases htop : listAt t.stringTable (t.strings - 1) with
  | none => rw [htop] at h; cases h
  | some top =>
    rw [htop] at h
    simp only at h
    by_cases hgt : pitch > top + t.frets
    · have hle : o ≤ top := by
        by_cases he : t.strings - a - 1 = t.strings - 1
        · rw [he, htop] at ho; cases ho; exact le_refl _
        · exact open_le_of_lt hmono (by
            have := listAt_eq_some htop
            unfold Tablature.strings at *
            omega) ho htop
      omega
    · rw [if_neg hgt] at h
      have := convertPitchLoop_fail t pitch _ r h hok _ o hilt hig
      omega

theorem convertPitchLoop_ok_above (t : Tablature) (pitch : Int) :
    ∀ k r, convertPitchLoop t pitch k = some r → r.ok = true →
      ∀ (j : Nat) (o : Int), j < k → t.strings - (j : Int) - 1 < r.string →
        t.stringTable[j]? = some o → pitch < o := by
  intro k
  induction k with
  | zero => intro r _ _ j o hj; omega
  | succ k ih =>
    intro r hr hok j o hj hjr hjo
    rw [convertPitchLoop, listAt_natCast] at hr
    cases hk : t.stringTable[k]? with
    | none => rw [hk] at hr; cases hr
    | some ok =>
      rw [hk] at hr
      simp only at hr
      by_cases hge : pitch ≥ ok
      · rw [if_pos hge] at hr
        cases hr
        simp only at hjr
        omega
      · rw [if_neg hge] at hr
        by_cases hjk : j = k
        · subst hjk
          rw [hk] at hjo
          cases hjo
          omega
        · exact ih r hr hok j o (by omega) hjr hjo

theorem not_playable_above_convertPitch {t : Tablature} {pitch : Int} {r : Fretting}
    (h : convertPitch t pitch = some r) (hok : r.ok = true) (a : Int) (ha : a < r.string) :
    ¬ Playable t pitch a := by
  intro hp
  obtain ⟨o, ho, h1, h2⟩ := playable_iff.mp hp
  obtain ⟨hi0, hilt, hig⟩ := listAt_eq_some ho
  unfold convertPitch at h
  cases htop : listAt t.stringTable (t.strings - 1) with
  | none => rw [htop] at h; cases h
  | some top =>
    rw [htop] at h
    simp only at h
    by_cases hgt : pitch > top + t.frets
    · rw [if_pos hgt] at h; cases h; cases hok
    · rw [if_neg hgt] at h
      have := convertPitchLoop_ok_above t pitch _ r h hok (t.strings - a - 1).toNat o hilt
        (by omega) hig
      omega

theorem chooseTarget_of_unassigned {t : Tablature} (sorted : List Nat) (notes : List Note)
    (i : Nat) {note : Note} {r : Fretting} (hs : note.string = STRING_NONE)
    (hc : convertPitch t note.pitch = some r) (hok : r.ok = true) :
    chooseTarget t sorted notes i note = some (.position r.string r.fret) := by
  have hn : needsFretting t note = some true := by
    unfold needsFretting
    rw [if_pos (Or.inl hs)]
  have hf : fret t note.pitch note.string = some FRET_NONE := by
    unfold fret
    rw [hs, if_pos (Or.inl (by decide))]
  unfold chooseTarget
  rw [hn, hc]
  simp only [hok, Bool.true_eq_false, if_false, hf, ne_eq, not_true_eq_false]
  split <;> rfl


/-! ### Chords of notes without a string -/

theorem fretNote_greedy {t : Tablature} (sorted : List Nat) {s : Scan} {i : Nat}
    {note : Note} {m0 : Nat} (hne : t.stringTable ≠ [])
    (hmono : t.stringTable.Pairwise (· ≤ ·))
    (hlen : s.bUsed.length = t.stringTable.length) (hni : s.notes[i]? = some note)
    (hs : note.string = STRING_NONE) (hplay : Playable t note.pitch (m0 : Int))
    (hfree : s.bUsed[m0]? = some false) :
    ∃ (s1 : Scan) (m : Nat) (f : Int), fretNote t sorted s i = some s1 ∧
      s1.notes = s.notes.set i ⟨note.pitch, (m : Int), f, false⟩ ∧
      s1.bUsed = s.bUsed.set m true ∧ s.bUsed[m]? = some false ∧ m ≤ m0 := by
  obtain ⟨s1, hs1, _⟩ := fretNote_total sorted hne hlen hni (Or.inl hs)
  obtain ⟨r, hr⟩ := convertPitch_isSome t note.pitch hne
  have hok : r.ok = true := by
    cases h : r.ok with
    | true => rfl
    | false => exact (not_playable_of_convertPitch_fail hmono hr h _ hplay).elim
  have htg := chooseTarget_of_unassigned (t := t) sorted
    (s.notes.set i { note with fretConflict := false }) i hs hr hok
  have hm0 : m0 < t.stringTable.length := by
    rw [← hlen]; exact lt_length_of_getElem?_eq_some hfree
  rcases fretNote_cases hni hs1 with
    ⟨a, b, hc, _⟩ | ⟨a, b, hc, hb, h⟩ | ⟨a, b, hc, hb, hf, _⟩ | ⟨a, b, k, f, hc, hb, hf, h⟩
  · rw [htg] at hc; cases hc
  · rw [htg] at hc
    simp only [Option.some.injEq, Target.position.injEq] at hc
    obtain ⟨ha, _⟩ := hc
    obtain ⟨ha0, _, hget⟩ := listAt_eq_some hb
    have hcast : ((a.toNat : Nat) : Int) = a := by omega
    refine ⟨s1, a.toNat, b, hs1, ?_, ?_, hget, ?_⟩
    · rw [h, hcast]
    · rw [h]
    · by_contra hcon
      exact not_playable_above_convertPitch hr hok (m0 : Int) (by omega) hplay
  · exact (not_playable
      (findString_none t note.pitch s.bUsed _ 0 hf m0 (Nat.zero_le _) (by omega) hfree)
      hplay).elim
  · obtain ⟨m, hm, _, _, hbm, _, _, hmin⟩ := findString_some t note.pitch s.bUsed _ 0 k f hf
    subst hm
    refine ⟨s1, m, f, hs1, ?_, ?_, hbm, ?_⟩
    · rw [h]
    · rw [h]; simp
    · by_contra hcon
      exact not_playable (hmin m0 (Nat.zero_le _) (by omega) hfree) hplay

theorem fretLoop_greedy {t : Tablature} (sorted : List Nat) {notes0 : List Note}
    (hne : t.stringTable ≠ []) (hmono : t.stringTable.Pairwise (· ≤ ·))
    (hun : ∀ note ∈ notes0, note.string = STRING_NONE) :
    ∀ (rest done : List Nat) (s : Scan) (M : Nat → Nat),
      ScanInv t notes0 done s → rest.Nodup → (∀ i ∈ rest, i ∉ done) →
      (∀ i ∈ rest, i < notes0.length) →
      rest.Pairwise (fun (v1 v2 : Nat) => ∀ n1 n2 : Note,
        notes0[v1]? = some n1 → notes0[v2]? = some n2 → n2.pitch ≤ n1.pitch) →
      (∀ j ∈ rest, ∀ note, notes0[j]? = some note →
        Playable t note.pitch (M j : Int) ∧ s.bUsed[M j]? = some false) →
      (∀ j1 ∈ rest, ∀ j2 ∈ rest, M j1 = M j2 → j1 = j2) →
      (∀ j ∈ done, ∀ note, s.notes[j]? = some note → note.fretConflict = false) →
      ∃ s', fretLoop t sorted rest s = some s' ∧
        ScanInv t notes0 (rest.reverse ++ done) s' ∧
        ∀ j ∈ rest.reverse ++ done, ∀ note, s'.notes[j]? = some note →
          note.fretConflict = false := by
  intro rest
  induction rest with
  | nil =>
    intro done s M inv _ _ _ _ _ _ hcf
    exact ⟨s, rfl, by simpa using inv, by simpa using hcf⟩
  | cons i rest ih =>
    intro done s M inv hnd hnot hlt hsorted hM hinj hcf
    have himem : i ∈ i :: rest := List.mem_cons_self _ _
    have hi : i < notes0.length := hlt i himem
    have hni0 : notes0[i]? = some notes0[i] := List.getElem?_eq_getElem hi
    have hni : s.notes[i]? = some notes0[i] := by
      rw [inv.untouched i (hnot i himem)]; exact hni0
    obtain ⟨hplay, hfree⟩ := hM i himem _ hni0
    obtain ⟨s1, m, f, hs1, hn1, hb1, hbm, hmle⟩ :=
      fretNote_greedy sorted hne hmono inv.length_bUsed hni (hun _ (List.getElem_mem hi))
        hplay hfree
    have inv1 := inv.step (hnot i himem) hs1
    have hnd' := List.nodup_cons.mp hnd
    have hsorted' := List.pairwise_cons.mp hsorted
    have hilt : i < s.notes.length := lt_length_of_getElem?_eq_some hni
    obtain ⟨s', hs', inv', hcf'⟩ := ih (i :: done) s1 (fun j => if M j = m then M i else M j)
      inv1 hnd'.2
      (by
        intro j hj hmem
        rcases List.mem_cons.mp hmem with rfl | hm
        · exact hnd'.1 hj
        · exact hnot j (List.mem_cons_of_mem _ hj) hm)
      (fun j hj => hlt j (List.mem_cons_of_mem _ hj))
      hsorted'.2
      (by
        intro j hj note hnj
        have hjne : j ≠ i := fun h => hnd'.1 (h ▸ hj)
        obtain ⟨hpj, hfj⟩ := hM j (List.mem_cons_of_mem _ hj) note hnj
        have hq : note.pitch ≤ notes0[i].pitch := hsorted'.1 j hj _ _ hni0 hnj
        by_cases hmj : M j = m
        · simp only [hmj, if_true]
          have hne' : m ≠ M i := by
            intro h
            exact hjne (hinj j (List.mem_cons_of_mem _ hj) i himem (hmj.trans h))
          have hlt' : m < M i := by omega
          refine ⟨playable_exchange hmono hq (by exact_mod_cast hlt') hplay (hmj ▸ hpj), ?_⟩
          rw [hb1, List.getElem?_set_ne hne']
          exact hfree
        · simp only [hmj, if_false]
          refine ⟨hpj, ?_⟩
          rw [hb1, List.getElem?_set_ne (Ne.symm hmj)]
          exact hfj)
      (by
        intro j1 hj1 j2 hj2 h
        have h1mem := List.mem_cons_of_mem i hj1
        have h2mem := List.mem_cons_of_mem i hj2
        by_cases h1 : M j1 = m <;> by_cases h2 : M j2 = m
        · exact hinj j1 h1mem j2 h2mem (h1.trans h2.symm)
        · simp only [h1, h2, if_true, if_false] at h
          have := hinj i himem j2 h2mem h
          exact (hnd'.1 (this ▸ hj2)).elim
        · simp only [h1, h2, if_true, if_false] at h
          have := hinj j1 h1mem i himem h
          exact (hnd'.1 (this ▸ hj1)).elim
        · simp only [h1, h2, if_false] at h
          exact hinj j1 h1mem j2 h2mem h)
      (by
        intro j hj note hnj
        rcases List.mem_cons.mp hj with rfl | hjd
        · rw [hn1, List.getElem?_set_self hilt] at hnj
          cases hnj
          rfl
        · have hji : j ≠ i := fun h => hnot i himem (h ▸ hjd)
          rw [hn1, List.getElem?_set_ne (Ne.symm hji)] at hnj
          exact hcf j hjd note hnj)
    refine ⟨s', ?_, ?_, ?_⟩
    · rw [fretLoop, hs1]; exact hs'
    · simpa [List.reverse_cons, List.append_assoc] using inv'
    · simpa [List.reverse_cons, List.append_assoc] using hcf'

/-- On a profile with at least one string and open pitches that do not decrease, a chord of at
most 100 notes without a string whose pitches can be played on pairwise distinct
strings is placed completely: no note is left in conflict. -/
theorem fretChord_places_unassigned {t : Tablature} {c : ChordState}
    (hmono : t.stringTable.Pairwise (· ≤ ·)) (hb : c.bFretting = false)
    (hlen : c.notes.length ≤ 100) (hun : ∀ note ∈ c.notes, note.string = STRING_NONE)
    (a : List Int) (ha : a.length = c.notes.length) (hnd : a.Nodup)
    (hplay : ∀ (j : Nat) (note : Note) (s : Int), c.notes[j]? = some note → a[j]? = some s →
      Playable t note.pitch s) :
    ∃ c', fretChord t c = some c' ∧ ∀ note ∈ c'.notes, note.fretConflict = false := by
  by_cases hnil : c.notes = []
  · refine ⟨⟨false, [], c.undo⟩, ?_, fun _ h => by cases h⟩
    unfold fretChord
    rw [hb, hnil]
    rfl
  have hne : t.stringTable ≠ [] := by
    intro h0
    have hpos : 0 < c.notes.length := List.length_pos.mpr hnil
    have h1 : c.notes[0]? = some c.notes[0] := List.getElem?_eq_getElem hpos
    have h2 : a[0]? = some a[0] := List.getElem?_eq_getElem (by omega)
    obtain ⟨o, ho, _, _⟩ := playable_iff.mp (hplay 0 _ _ h1 h2)
    have := listAt_eq_some ho
    rw [h0] at this
    simp at this
  have hsn := sortedNotes_lt c.notes
  obtain ⟨s', hs', inv', hcf'⟩ := fretLoop_greedy (sortedNotes c.notes) hne hmono hun
    (sortedNotes c.notes) [] ⟨c.notes, c.undo, List.replicate t.stringTable.length false⟩
    (fun j => ((a[j]?).getD 0).toNat)
    (ScanInv.init t c.notes c.undo) (sortedNotes_nodup c.notes) (fun _ _ h => by cases h) hsn
    (by
      refine List.Pairwise.imp_of_mem ?_ (sortedNotes_sorted c.notes)
      intro v1 v2 hv1 hv2 hkey n1 n2 hn1 hn2
      exact pitch_le_of_sortKey_lt (hun n1 (List.mem_iff_getElem?.mpr ⟨v1, hn1⟩))
        (hun n2 (List.mem_iff_getElem?.mpr ⟨v2, hn2⟩))
        (by have := hsn v1 hv1; omega) (by have := hsn v2 hv2; omega) (hkey n1 n2 hn1 hn2))
    (by
      intro j hj note hnj
      have hjlt : j < a.length := by rw [ha]; exact hsn j hj
      have haj : a[j]? = some a[j] := List.getElem?_eq_getElem hjlt
      have hp := hplay j note a[j] hnj haj
      obtain ⟨o, ho, _, _⟩ := playable_iff.mp hp
      have hidx := listAt_eq_some ho
      have h0 : 0 ≤ a[j] := by unfold Tablature.strings at hidx; omega
      have hcast : (((a[j]).toNat : Nat) : Int) = a[j] := by omega
      simp only [haj, Option.getD_some]
      refine ⟨by rw [hcast]; exact hp, ?_⟩
      rw [List.getElem?_replicate, if_pos]
      unfold Tablature.strings at hidx
      omega)
    (by
      intro j1 hj1 j2 hj2 h
      have hj1lt : j1 < a.length := by rw [ha]; exact hsn j1 hj1
      have hj2lt : j2 < a.length := by rw [ha]; exact hsn j2 hj2
      have haj1 : a[j1]? = some a[j1] := List.getElem?_eq_getElem hj1lt
      have haj2 : a[j2]? = some a[j2] := List.getElem?_eq_getElem hj2lt
      have h01 : 0 ≤ a[j1] := by
        obtain ⟨o, ho, _, _⟩ := playable_iff.mp
          (hplay j1 _ _ (List.getElem?_eq_getElem (hsn j1 hj1)) haj1)
        have hidx := listAt_eq_some ho
        unfold Tablature.strings at hidx; omega
      have h02 : 0 ≤ a[j2] := by
        obtain ⟨o, ho, _, _⟩ := playable_iff.mp
          (hplay j2 _ _ (List.getElem?_eq_getElem (hsn j2 hj2)) haj2)
        have hidx := listAt_eq_some ho
        unfold Tablature.strings at hidx; omega
      simp only [haj1, haj2, Option.getD_some] at h
      apply List.getElem?_inj hj1lt hnd
      rw [haj1, haj2]
      congr 1
      omega)
    (fun _ h => by cases h)
  refine ⟨⟨false, s'.notes, s'.undo⟩, ?_, ?_⟩
  · unfold fretChord
    rw [hb]
    simp only [Bool.false_eq_true, if_false, hs']
  · intro note hmem
    obtain ⟨j, hj⟩ := List.mem_iff_getElem?.mp hmem
    have hjlt : j < c.notes.length := by
      rw [← inv'.length_notes]; exact lt_length_of_getElem?_eq_some hj
    exact hcf' j (by simpa using sortedNotes_complete c.notes hlen j hjlt) note hj


/-- C5 (amended): on the guitar profile, for a chord of at most 6 notes that have no string yet
(string equal to `STRING_NONE`) and whose pitches can be played on pairwise distinct
strings (a list `a` of distinct strings, `fret` accepting every pitch on its string),
a run of `fretChord` that is not nested returns, leaves every note without conflict and
assigns pairwise distinct strings. -/
theorem fretChord_full_chord_placement (c : ChordState) (a : List Int)
    (hb : c.bFretting = false) (hN : c.notes.length ≤ 6)
    (hun : ∀ note ∈ c.notes, note.string = STRING_NONE)
    (ha : a.length = c.notes.length) (hnd : a.Nodup)
    (hplay : ∀ (j : Nat) (note : Note) (s : Int), c.notes[j]? = some note → a[j]? = some s →
      Playable guitarTablature note.pitch s) :
    ∃ c', fretChord guitarTablature c = some c' ∧
      (∀ note ∈ c'.notes, note.fretConflict = false) ∧
      (c'.notes.map Note.string).Nodup := by
  obtain ⟨c', hc', hcf⟩ := fretChord_places_unassigned (t := guitarTablature) (by decide) hb
    (by omega) hun a ha hnd hplay
  refine ⟨c', hc', hcf, ?_⟩
  rw [List.nodup_iff_getElem?_ne_getElem?]
  intro i j hij hj heq
  simp only [List.length_map] at hj
  have hi : i < c'.notes.length := by omega
  rw [List.getElem?_map, List.getElem?_map, List.getElem?_eq_getElem hi,
    List.getElem?_eq_getElem hj] at heq
  simp only [Option.map_some', Option.some.injEq] at heq
  have := fretChord_strings_distinct hb (by omega) hc' i j _ _
    (List.getElem?_eq_getElem hi) (List.getElem?_eq_getElem hj)
    (hcf _ (List.getElem_mem hi)) (hcf _ (List.getElem_mem hj)) heq
  omega

/-- Witness for C5 (amended): the notes 40 and 45 without a string, playable on the strings 5
and 4. -/
theorem fretChord_full_chord_placement_witness :
    ∃ c', fretChord guitarTablature
        ⟨false, [⟨40, STRING_NONE, FRET_NONE, false⟩, ⟨45, STRING_NONE, FRET_NONE, false⟩], []⟩
          = some c' ∧
      (∀ note ∈ c'.notes, note.fretConflict = false) ∧
      (c'.notes.map Note.string).Nodup :=
  fretChord_full_chord_placement
    ⟨false, [⟨40, STRING_NONE, FRET_NONE, false⟩, ⟨45, STRING_NONE, FRET_NONE, false⟩], []⟩
    [5, 4] rfl (by decide) (by decide) rfl (by decide)
    (by
      intro j note s h1 h2
      match j, h1, h2 with
      | 0, h1, h2 =>
        cases h1; cases h2
        exact ⟨0, by decide, by decide⟩
      | 1, h1, h2 =>
        cases h1; cases h2
        exact ⟨0, by decide, by decide⟩
      | (j + 2), h1, _ => cases h1)

/-- C11 (the code at the failing input): on the guitar profile `fret` rejects the pitch 77 on
every string, yet `convertPitch` returns true for it with string 0 and fret 13; on the
two string profile with open pitches 40 and 64 and 13 frets the same happens for the
pitch 60, returned with string 1 and fret 20. -/
theorem convertPitch_accepts_unfrettable :
    (∀ s : Int, fret guitarTablature 77 s = some FRET_NONE) ∧
    convertPitch guitarTablature 77 = some ⟨true, 0, 13⟩ ∧
    (∀ s : Int, fret ⟨13, [40, 64]⟩ 60 s = some FRET_NONE) ∧
    convertPitch ⟨13, [40, 64]⟩ 60 = some ⟨true, 1, 20⟩ := by
  refine ⟨?_, by decide, ?_, by decide⟩
  · intro s
    by_cases hs : s < 0 ∨ s ≥ guitarTablature.strings
    · simp only [fret, if_pos hs]
    · have h6 : guitarTablature.strings = 6 := rfl
      rw [h6] at hs
      have h0 : 0 ≤ s := by omega
      have h5 : s ≤ 5 := by omega
      interval_cases s <;> decide
  · intro s
    by_cases hs : s < 0 ∨ s ≥ (⟨13, [40, 64]⟩ : Tablature).strings
    · simp only [fret, if_pos hs]
    · have h2 : (⟨13, [40, 64]⟩ : Tablature).strings = 2 := rfl
      rw [h2] at hs
      have h0 : 0 ≤ s := by omega
      have h1 : s ≤ 1 := by omega
      interval_cases s <;> decide

/-- When `convertPitch` succeeds with a fret below the fret count, `fret` gives the same fret
on the returned string. -/
theorem convertPitch_ok_fret {t : Tablature} {pitch : Int} {r : Fretting}
    (h : convertPitch t pitch = some r) (hok : r.ok = true) (hf : r.fret < t.frets) :
    fret t pitch r.string = some r.fret := by
  obtain ⟨hg, h0⟩ := convertPitch_ok h hok
  have hrange := getPitch_eq_some hg
  unfold getPitch at hg
  cases hat : listAt t.stringTable (t.strings - r.string - 1) with
  | none => rw [hat] at hg; cases hg
  | some o =>
    rw [hat] at hg
    have ho : o + r.fret = pitch := Option.some.inj hg
    have h1 : ¬ (r.string < 0 ∨ r.string ≥ t.strings) := by omega
    have h2 : ¬ (pitch - o < 0 ∨ pitch - o ≥ t.frets) := by omega
    simp only [fret, if_neg h1, hat, if_neg h2]
    congr 1
    omega

theorem openPitch_of_playable {t : Tablature} {pitch s : Int} (h : Playable t pitch s) :
    ∃ o, openPitch t s = some o ∧ 0 ≤ pitch - o ∧ pitch - o < t.frets :=
  playable_iff.mp h

theorem openPitch_anti {t : Tablature} (hinc : t.stringTable.Pairwise (· < ·))
    {s1 s2 o1 o2 : Int} (h1 : openPitch t s1 = some o1) (h2 : openPitch t s2 = some o2)
    (hs : s1 < s2) : o2 < o1 := by
  unfold openPitch at h1 h2
  obtain ⟨ha0, halt, hag⟩ := listAt_eq_some h2
  obtain ⟨hb0, hblt, hbg⟩ := listAt_eq_some h1
  rw [List.getElem?_eq_getElem halt] at hag
  rw [List.getElem?_eq_getElem hblt] at hbg
  cases hag; cases hbg
  exact List.pairwise_iff_getElem.mp hinc _ _ halt hblt (by omega)

/-- C12: highest string preference.  On a profile with strictly increasing open pitches, when
`fret` accepts the pitch on a string S1 and on a lower pitched string S2, `convertPitch`
succeeds, does not return S2, and the string it returns is one on which `fret` accepts
the pitch (with the returned fret) and whose open pitch is the highest among the
strings on which `fret` accepts the pitch. -/
theorem convertPitch_highest_playable (t : Tablature) (pitch s1 s2 o1 o2 : Int)
    (hinc : t.stringTable.Pairwise (· < ·))
    (h1 : Playable t pitch s1) (_h2 : Playable t pitch s2)
    (ho1 : openPitch t s1 = some o1) (ho2 : openPitch t s2 = some o2) (hlow : o2 < o1) :
    ∃ r, convertPitch t pitch = some r ∧ r.ok = true ∧ r.string ≠ s2 ∧
      fret t pitch r.string = some r.fret ∧ r.fret ≠ FRET_NONE ∧
      ∀ s o, Playable t pitch s → openPitch t s = some o →
        ∃ top, openPitch t r.string = some top ∧ o ≤ top := by
  have hmono : t.stringTable.Pairwise (· ≤ ·) := hinc.imp (fun h => le_of_lt h)
  have hne : t.stringTable ≠ [] := by
    intro h0
    obtain ⟨o, ho, _, _⟩ := playable_iff.mp h1
    have := listAt_eq_some ho
    rw [h0] at this
    simp at this
  obtain ⟨r, hr⟩ := convertPitch_isSome t pitch hne
  have hok : r.ok = true := by
    cases h : r.ok with
    | true => rfl
    | false => exact (not_playable_of_convertPitch_fail hmono hr h _ h1).elim
  have hmin : ∀ s, Playable t pitch s → r.string ≤ s := by
    intro s hs
    by_contra hcon
    exact not_playable_above_convertPitch hr hok s (by omega) hs
  obtain ⟨hg, hf0⟩ := convertPitch_ok hr hok
  have hrange := getPitch_eq_some hg
  obtain ⟨top, htop⟩ : ∃ top, openPitch t r.string = some top := by
    unfold openPitch
    exact listAt_isSome _ _ (by omega) (by unfold Tablature.strings at *; omega)
  have hpitch : top + r.fret = pitch := by
    unfold getPitch at hg
    unfold openPitch at htop
    rw [htop] at hg
    exact Option.some.inj hg
  have hle : ∀ s o, Playable t pitch s → openPitch t s = some o → o ≤ top := by
    intro s o hs ho
    rcases lt_or_eq_of_le (hmin s hs) with hlt | heq
    · exact le_of_lt (openPitch_anti hinc htop ho hlt)
    · rw [← heq, htop] at ho
      exact le_of_eq (Option.some.inj ho).symm
  obtain ⟨o1', ho1', _, hlt1⟩ := openPitch_of_playable h1
  rw [ho1] at ho1'
  cases ho1'
  have hfret : r.fret < t.frets := by
    have := hle s1 o1 h1 ho1
    omega
  refine ⟨r, hr, hok, ?_, convertPitch_ok_fret hr hok hfret, ?_, ?_⟩
  · intro heq
    rw [heq, ho2] at htop
    cases htop
    have := hle s1 o1 h1 ho1
    omega
  · unfold FRET_NONE; omega
  · intro s o hs ho
    exact ⟨top, htop, hle s o hs ho⟩

/-- Witness for C12: on the guitar profile the pitch 64 can be played on string 0 (open 64)
and on string 1 (open 59). -/
theorem convertPitch_highest_playable_witness :
    ∃ r, convertPitch guitarTablature 64 = some r ∧ r.ok = true ∧ r.string ≠ 1 ∧
      fret guitarTablature 64 r.string = some r.fret ∧ r.fret ≠ FRET_NONE ∧
      ∀ s o, Playable guitarTablature 64 s → openPitch guitarTablature s = some o →
        ∃ top, openPitch guitarTablature r.string = some top ∧ o ≤ top :=
  convertPitch_highest_playable guitarTablature 64 0 1 64 59 (by decide)
    ⟨0, by decide, by decide⟩ ⟨5, by decide, by decide⟩ (by decide) (by decide) (by decide)

/-- C13: `fret` returns `FRET_NONE` for a string outside `[0, numStrings)`; for a string inside,
the open pitch `stringTable[numStrings-1-string]` exists and, with `d` the pitch minus
that open pitch, `fret` returns `FRET_NONE` when `d < 0` or `d >= fretCount` and `d`
otherwise. -/
theorem fret_spec (t : Tablature) (pitch string : Int) :
    ((string < 0 ∨ t.strings ≤ string) → fret t pitch string = some FRET_NONE) ∧
    ((0 ≤ string ∧ string < t.strings) →
      ∃ o, t.stringTable[(t.strings - 1 - string).toNat]? = some o ∧
        ((pitch - o < 0 ∨ t.frets ≤ pitch - o) → fret t pitch string = some FRET_NONE) ∧
        ((0 ≤ pitch - o ∧ pitch - o < t.frets) → fret t pitch string = some (pitch - o))) := by
  constructor
  · intro h
    have h' : string < 0 ∨ string ≥ t.strings := h
    simp only [fret, if_pos h']
  · intro h
    have hn : ¬ (string < 0 ∨ string ≥ t.strings) := by omega
    obtain ⟨o, ho⟩ := listAt_isSome t.stringTable (t.strings - string - 1) (by omega)
      (by unfold Tablature.strings at *; omega)
    have hget := (listAt_eq_some ho).2.2
    have hidx : t.strings - 1 - string = t.strings - string - 1 := by omega
    refine ⟨o, by rw [hidx]; exact hget, ?_, ?_⟩
    · intro hd
      have hd' : pitch - o < 0 ∨ pitch - o ≥ t.frets := hd
      simp only [fret, if_neg hn, ho, if_pos hd']
    · intro hd
      have hd' : ¬ (pitch - o < 0 ∨ pitch - o ≥ t.frets) := by omega
      simp only [fret, if_neg hn, ho, if_neg hd']

/-- Witness for C13: on the guitar profile string 3 has the open pitch 50 and the pitch 52
gives fret 2. -/
theorem fret_spec_witness :
    ∃ o, guitarTablature.stringTable[(guitarTablature.strings - 1 - 3).toNat]? = some o ∧
      ((52 - o < 0 ∨ guitarTablature.frets ≤ 52 - o) →
        fret guitarTablature 52 3 = some FRET_NONE) ∧
      ((0 ≤ 52 - o ∧ 52 - o < guitarTablature.frets) →
        fret guitarTablature 52 3 = some (52 - o)) :=
  (fret_spec guitarTablature 52 3).2 (by decide)

/-- C14: reentrancy guard; a call of `fretChord` made while the latch `bFretting` is set
returns at once: the notes (string, fret, conflict flag), the recorded
`undoChangeProperty` calls and the latch are what they were. -/
theorem fretChord_nested_noop (t : Tablature) (c : ChordState) (h : c.bFretting = true) :
    fretChord t c = some c := by
  simp only [fretChord, h, if_true]

/-- Witness for C14: a chord of one note without a position, latch set. -/
theorem fretChord_nested_noop_witness :
    fretChord guitarTablature ⟨true, [⟨64, STRING_NONE, FRET_NONE, false⟩], []⟩
      = some ⟨true, [⟨64, STRING_NONE, FRET_NONE, false⟩], []⟩ :=
  fretChord_nested_noop guitarTablature ⟨true, [⟨64, STRING_NONE, FRET_NONE, false⟩], []⟩ rfl

/-- C15 (counterexample): a call of `fretChord` made while the latch is set returns through the
early return with the latch still set. -/
theorem fretChord_latch_counterexample :
    (fretChord guitarTablature ⟨true, [⟨64, STRING_NONE, FRET_NONE, false⟩], []⟩).map
      (fun c => c.bFretting) = some true := by
  decide

/-- C15 (amended): a call of `fretChord` entered with the latch clear returns with the latch
clear; a call entered with the latch set (the early return) leaves it set. -/
theorem fretChord_latch (t : Tablature) (c c' : ChordState) (h : fretChord t c = some c') :
    (c.bFretting = false → c'.bFretting = false) ∧
    (c.bFretting = true → c'.bFretting = true) := by
  constructor
  · intro hb
    obtain ⟨_, _, _, _, hl⟩ := fretChord_scan hb h
    exact hl
  · intro hb
    simp only [fretChord, hb, if_true, Option.some.injEq] at h
    rw [← h]; exact hb

/-- Witness for C15 (amended): a call with the latch clear on a chord of one note. -/
theorem fretChord_latch_witness :
    ∃ c', fretChord guitarTablature ⟨false, [⟨64, STRING_NONE, FRET_NONE, false⟩], []⟩
        = some c' ∧ c'.bFretting = false :=
  ⟨⟨false, [⟨64, 0, 0, false⟩], [⟨0, .P_FRET, 0⟩, ⟨0, .P_STRING, 0⟩]⟩, by decide,
    (fretChord_latch guitarTablature ⟨false, [⟨64, STRING_NONE, FRET_NONE, false⟩], []⟩
      ⟨false, [⟨64, 0, 0, false⟩], [⟨0, .P_FRET, 0⟩, ⟨0, .P_STRING, 0⟩]⟩ (by decide)).1 rfl⟩

/-- For a chord of at most 100 notes the main loop of `fretChord` visits every note exactly
once: the list of visited notes is a rearrangement of the positions of the chord. -/
theorem sortedNotes_perm (notes : List Note) (hlen : notes.length ≤ 100) :
    (sortedNotes notes).Perm (List.range notes.length) := by
  rw [List.perm_ext_iff_of_nodup (sortedNotes_nodup notes) (List.nodup_range _)]
  intro j
  rw [List.mem_range]
  exact ⟨sortedNotes_lt notes j, sortedNotes_complete notes hlen j⟩

set_option maxRecDepth 100000 in
/-- C16 (the code at the failing input): on the guitar profile, in the 101 note chord
`unvisitedChord` the first and the last note get the same sort key (93900); the map
keeps 100 of the 101 notes and the first note is not among them.  After `fretChord`
the last note has a position, the first one is as it was: no position, no conflict. -/
theorem fretChord_note_unvisited :
    sortKey ⟨61, STRING_NONE, FRET_NONE, false⟩ 0 = 93900 ∧
    sortKey ⟨60, STRING_NONE, FRET_NONE, false⟩ 100 = 93900 ∧
    unvisitedChord.length = 101 ∧ (sortedNotes unvisitedChord).length = 100 ∧
    0 ∉ sortedNotes unvisitedChord ∧
    (fretChord guitarTablature ⟨false, unvisitedChord, []⟩).map
        (fun c => (c.notes[0]?, c.notes[100]?))
      = some (some ⟨61, STRING_NONE, FRET_NONE, false⟩, some ⟨60, 1, 1, false⟩) := by
  decide

theorem sortKey_abs (note : Note) (idx : Int) :
    sortKey note idx = |note.string| * 100000 - note.pitch * 100 - idx := by
  unfold sortKey
  simp only
  by_cases h : note.string * 100000 < 0
  · rw [if_pos h, abs_of_neg (by omega)]
    omega
  · rw [if_neg h, abs_of_nonneg (by omega)]
    omega

/-- C20 (counterexample): two notes of pitch 64, both stored on string 0 with fret 0; the
second note of the list is visited first and keeps string 0, the first one is moved to
string 1. -/
theorem sortedNotes_tie_counterexample :
    sortedNotes [⟨64, 0, 0, false⟩, ⟨64, 0, 0, false⟩] = [1, 0] ∧
    fretChord guitarTablature ⟨false, [⟨64, 0, 0, false⟩, ⟨64, 0, 0, false⟩], []⟩
      = some ⟨false, [⟨64, 1, 5, false⟩, ⟨64, 0, 0, false⟩],
          [⟨0, .P_FRET, 5⟩, ⟨0, .P_STRING, 1⟩]⟩ := by
  decide

/-- C20 (amended): the sort key is `|string|*100000 - pitch*100 - idx`, and a call of
`fretChord` that is not nested runs its loop body over the notes in the order of
`sortedNotes`.  For a chord of at most 100 notes with pitches in 0..127 that order
holds every note once, in ascending key order; a note visited before another one has
a smaller `|string|`, or the same `|string|` and a higher pitch, or the same `|string|`
and pitch and a later place in the note list of the chord. -/
theorem sortedNotes_order (notes : List Note) (hlen : notes.length ≤ 100)
    (hpitch : ∀ note ∈ notes, 0 ≤ note.pitch ∧ note.pitch ≤ 127) :
    (∀ (note : Note) (idx : Int),
      sortKey note idx = |note.string| * 100000 - note.pitch * 100 - idx) ∧
    (∀ (t : Tablature) (undo : List Change),
      fretChord t ⟨false, notes, undo⟩ =
        (fretLoop t (sortedNotes notes) (sortedNotes notes)
          ⟨notes, undo, List.replicate t.stringTable.length false⟩).map
          (fun s => ⟨false, s.notes, s.undo⟩)) ∧
    (sortedNotes notes).Perm (List.range notes.length) ∧
    (sortedNotes notes).Pairwise (fun (v1 v2 : Nat) =>
      ∀ n1 n2 : Note, notes[v1]? = some n1 → notes[v2]? = some n2 →
        sortKey n1 (v1 : Int) < sortKey n2 (v2 : Int) ∧
        (|n1.string| < |n2.string| ∨
          (|n1.string| = |n2.string| ∧
            (n2.pitch < n1.pitch ∨ (n1.pitch = n2.pitch ∧ v2 < v1))))) := by
  refine ⟨sortKey_abs, ?_, sortedNotes_perm notes hlen, ?_⟩
  · intro t undo
    simp only [fretChord, Bool.false_eq_true, if_false]
    cases fretLoop t (sortedNotes notes) (sortedNotes notes)
      ⟨notes, undo, List.replicate t.stringTable.length false⟩ <;> rfl
  · refine List.Pairwise.imp_of_mem ?_ (sortedNotes_sorted notes)
    intro v1 v2 hv1 hv2 hkey n1 n2 hn1 hn2
    have hk := hkey n1 n2 hn1 hn2
    refine ⟨hk, ?_⟩
    rw [sortKey_abs, sortKey_abs] at hk
    have h1 := sortedNotes_lt notes v1 hv1
    have h2 := sortedNotes_lt notes v2 hv2
    have hp1 := hpitch n1 (List.mem_iff_getElem?.mpr ⟨v1, hn1⟩)
    have hp2 := hpitch n2 (List.mem_iff_getElem?.mpr ⟨v2, hn2⟩)
    have ha1 := abs_nonneg n1.string
    have ha2 := abs_nonneg n2.string
    generalize |n1.string| = a1 at hk ha1 ⊢
    generalize |n2.string| = a2 at hk ha2 ⊢
    omega

/-- Witness for C20 (amended): three notes on the guitar profile; the note on string 0 comes
first, then of the two notes on string 1 the one with the higher pitch. -/
theorem sortedNotes_order_witness :
    (sortedNotes [⟨60, 1, 1, false⟩, ⟨62, 1, 3, false⟩, ⟨64, 0, 0, false⟩]).Perm
      (List.range
        ([⟨60, 1, 1, false⟩, ⟨62, 1, 3, false⟩, ⟨64, 0, 0, false⟩] : List Note).length) :=
  (sortedNotes_order [⟨60, 1, 1, false⟩, ⟨62, 1, 3, false⟩, ⟨64, 0, 0, false⟩]
    (by decide) (by decide)).2.2.1

theorem char_eq_of_toNat {c d : Char} (h : c.toNat = d.toNat) : c = d := by
  rw [← Char.ofNat_toNat c, ← Char.ofNat_toNat d, h]

theorem wrapInt_of_range (x : Int) (h0 : -2147483648 ≤ x) (h1 : x ≤ 2147483647) :
    wrapInt x = x := by
  unfold wrapInt
  omega

theorem stepAltOct_of_toNat (step : Char) (alter octave : Int) (k : Nat)
    (hk : step.toNat = 65 + k) (hk6 : k ≤ 6)
    (h1 : -2147483648 ≤ ([9, 11, 0, 2, 4, 5, 7] : List Int).getD k 0 + alter ∧
      ([9, 11, 0, 2, 4, 5, 7] : List Int).getD k 0 + alter ≤ 2147483647)
    (h2 : -2147483648 ≤ (octave + 1) * 12 ∧ (octave + 1) * 12 ≤ 2147483647)
    (h3 : -2147483648 ≤ ([9, 11, 0, 2, 4, 5, 7] : List Int).getD k 0 + alter
        + (octave + 1) * 12 ∧
      ([9, 11, 0, 2, 4, 5, 7] : List Int).getD k 0 + alter + (octave + 1) * 12 ≤ 2147483647) :
    MusicXMLStepAltOct2Pitch step alter octave =
      if 0 ≤ ([9, 11, 0, 2, 4, 5, 7] : List Int).getD k 0 + alter + (octave + 1) * 12 ∧
          ([9, 11, 0, 2, 4, 5, 7] : List Int).getD k 0 + alter + (octave + 1) * 12 ≤ 127
      then ([9, 11, 0, 2, 4, 5, 7] : List Int).getD k 0 + alter + (octave + 1) * 12
      else -1 := by
  have hA : 'A'.toNat = 65 := rfl
  have hi : ((step.toNat : Int) - ('A'.toNat : Int)) = (k : Int) := by
    rw [hk, hA]; push_cast; omega
  have hr : ¬ ((k : Int) < 0 ∨ (k : Int) > 6) := by omega
  have w1 : wrapInt (octave + 1) = octave + 1 := wrapInt_of_range _ (by omega) (by omega)
  have w2 : wrapInt ((octave + 1) * 12) = (octave + 1) * 12 :=
    wrapInt_of_range _ h2.1 h2.2
  have w3 := wrapInt_of_range _ h1.1 h1.2
  have w4 := wrapInt_of_range _ h3.1 h3.2
  simp only [MusicXMLStepAltOct2Pitch, hi, if_neg hr, Int.toNat_ofNat, w1, w2, w3, w4]
  generalize ([9, 11, 0, 2, 4, 5, 7] : List Int).getD k 0 + alter + (octave + 1) * 12 = v
  split_ifs <;> omega

theorem stepAltOct_invalid (step : Char) (alter octave : Int)
    (h : step.toNat < 65 ∨ 71 < step.toNat) :
    MusicXMLStepAltOct2Pitch step alter octave = -1 := by
  have hA : 'A'.toNat = 65 := rfl
  have hr : ((step.toNat : Int) - ('A'.toNat : Int)) < 0 ∨
      ((step.toNat : Int) - ('A'.toNat : Int)) > 6 := by
    rw [hA]; omega
  simp only [MusicXMLStepAltOct2Pitch, if_pos hr]

theorem stepTable_eq (step : Char) :
    stepTable step =
      if 65 ≤ step.toNat ∧ step.toNat ≤ 71
      then some (([9, 11, 0, 2, 4, 5, 7] : List Int).getD (step.toNat - 65) 0)
      else none := by
  by_cases h : 65 ≤ step.toNat ∧ step.toNat ≤ 71
  · rw [if_pos h]
    obtain ⟨h1, h2⟩ := h
    have hc : step = Char.ofNat step.toNat := (Char.ofNat_toNat step).symm
    generalize step.toNat = n at hc h1 h2
    subst hc
    interval_cases n <;> rfl
  · rw [if_neg h]
    have hne : ∀ c : Char, 65 ≤ c.toNat ∧ c.toNat ≤ 71 → step ≠ c := by
      intro c hc he
      exact h (he ▸ hc)
    unfold stepTable
    rw [if_neg (hne 'A' (by decide)), if_neg (hne 'B' (by decide)),
      if_neg (hne 'C' (by decide)), if_neg (hne 'D' (by decide)),
      if_neg (hne 'E' (by decide)), if_neg (hne 'F' (by decide)),
      if_neg (hne 'G' (by decide))]


/-- Within the `int` range `MusicXMLStepAltOct2Pitch` is the formula of the tuning import: for
the letters A..G (table 9, 11, 0, 2, 4, 5, 7), when none of `table[letter] + alter`,
`(octave+1)*12` and their sum leaves `[-2^31, 2^31)`, it returns
`table[letter] + alter + (octave+1)*12` when that value lies in `[0, 127]` and -1 when it
does not; for any other step it returns -1; E2, A2, D3, G3, B3, E4 give 40, 45, 50, 55,
59, 64. -/
theorem MusicXMLStepAltOct2Pitch_in_range :
    (∀ (step : Char) (alter octave : Int),
      (∀ base : Int, stepTable step = some base →
        -2147483648 ≤ base + alter ∧ base + alter ≤ 2147483647 →
        -2147483648 ≤ (octave + 1) * 12 ∧ (octave + 1) * 12 ≤ 2147483647 →
        -2147483648 ≤ base + alter + (octave + 1) * 12 ∧
          base + alter + (octave + 1) * 12 ≤ 2147483647 →
        MusicXMLStepAltOct2Pitch step alter octave =
          if 0 ≤ base + alter + (octave + 1) * 12 ∧ base + alter + (octave + 1) * 12 ≤ 127
          then base + alter + (octave + 1) * 12 else -1) ∧
      (stepTable step = none → MusicXMLStepAltOct2Pitch step alter octave = -1)) ∧
    MusicXMLStepAltOct2Pitch 'E' 0 2 = 40 ∧ MusicXMLStepAltOct2Pitch 'A' 0 2 = 45 ∧
    MusicXMLStepAltOct2Pitch 'D' 0 3 = 50 ∧ MusicXMLStepAltOct2Pitch 'G' 0 3 = 55 ∧
    MusicXMLStepAltOct2Pitch 'B' 0 3 = 59 ∧ MusicXMLStepAltOct2Pitch 'E' 0 4 = 64 := by
  refine ⟨?_, by decide, by decide, by decide, by decide, by decide, by decide⟩
  intro step alter octave
  have hst := stepTable_eq step
  constructor
  · intro base hb h1 h2 h3
    rw [hb] at hst
    by_cases h : 65 ≤ step.toNat ∧ step.toNat ≤ 71
    · rw [if_pos h] at hst
      have hbase := Option.some.inj hst
      rw [hbase] at h1 h3 ⊢
      exact stepAltOct_of_toNat step alter octave (step.toNat - 65) (by omega) (by omega)
        h1 h2 h3
    · rw [if_neg h] at hst; cases hst
  · intro hn
    rw [hn] at hst
    by_cases h : 65 ≤ step.toNat ∧ step.toNat ≤ 71
    · rw [if_pos h] at hst; cases hst
    · exact stepAltOct_invalid step alter octave (by omega)

/-- C17 (the code at the failing input): for the step C with alter 0 in octave 715827882 the
value `table[C] + alter + (octave+1)*12` is 8589934596, far above 127, but in `int` the
product `(octave+1)*12` wraps to 4 and `MusicXMLStepAltOct2Pitch` returns 4 instead of
-1; `readMusicXML` stores 4 as the open pitch of the string. -/
theorem MusicXMLStepAltOct2Pitch_overflow :
    stepTable 'C' = some 0 ∧
    (0 : Int) + 0 + (715827882 + 1) * 12 = 8589934596 ∧
    wrapInt ((715827882 + 1) * 12) = 4 ∧
    MusicXMLStepAltOct2Pitch 'C' 0 715827882 = 4 ∧
    (readMusicXML ⟨0, []⟩
      [.staffLines 1, .staffTuning 1 [.tuningStep ['C'], .tuningOctave 715827882]]).stringTable
      = [4] := by
  decide

/-- C25: on a profile with at least one string `convertPitch` returns for every pitch; the
returned string lies in `[0, numStrings)` and the returned fret is not negative,
whether it succeeds or not, and when it succeeds `getPitch` of the returned string and
fret is the pitch. -/
theorem convertPitch_inverse (t : Tablature) (pitch : Int) (hne : t.stringTable ≠ []) :
    ∃ r, convertPitch t pitch = some r ∧ 0 ≤ r.string ∧ r.string < t.strings ∧
      0 ≤ r.fret ∧ (r.ok = true → getPitch t r.string r.fret = some pitch) := by
  obtain ⟨r, hr⟩ := convertPitch_isSome t pitch hne
  refine ⟨r, hr, ?_⟩
  cases hok : r.ok with
  | true =>
    obtain ⟨hg, hf⟩ := convertPitch_ok hr hok
    have := getPitch_eq_some hg
    exact ⟨this.1, this.2, hf, fun _ => hg⟩
  | false =>
    obtain ⟨hs, hf, hpos⟩ := convertPitch_fail_string hr hok
    refine ⟨?_, ?_, ?_, fun h => by cases h⟩
    · rcases hs with h | h <;> omega
    · rcases hs with h | h <;> omega
    · omega

/-- Witness for C25: the guitar profile and the pitch 30, which is below every string. -/
theorem convertPitch_inverse_witness :
    ∃ r, convertPitch guitarTablature 30 = some r ∧ 0 ≤ r.string ∧
      r.string < guitarTablature.strings ∧ 0 ≤ r.fret ∧
      (r.ok = true → getPitch guitarTablature r.string r.fret = some 30) :=
  convertPitch_inverse guitarTablature 30 (by decide)

/-- C29: index safety.  On a profile with at least one string, for a chord in which every stored
string is `STRING_NONE` or lies in `[0, numStrings)`, `fretChord` returns: no access to
the string table or to `bUsed`, in `fretChord` itself or through `convertPitch`,
`getPitch` and `fret`, is outside the bounds (such an access makes the embedding
answer `none`). -/
theorem fretChord_index_safe (t : Tablature) (c : ChordState) (hne : t.stringTable ≠ [])
    (hstrings : ∀ note ∈ c.notes,
      note.string = STRING_NONE ∨ (0 ≤ note.string ∧ note.string < t.strings)) :
    ∃ c', fretChord t c = some c' :=
  fretChord_total ⟨hne, hstrings⟩

/-- Witness for C29: seven notes without a position on the guitar profile. -/
theorem fretChord_index_safe_witness :
    ∃ c', fretChord guitarTablature ⟨false, sevenNotes, []⟩ = some c' :=
  fretChord_index_safe guitarTablature ⟨false, sevenNotes, []⟩ (by decide) (by decide)

theorem sortKey_ne_of_lt_100 (n1 n2 : Note) (i j : Nat) (hi : i < 100) (hj : j < 100)
    (hij : i ≠ j) : sortKey n1 (i : Int) ≠ sortKey n2 (j : Int) := by
  intro h
  have h1 := sortKey_mod n1 i
  have h2 := sortKey_mod n2 j
  omega

set_option maxRecDepth 100000 in
/-- C26: in a chord of at most 100 notes (pitches in 0..127) notes at different positions of
the note list get different sort keys and the map keeps every note: the visited list is
a rearrangement of the positions.  The note at position 100 with pitch `p` and the note
at position 0 with pitch `p + 1` on the same string get the same key, and in the 101
note chord `unvisitedChord` the map drops the note at position 0. -/
theorem sortKey_distinct :
    (∀ notes : List Note, notes.length ≤ 100 →
      (∀ note ∈ notes, 0 ≤ note.pitch ∧ note.pitch ≤ 127) →
      (∀ (i j : Nat) (n1 n2 : Note), notes[i]? = some n1 → notes[j]? = some n2 → i ≠ j →
        sortKey n1 (i : Int) ≠ sortKey n2 (j : Int)) ∧
      (sortedNotes notes).Perm (List.range notes.length)) ∧
    (∀ (p s f1 f2 : Int) (c1 c2 : Bool),
      sortKey ⟨p, s, f1, c1⟩ 100 = sortKey ⟨p + 1, s, f2, c2⟩ 0) ∧
    unvisitedChord.length = 101 ∧ (sortedNotes unvisitedChord).length = 100 ∧
    0 ∉ sortedNotes unvisitedChord := by
  refine ⟨?_, ?_, by decide, by decide, by decide⟩
  · intro notes hlen _
    refine ⟨?_, sortedNotes_perm notes hlen⟩
    intro i j n1 n2 h1 h2 hij
    have hi := lt_length_of_getElem?_eq_some h1
    have hj := lt_length_of_getElem?_eq_some h2
    exact sortKey_ne_of_lt_100 n1 n2 i j (by omega) (by omega) hij
  · intro p s f1 f2 c1 c2
    simp only [sortKey]
    split <;> omega

/-- Witness for C26: two notes of equal pitch on the same string get different keys. -/
theorem sortKey_distinct_witness :
    sortKey ⟨60, 1, 1, false⟩ ((0 : Nat) : Int) ≠ sortKey ⟨60, 1, 1, false⟩ ((1 : Nat) : Int) :=
  (sortKey_distinct.1 [⟨60, 1, 1, false⟩, ⟨60, 1, 1, false⟩] (by decide) (by decide)).1
    0 1 _ _ rfl rfl (by decide)

theorem sublist_pair_of_pairwise {α : Type} {R : α → α → Prop} {a b : α} :
    ∀ {l : List α}, l.Pairwise R → a ∈ l → b ∈ l → a ≠ b → ¬ R b a → [a, b].Sublist l := by
  intro l
  induction l with
  | nil => intro _ ha; cases ha
  | cons x xs ih =>
    intro hp ha hb hab hR
    obtain ⟨hx, hxs⟩ := List.pairwise_cons.mp hp
    by_cases hax : a = x
    · subst hax
      have hb' : b ∈ xs := by
        rcases List.mem_cons.mp hb with h | h
        · exact absurd h.symm hab
        · exact h
      exact List.Sublist.cons₂ _ (List.singleton_sublist.mpr hb')
    · have ha' : a ∈ xs := by
        rcases List.mem_cons.mp ha with h | h
        · exact absurd h hax
        · exact h
      have hb' : b ∈ xs := by
        rcases List.mem_cons.mp hb with h | h
        · subst h
          exact absurd (hx a ha') hR
        · exact h
      exact List.Sublist.cons _ (ih hxs ha' hb' hab hR)

/-- In a chord of at most 100 notes the note with the smaller sort key is visited first. -/
theorem visited_before_of_key_lt {notes : List Note} (hlen : notes.length ≤ 100)
    {v1 v2 : Nat} {n1 n2 : Note} (h1 : notes[v1]? = some n1) (h2 : notes[v2]? = some n2)
    (hkey : sortKey n1 (v1 : Int) < sortKey n2 (v2 : Int)) :
    [v1, v2].Sublist (sortedNotes notes) := by
  have hv1 := lt_length_of_getElem?_eq_some h1
  have hv2 := lt_length_of_getElem?_eq_some h2
  apply sublist_pair_of_pairwise (sortedNotes_sorted notes)
    (sortedNotes_complete notes hlen v1 hv1) (sortedNotes_complete notes hlen v2 hv2)
  · intro h
    subst h
    rw [h1] at h2
    cases h2
    exact lt_irrefl _ hkey
  · intro h
    exact lt_asymm hkey (h n2 n1 h2 h1)

/-- C30 (amended): a note without a string (`STRING_NONE`) gets the sort key it would get on
visual string 1.  In a chord of at most 100 notes with pitches in 0..127 a note without a
string is therefore visited after every note stored on string 0 and before every note
stored on string 2 or higher, and among the notes without a string and the notes stored
on string 1 the note with the higher pitch is visited first.  (`[v1, v2]` is a sublist
of the visited list: `v1` is visited before `v2`.) -/
theorem sortKey_unassigned (notes : List Note) (hlen : notes.length ≤ 100)
    (hpitch : ∀ note ∈ notes, 0 ≤ note.pitch ∧ note.pitch ≤ 127) :
    (∀ (p f idx : Int) (c : Bool),
      sortKey ⟨p, STRING_NONE, f, c⟩ idx = sortKey ⟨p, 1, f, c⟩ idx) ∧
    (∀ (v1 v2 : Nat) (n1 n2 : Note), notes[v1]? = some n1 → notes[v2]? = some n2 →
      n1.string = 0 → n2.string = STRING_NONE → [v1, v2].Sublist (sortedNotes notes)) ∧
    (∀ (v1 v2 : Nat) (n1 n2 : Note), notes[v1]? = some n1 → notes[v2]? = some n2 →
      n1.string = STRING_NONE → 2 ≤ n2.string → [v1, v2].Sublist (sortedNotes notes)) ∧
    (∀ (v1 v2 : Nat) (n1 n2 : Note), notes[v1]? = some n1 → notes[v2]? = some n2 →
      (n1.string = STRING_NONE ∨ n1.string = 1) →
      (n2.string = STRING_NONE ∨ n2.string = 1) → n2.pitch < n1.pitch →
      [v1, v2].Sublist (sortedNotes notes)) := by
  have hkey : ∀ (v1 v2 : Nat) (n1 n2 : Note), notes[v1]? = some n1 → notes[v2]? = some n2 →
      (|n1.string| < |n2.string| ∨ (|n1.string| = |n2.string| ∧ n2.pitch < n1.pitch)) →
      [v1, v2].Sublist (sortedNotes notes) := by
    intro v1 v2 n1 n2 h1 h2 hcmp
    apply visited_before_of_key_lt hlen h1 h2
    have hv1 := lt_length_of_getElem?_eq_some h1
    have hv2 := lt_length_of_getElem?_eq_some h2
    have hp1 := hpitch n1 (List.mem_iff_getElem?.mpr ⟨v1, h1⟩)
    have hp2 := hpitch n2 (List.mem_iff_getElem?.mpr ⟨v2, h2⟩)
    rw [sortKey_abs, sortKey_abs]
    generalize |n1.string| = a1 at hcmp ⊢
    generalize |n2.string| = a2 at hcmp ⊢
    omega
  have habs : ∀ s : Int, (s = STRING_NONE ∨ s = 1) → |s| = 1 := by
    intro s hs
    rcases hs with h | h <;> subst h <;> decide
  refine ⟨?_, ?_, ?_, ?_⟩
  · intro p f idx c
    simp [sortKey, STRING_NONE]
  · intro v1 v2 n1 n2 h1 h2 hs1 hs2
    apply hkey v1 v2 n1 n2 h1 h2
    left
    rw [hs1, habs _ (Or.inl hs2)]
    decide
  · intro v1 v2 n1 n2 h1 h2 hs1 hs2
    apply hkey v1 v2 n1 n2 h1 h2
    left
    rw [habs _ (Or.inl hs1), abs_of_nonneg (by omega)]
    omega
  · intro v1 v2 n1 n2 h1 h2 hs1 hs2 hp
    apply hkey v1 v2 n1 n2 h1 h2
    right
    rw [habs _ hs1, habs _ hs2]
    exact ⟨rfl, hp⟩

/-- Witness for C30: a note on string 0, a note without a string and a note on string 2; the
note on string 0 is visited before the note without a string. -/
theorem sortKey_unassigned_witness :
    [2, 0].Sublist (sortedNotes [⟨60, STRING_NONE, FRET_NONE, false⟩, ⟨57, 2, 2, false⟩,
      ⟨64, 0, 0, false⟩]) :=
  (sortKey_unassigned [⟨60, STRING_NONE, FRET_NONE, false⟩, ⟨57, 2, 2, false⟩,
    ⟨64, 0, 0, false⟩] (by decide) (by decide)).2.1 2 0 _ _ rfl rfl rfl rfl

/-- The loop body for the note at position `i`, written out: the result of one iteration in
terms of the target chosen in its first half, the array `bUsed` and the search for a
free string. -/
theorem fretNote_eq {t : Tablature} {sorted : List Nat} {s : Scan} {i : Nat} {note : Note}
    (hni : s.notes[i]? = some note) :
    fretNote t sorted s i =
      match chooseTarget t sorted (s.notes.set i { note with fretConflict := false }) i note with
      | none => none
      | some (.unfrettable a b) =>
        some ⟨s.notes.set i ⟨note.pitch, a, b, true⟩,
          s.undo ++ fretChanges i note.string note.fret a b, s.bUsed⟩
      | some (.position a b) =>
        match listAt s.bUsed a with
        | none => none
        | some false =>
          some ⟨s.notes.set i ⟨note.pitch, a, b, false⟩,
            s.undo ++ fretChanges i note.string note.fret a b, s.bUsed.set a.toNat true⟩
        | some true =>
          match findString t note.pitch s.bUsed t.stringTable.length 0 with
          | none => none
          | some none =>
            some ⟨s.notes.set i ⟨note.pitch, note.string, note.fret, true⟩, s.undo, s.bUsed⟩
          | some (some (k, f)) =>
            some ⟨s.notes.set i ⟨note.pitch, k, f, false⟩,
              s.undo ++ fretChanges i note.string note.fret k f, s.bUsed.set k.toNat true⟩ := by
  cases hfn : fretNote t sorted s i with
  | some s' =>
    rcases fretNote_cases hni hfn with
      ⟨a, b, hc, rfl⟩ | ⟨a, b, hc, hb, rfl⟩ | ⟨a, b, hc, hb, hf, rfl⟩ |
      ⟨a, b, k, f, hc, hb, hf, rfl⟩
    · rw [hc]
    · rw [hc]; simp only [hb]
    · rw [hc]; simp only [hb, hf]
    · rw [hc]; simp only [hb, hf]
  | none =>
    have h1 : setFretConflict s i false
        = ⟨s.notes.set i { note with fretConflict := false }, s.undo, s.bUsed⟩ :=
      setFretConflict_eq s i note false hni
    unfold fretNote at hfn
    rw [hni] at hfn
    simp only [h1] at hfn
    cases hc : chooseTarget t sorted (s.notes.set i { note with fretConflict := false }) i note with
    | none => rfl
    | some tg =>
      rw [hc] at hfn
      cases tg with
      | unfrettable a b => simp only at hfn; cases hfn
      | position a b =>
        simp only at hfn ⊢
        cases hb : listAt s.bUsed a with
        | none => rfl
        | some u =>
          rw [hb] at hfn
          cases u with
          | false => simp only at hfn; cases hfn
          | true =>
            simp only at hfn ⊢
            cases hf : findString t note.pitch s.bUsed t.stringTable.length 0 with
            | none => rfl
            | some res =>
              rw [hf] at hfn
              cases res with
              | none => simp only at hfn; cases hfn
              | some kf => simp only at hfn; cases hfn

/-- C21: when the target string of the note being processed is marked used, one iteration of
the loop of `fretChord` either finds the smallest visual string `m` that is not used
and on which `fret` accepts the pitch, stores `(m, fret(pitch, m))` in the note without
conflict, records the changed fields and marks `m` used; or, when no unused string
accepts the pitch, sets the conflict flag and leaves string, fret, the recorded
`undoChangeProperty` calls and `bUsed` as they were. -/
theorem fretNote_used_string (t : Tablature) (sorted : List Nat) (s : Scan) (i : Nat)
    (note : Note) (a b : Int) (hlen : s.bUsed.length = t.stringTable.length)
    (hni : s.notes[i]? = some note)
    (htarget : chooseTarget t sorted (s.notes.set i { note with fretConflict := false }) i
      note = some (.position a b))
    (hused : listAt s.bUsed a = some true) :
    (∃ (m : Nat) (f : Int), s.bUsed[m]? = some false ∧
      fret t note.pitch (m : Int) = some f ∧ f ≠ FRET_NONE ∧
      (∀ m' : Nat, m' < m → s.bUsed[m']? = some false →
        fret t note.pitch (m' : Int) = some FRET_NONE) ∧
      fretNote t sorted s i = some ⟨s.notes.set i ⟨note.pitch, (m : Int), f, false⟩,
        s.undo ++ fretChanges i note.string note.fret (m : Int) f, s.bUsed.set m true⟩) ∨
    ((∀ m : Nat, s.bUsed[m]? = some false → fret t note.pitch (m : Int) = some FRET_NONE) ∧
      fretNote t sorted s i
        = some ⟨s.notes.set i ⟨note.pitch, note.string, note.fret, true⟩, s.undo, s.bUsed⟩) := by
  rw [fretNote_eq hni, htarget]
  simp only [hused]
  obtain ⟨res, hres⟩ := findString_isSome t note.pitch s.bUsed t.stringTable.length 0
    (by omega)
  rw [hres]
  cases res with
  | none =>
    right
    refine ⟨?_, rfl⟩
    intro m hm
    have hmlt := lt_length_of_getElem?_eq_some hm
    exact findString_none t note.pitch s.bUsed _ 0 hres m (Nat.zero_le _) (by omega) hm
  | some kf =>
    left
    obtain ⟨k, f⟩ := kf
    obtain ⟨m, hm, _, _, hbm, hfm, hfn, hmin⟩ :=
      findString_some t note.pitch s.bUsed _ 0 k f hres
    subst hm
    refine ⟨m, f, hbm, hfm, hfn, fun m' h1 h2 => hmin m' (Nat.zero_le _) h1 h2, ?_⟩
    simp

/-- Witness for C21: on the guitar profile string 0 is used, the note of pitch 64 stored on
string 0 is given string 1 and fret 5. -/
theorem fretNote_used_string_witness :
    (∃ (m : Nat) (f : Int),
      [true, false, false, false, false, false][m]? = some false ∧
      fret guitarTablature 64 (m : Int) = some f ∧ f ≠ FRET_NONE ∧
      (∀ m' : Nat, m' < m → [true, false, false, false, false, false][m']? = some false →
        fret guitarTablature 64 (m' : Int) = some FRET_NONE) ∧
      fretNote guitarTablature [0] ⟨[⟨64, 0, 0, false⟩], [],
          [true, false, false, false, false, false]⟩ 0
        = some ⟨[(⟨64, 0, 0, false⟩ : Note)].set 0 ⟨64, (m : Int), f, false⟩,
          [] ++ fretChanges 0 0 0 (m : Int) f,
          [true, false, false, false, false, false].set m true⟩) ∨
    ((∀ m : Nat, [true, false, false, false, false, false][m]? = some false →
        fret guitarTablature 64 (m : Int) = some FRET_NONE) ∧
      fretNote guitarTablature [0] ⟨[⟨64, 0, 0, false⟩], [],
          [true, false, false, false, false, false]⟩ 0
        = some ⟨[(⟨64, 0, 0, false⟩ : Note)].set 0 ⟨64, 0, 0, true⟩, [],
          [true, false, false, false, false, false]⟩) :=
  fretNote_used_string guitarTablature [0]
    ⟨[⟨64, 0, 0, false⟩], [], [true, false, false, false, false, false]⟩ 0 ⟨64, 0, 0, false⟩
    0 0 (by decide) rfl (by decide) (by decide)

theorem otherNoteOnString_of_mem {notes : List Note} {i j : Nat} {nNewString : Int}
    {n2 : Note} :
    ∀ {sorted : List Nat}, j ∈ sorted → j ≠ i → notes[j]? = some n2 →
      n2.string = nNewString → otherNoteOnString notes i nNewString sorted = true := by
  intro sorted
  induction sorted with
  | nil => intro h; cases h
  | cons x xs ih =>
    intro hj hne hn2 hs
    rw [otherNoteOnString]
    by_cases hx : x ≠ i ∧ (notes[x]?).map Note.string = some nNewString
    · rw [if_pos hx]
    · rw [if_neg hx]
      rcases List.mem_cons.mp hj with h | h
      · subst h
        exact absurd ⟨hne, by rw [hn2]; simp [hs]⟩ hx
      · exact ih h hne hn2 hs

/-- The stability preference in one iteration.  When the position of the note must be
recomputed, `convertPitch` succeeds with string `r.string`, and a different note among
those the loop visits is stored on `r.string`, the target chosen before the test of
`bUsed` is the old string with the fret `f` that `fret` gives for it when that fret is
not `FRET_NONE`, and the fresh pick of `convertPitch` when `fret` answers `FRET_NONE`. -/
theorem chooseTarget_stability (t : Tablature) (sorted : List Nat) (notes : List Note)
    (i j : Nat) (note n2 : Note) (r : Fretting)
    (hrecompute : needsFretting t note = some true)
    (hconv : convertPitch t note.pitch = some r) (hok : r.ok = true)
    (hj : j ∈ sorted) (hne : j ≠ i) (hn2 : notes[j]? = some n2) (hs : n2.string = r.string) :
    (∀ f : Int, fret t note.pitch note.string = some f → f ≠ FRET_NONE →
      chooseTarget t sorted notes i note = some (.position note.string f)) ∧
    (fret t note.pitch note.string = some FRET_NONE →
      chooseTarget t sorted notes i note = some (.position r.string r.fret)) := by
  have hother := otherNoteOnString_of_mem hj hne hn2 hs
  have hnf : ¬ (r.ok = false) := by rw [hok]; decide
  constructor
  · intro f hf hfn
    unfold chooseTarget
    rw [hrecompute, hconv]
    simp only [if_neg hnf, hother, if_true, hf, if_pos hfn]
  · intro hf
    unfold chooseTarget
    rw [hrecompute, hconv]
    simp only [if_neg hnf, hother, if_true, hf, ne_eq, not_true_eq_false, if_false]

/-- Example of the stability preference: on the guitar profile the note of pitch 60 with the
stale position string 2 fret 0 would go to string 1, which another note holds; it stays
on string 2 with fret 5. -/
theorem chooseTarget_stability_witness :
    chooseTarget guitarTablature [1, 0] [⟨60, 2, 0, false⟩, ⟨62, 1, 3, false⟩] 0
      ⟨60, 2, 0, false⟩ = some (.position 2 5) :=
  (chooseTarget_stability guitarTablature [1, 0] [⟨60, 2, 0, false⟩, ⟨62, 1, 3, false⟩] 0 1
    ⟨60, 2, 0, false⟩ ⟨62, 1, 3, false⟩ ⟨true, 1, 1⟩ (by decide) (by decide) rfl (by decide)
    (by decide) rfl rfl).1 5 (by decide) (by decide)

theorem chooseTarget_of_fail {t : Tablature} (sorted : List Nat) (notes : List Note)
    (i : Nat) {note : Note} {r : Fretting} (hrecompute : needsFretting t note = some true)
    (hconv : convertPitch t note.pitch = some r) (hfail : r.ok = false) :
    chooseTarget t sorted notes i note = some (.unfrettable r.string r.fret) := by
  unfold chooseTarget
  rw [hrecompute, hconv]
  simp only [if_pos hfail]

/-- One iteration for a note that cannot be fretted: when the position of the note being
processed must be recomputed and `convertPitch` fails with the fallback values
`r.string`, `r.fret`, one iteration of the loop of `fretChord` sets the conflict flag,
stores the fallback values in the note, records one `undoChangeProperty` call for each
of fret and string that differs from the value stored before (and none for an equal
one), leaves `bUsed` as it was, and the loop goes on with the next note. -/
theorem fretNote_unfrettable (t : Tablature) (sorted rest : List Nat) (s : Scan) (i : Nat)
    (note : Note) (r : Fretting) (hni : s.notes[i]? = some note)
    (hrecompute : needsFretting t note = some true)
    (hconv : convertPitch t note.pitch = some r) (hfail : r.ok = false) :
    fretNote t sorted s i = some ⟨s.notes.set i ⟨note.pitch, r.string, r.fret, true⟩,
      s.undo ++ ((if note.fret ≠ r.fret then [⟨i, .P_FRET, r.fret⟩] else []) ++
        (if note.string ≠ r.string then [⟨i, .P_STRING, r.string⟩] else [])), s.bUsed⟩ ∧
    fretLoop t sorted (i :: rest) s = fretLoop t sorted rest
      ⟨s.notes.set i ⟨note.pitch, r.string, r.fret, true⟩,
        s.undo ++ ((if note.fret ≠ r.fret then [⟨i, .P_FRET, r.fret⟩] else []) ++
          (if note.string ≠ r.string then [⟨i, .P_STRING, r.string⟩] else [])), s.bUsed⟩ := by
  have h : fretNote t sorted s i = some ⟨s.notes.set i ⟨note.pitch, r.string, r.fret, true⟩,
      s.undo ++ fretChanges i note.string note.fret r.string r.fret, s.bUsed⟩ := by
    rw [fretNote_eq hni, chooseTarget_of_fail sorted _ i hrecompute hconv hfail]
  refine ⟨h, ?_⟩
  rw [fretLoop, h]
  rfl

/-- Example of a note that cannot be fretted: on the guitar profile a note of pitch 30
without a position gets the fallback string 5 and fret 0 and its conflict flag. -/
theorem fretNote_unfrettable_witness :
    fretNote guitarTablature [0] ⟨[⟨30, STRING_NONE, FRET_NONE, false⟩], [],
        [false, false, false, false, false, false]⟩ 0
      = some ⟨[(⟨30, STRING_NONE, FRET_NONE, false⟩ : Note)].set 0 ⟨30, 5, 0, true⟩,
        [] ++ ((if FRET_NONE ≠ (0 : Int) then [⟨0, .P_FRET, 0⟩] else []) ++
          (if STRING_NONE ≠ (5 : Int) then [⟨0, .P_STRING, 5⟩] else [])),
        [false, false, false, false, false, false]⟩ :=
  (fretNote_unfrettable guitarTablature [0] []
    ⟨[⟨30, STRING_NONE, FRET_NONE, false⟩], [], [false, false, false, false, false, false]⟩ 0
    ⟨30, STRING_NONE, FRET_NONE, false⟩ ⟨false, 5, 0⟩ rfl (by decide) (by decide) rfl).1

/-- One iteration re-uses existing fretting.  When the note being processed has a defined
string and fret with `getPitch(string, fret)` equal to its pitch and its string is not
marked used, one iteration of the loop of `fretChord` keeps string and fret, clears the
conflict flag, records no `undoChangeProperty` call and marks the string used. -/
theorem fretNote_reuse (t : Tablature) (sorted : List Nat) (s : Scan) (i : Nat) (note : Note)
    (hni : s.notes[i]? = some note) (hs : note.string ≠ STRING_NONE)
    (hf : note.fret ≠ FRET_NONE) (hg : getPitch t note.string note.fret = some note.pitch)
    (hfree : listAt s.bUsed note.string = some false) :
    fretNote t sorted s i = some ⟨s.notes.set i ⟨note.pitch, note.string, note.fret, false⟩,
      s.undo, s.bUsed.set note.string.toNat true⟩ := by
  rw [fretNote_eq hni, chooseTarget_of_valid sorted _ i hs hf hg]
  simp only [hfree]
  simp [fretChanges]

/-- Example of a re-used position: on the guitar profile the note of pitch 52 stored on
string 3 fret 2, whose conflict flag was set, keeps its position and loses the flag. -/
theorem fretNote_reuse_witness :
    fretNote guitarTablature [0] ⟨[⟨52, 3, 2, true⟩], [],
        [false, false, false, false, false, false]⟩ 0
      = some ⟨[(⟨52, 3, 2, true⟩ : Note)].set 0 ⟨52, 3, 2, false⟩, [],
        [false, false, false, false, false, false].set (3 : Int).toNat true⟩ :=
  fretNote_reuse guitarTablature [0]
    ⟨[⟨52, 3, 2, true⟩], [], [false, false, false, false, false, false]⟩ 0 ⟨52, 3, 2, true⟩
    rfl (by decide) (by decide) (by decide) (by decide)

/-! ### A second run of fretChord -/

theorem chooseTarget_position_fret {t : Tablature} {sorted : List Nat} {notes : List Note}
    {i : Nat} {note : Note} {a b : Int}
    (h : chooseTarget t sorted notes i note = some (.position a b)) : b ≠ FRET_NONE := by
  unfold chooseTarget at h
  cases hn : needsFretting t note with
  | none => rw [hn] at h; cases h
  | some st =>
    rw [hn] at h
    cases st with
    | false =>
      simp only at h
      cases h
      unfold needsFretting at hn
      by_cases hs : note.string = STRING_NONE ∨ note.fret = FRET_NONE
      · rw [if_pos hs] at hn; cases hn
      · exact fun hf => hs (Or.inr hf)
    | true =>
      simp only at h
      cases hc : convertPitch t note.pitch with
      | none => rw [hc] at h; cases h
      | some r =>
        rw [hc] at h
        simp only at h
        have hr : r.ok = true → r.fret ≠ FRET_NONE := by
          intro hok hf
          have := (convertPitch_ok hc hok).2
          rw [hf] at this
          exact absurd this (by decide)
        by_cases hok : r.ok = false
        · rw [if_pos hok] at h; cases h
        · rw [if_neg hok] at h
          have hok' : r.ok = true := by simpa using hok
          by_cases ho : otherNoteOnString notes i r.string sorted = true
          · rw [if_pos ho] at h
            cases hf : fret t note.pitch note.string with
            | none => rw [hf] at h; cases h
            | some f =>
              rw [hf] at h
              simp only at h
              by_cases hfn : f ≠ FRET_NONE
              · rw [if_pos hfn] at h; cases h
                exact hfn
              · rw [if_neg hfn] at h; cases h
                exact hr hok'
          · rw [if_neg ho] at h; cases h
            exact hr hok'

/-- A note that the loop has visited and left without conflict has a fret. -/
theorem fretLoop_fret_defined {t : Tablature} (sorted : List Nat) :
    ∀ (rest done : List Nat) (s s' : Scan),
      (∀ j ∈ done, ∀ note, s.notes[j]? = some note → note.fretConflict = false →
        note.fret ≠ FRET_NONE) →
      fretLoop t sorted rest s = some s' →
      ∀ j, j ∈ rest ∨ j ∈ done → ∀ note, s'.notes[j]? = some note →
        note.fretConflict = false → note.fret ≠ FRET_NONE := by
  intro rest
  induction rest with
  | nil =>
    intro done s s' hinv h j hj
    simp only [fretLoop, Option.some.injEq] at h
    subst h
    rcases hj with hj | hj
    · cases hj
    · exact hinv j hj
  | cons i rest ih =>
    intro done s s' hinv h j hj
    rw [fretLoop] at h
    cases hfn : fretNote t sorted s i with
    | none => rw [hfn] at h; cases h
    | some s1 =>
      rw [hfn] at h
      simp only at h
      obtain ⟨note, hni⟩ := fretNote_note hfn
      have hlt := lt_length_of_getElem?_eq_some hni
      have hstep : ∀ j ∈ i :: done, ∀ n, s1.notes[j]? = some n → n.fretConflict = false →
          n.fret ≠ FRET_NONE := by
        intro j hj n hn hcf
        by_cases hji : j = i
        · subst hji
          rcases fretNote_cases hni hfn with
            ⟨a, b, hc, rfl⟩ | ⟨a, b, hc, hb, rfl⟩ | ⟨a, b, hc, hb, hf, rfl⟩ |
            ⟨a, b, k, f, hc, hb, hf, rfl⟩
          · rw [List.getElem?_set_self hlt] at hn
            cases hn; cases hcf
          · rw [List.getElem?_set_self hlt] at hn
            cases hn
            exact chooseTarget_position_fret hc
          · rw [List.getElem?_set_self hlt] at hn
            cases hn; cases hcf
          · rw [List.getElem?_set_self hlt] at hn
            cases hn
            obtain ⟨m, _, _, _, _, _, hne, _⟩ := findString_some t _ _ _ _ _ _ hf
            exact hne
        · have hjd : j ∈ done := by
            rcases List.mem_cons.mp hj with h1 | h1
            · exact absurd h1 hji
            · exact h1
          have hsame : s1.notes[j]? = s.notes[j]? := by
            rcases fretNote_cases hni hfn with
              ⟨a, b, hc, rfl⟩ | ⟨a, b, hc, hb, rfl⟩ | ⟨a, b, hc, hb, hf, rfl⟩ |
              ⟨a, b, k, f, hc, hb, hf, rfl⟩ <;>
            exact List.getElem?_set_ne (Ne.symm hji)
          rw [hsame] at hn
          exact hinv j hjd n hn hcf
      refine ih (i :: done) s1 s' hstep h j ?_
      rcases hj with hj | hj
      · rcases List.mem_cons.mp hj with h1 | h1
        · exact Or.inr (h1 ▸ List.mem_cons_self _ _)
        · exact Or.inl h1
      · exact Or.inr (List.mem_cons_of_mem _ hj)

theorem fretChord_fret_defined {t : Tablature} {c c' : ChordState}
    (hb : c.bFretting = false) (hlen : c.notes.length ≤ 100) (h : fretChord t c = some c') :
    ∀ note ∈ c'.notes, note.fretConflict = false → note.fret ≠ FRET_NONE := by
  obtain ⟨s0, inv, hn0, _, _⟩ := fretChord_scan hb h
  unfold fretChord at h
  rw [hb] at h
  simp only [Bool.false_eq_true, if_false] at h
  cases hl : fretLoop t (sortedNotes c.notes) (sortedNotes c.notes)
      ⟨c.notes, c.undo, List.replicate t.stringTable.length false⟩ with
  | none => rw [hl] at h; cases h
  | some s =>
    rw [hl] at h
    simp only [Option.some.injEq] at h
    subst h
    intro note hmem hcf
    obtain ⟨j, hj⟩ := List.mem_iff_getElem?.mp hmem
    have hjlt : j < s.notes.length := lt_length_of_getElem?_eq_some hj
    have hlen' : s.notes.length = c.notes.length := by
      have := inv.length_notes
      simp only at hn0
      rw [← hn0] at this
      exact this
    exact fretLoop_fret_defined (sortedNotes c.notes) (sortedNotes c.notes) [] _ s
      (fun j hj => by cases hj) hl j
      (Or.inl (sortedNotes_complete c.notes hlen j (by omega))) note hj hcf

/-- C27 (counterexample): on the guitar profile, in the chord of an unassigned note of pitch 40
and a note of pitch 42 stored on string 5 fret 2, the first run places the first note on
string 5 and marks the second as a conflict; a second run on that result moves the conflict
flag from the second note to the first. -/
theorem fretChord_second_run_changes :
    fretChord guitarTablature
        ⟨false, [⟨40, STRING_NONE, FRET_NONE, false⟩, ⟨42, 5, 2, false⟩], []⟩
      = some ⟨false, [⟨40, 5, 0, false⟩, ⟨42, 5, 2, true⟩],
          [⟨0, .P_FRET, 0⟩, ⟨0, .P_STRING, 5⟩]⟩ ∧
    fretChord guitarTablature
        ⟨false, [⟨40, 5, 0, false⟩, ⟨42, 5, 2, true⟩], [⟨0, .P_FRET, 0⟩, ⟨0, .P_STRING, 5⟩]⟩
      = some ⟨false, [⟨40, 5, 0, true⟩, ⟨42, 5, 2, false⟩],
          [⟨0, .P_FRET, 0⟩, ⟨0, .P_STRING, 5⟩]⟩ := by
  decide

/-- C27 (amended): when a first, non-nested run of `fretChord` on a chord of at most 100
notes returns a chord in which no note is marked as a conflict, a second run on that
result returns it unchanged: no string, fret or conflict flag changes and no
`undoChangeProperty` call is recorded. -/
theorem fretChord_idempotent (t : Tablature) (c c1 : ChordState)
    (hb : c.bFretting = false) (hlen : c.notes.length ≤ 100)
    (h1 : fretChord t c = some c1)
    (hnc : ∀ note ∈ c1.notes, note.fretConflict = false) :
    fretChord t c1 = some c1 := by
  obtain ⟨s0, inv, hn0, _, hb1⟩ := fretChord_scan hb h1
  have hlen1 : c1.notes.length = c.notes.length := by rw [hn0]; exact inv.length_notes
  have hvalid : ∀ note ∈ c1.notes, 0 ≤ note.string ∧ note.string < t.strings ∧
      note.fret ≠ FRET_NONE ∧ getPitch t note.string note.fret = some note.pitch ∧
      note.fretConflict = false := by
    intro note hmem
    have hcf := hnc note hmem
    obtain ⟨h0, hs, hg⟩ := fretChord_pitch_of_no_conflict hb hlen h1 note hmem hcf
    exact ⟨h0, hs, fretChord_fret_defined hb hlen h1 note hmem hcf, hg, hcf⟩
  have hdistinct : (c1.notes.map Note.string).Nodup := by
    rw [List.nodup_iff_getElem?_ne_getElem?]
    intro j1 j2 hlt hj2 heq
    rw [List.length_map] at hj2
    have hj1 : j1 < c1.notes.length := by omega
    rw [List.getElem?_map, List.getElem?_map, List.getElem?_eq_getElem hj1,
      List.getElem?_eq_getElem hj2] at heq
    simp only [Option.map_some', Option.some.injEq] at heq
    have := fretChord_strings_distinct hb hlen h1 j1 j2 _ _ (List.getElem?_eq_getElem hj1)
      (List.getElem?_eq_getElem hj2) (hnc _ (List.getElem_mem _)) (hnc _ (List.getElem_mem _)) heq
    omega
  obtain ⟨s', hs', hn', hu'⟩ := fretLoop_stable (sortedNotes c1.notes) hvalid hdistinct
    (sortedNotes c1.notes) []
    ⟨c1.notes, c1.undo, List.replicate t.stringTable.length false⟩ rfl (by simp)
    (by
      intro k hk
      simp only [List.getElem?_replicate] at hk
      split at hk <;> cases hk)
    (fun _ _ hd => by cases hd) (sortedNotes_nodup c1.notes) (sortedNotes_lt c1.notes)
  unfold fretChord
  rw [hb1]
  simp only [Bool.false_eq_true, if_false]
  rw [hs']
  simp only [Option.some.injEq]
  cases c1 with
  | mk b n u =>
    simp only at hb1 hn' hu'
    rw [hn', hu', hb1]

theorem fretChord_idempotent_witness :
    fretChord guitarTablature
        ⟨false, [⟨40, STRING_NONE, FRET_NONE, false⟩, ⟨64, STRING_NONE, FRET_NONE, false⟩], []⟩
      = some ⟨false, [⟨40, 5, 0, false⟩, ⟨64, 0, 0, false⟩],
          [⟨1, .P_FRET, 0⟩, ⟨1, .P_STRING, 0⟩, ⟨0, .P_FRET, 0⟩, ⟨0, .P_STRING, 5⟩]⟩ ∧
    fretChord guitarTablature
        ⟨false, [⟨40, 5, 0, false⟩, ⟨64, 0, 0, false⟩],
          [⟨1, .P_FRET, 0⟩, ⟨1, .P_STRING, 0⟩, ⟨0, .P_FRET, 0⟩, ⟨0, .P_STRING, 5⟩]⟩
      = some ⟨false, [⟨40, 5, 0, false⟩, ⟨64, 0, 0, false⟩],
          [⟨1, .P_FRET, 0⟩, ⟨1, .P_STRING, 0⟩, ⟨0, .P_FRET, 0⟩, ⟨0, .P_STRING, 5⟩]⟩ :=
  ⟨by decide,
   fretChord_idempotent guitarTablature
    ⟨false, [⟨40, STRING_NONE, FRET_NONE, false⟩, ⟨64, STRING_NONE, FRET_NONE, false⟩], []⟩
    ⟨false, [⟨40, 5, 0, false⟩, ⟨64, 0, 0, false⟩],
      [⟨1, .P_FRET, 0⟩, ⟨1, .P_STRING, 0⟩, ⟨0, .P_FRET, 0⟩, ⟨0, .P_STRING, 5⟩]⟩
    rfl (by decide) (by decide) (by decide)⟩

/-! ### Order independence -/

theorem otherNoteOnString_relabel {π : Nat → Nat} {n : Nat} {notes notes' : List Note}
    (hinj : ∀ j1 j2, j1 < n → j2 < n → π j1 = π j2 → j1 = j2)
    (hget : ∀ j, j < n → notes'[π j]? = notes[j]?) {i : Nat} (hi : i < n) (str : Int) :
    ∀ sorted : List Nat, (∀ j ∈ sorted, j < n) →
      otherNoteOnString notes' (π i) str (sorted.map π)
        = otherNoteOnString notes i str sorted := by
  intro sorted
  induction sorted with
  | nil => intro _; rfl
  | cons j rest ih =>
    intro hlt
    have hj := hlt j (List.mem_cons_self _ _)
    rw [List.map_cons, otherNoteOnString, otherNoteOnString, hget j hj,
      ih (fun k hk => hlt k (List.mem_cons_of_mem _ hk))]
    have hiff : (π j ≠ π i) ↔ (j ≠ i) :=
      ⟨fun h e => h (e ▸ rfl), fun h e => h (hinj j i hj hi e)⟩
    simp only [hiff]

theorem chooseTarget_relabel (t : Tablature) {π : Nat → Nat} {n : Nat}
    {notes notes' : List Note}
    (hinj : ∀ j1 j2, j1 < n → j2 < n → π j1 = π j2 → j1 = j2)
    (hget : ∀ j, j < n → notes'[π j]? = notes[j]?) {i : Nat} (hi : i < n)
    {sorted : List Nat} (hsorted : ∀ j ∈ sorted, j < n) (note : Note) :
    chooseTarget t (sorted.map π) notes' (π i) note = chooseTarget t sorted notes i note := by
  unfold chooseTarget
  simp only [fun str => otherNoteOnString_relabel hinj hget hi str sorted hsorted]

theorem fretNote_relabel {t : Tablature} {π : Nat → Nat} {n : Nat} {sorted : List Nat}
    (hinj : ∀ j1 j2, j1 < n → j2 < n → π j1 = π j2 → j1 = j2)
    (hsorted : ∀ j ∈ sorted, j < n) {s s' s1 : Scan} {i : Nat} (hi : i < n)
    (sim : SameScan π n s s') (h : fretNote t sorted s i = some s1) :
    ∃ s1', fretNote t (sorted.map π) s' (π i) = some s1' ∧ SameScan π n s1 s1' := by
  obtain ⟨note, hni⟩ := fretNote_note h
  have hni' : s'.notes[π i]? = some note := by rw [sim.notes i hi]; exact hni
  have hlt : i < s.notes.length := lt_length_of_getElem?_eq_some hni
  have hlt' : π i < s'.notes.length := lt_length_of_getElem?_eq_some hni'
  have hset : ∀ (x : Note) (j : Nat), j < n →
      (s'.notes.set (π i) x)[π j]? = (s.notes.set i x)[j]? := by
    intro x j hj
    by_cases hji : j = i
    · subst hji
      rw [List.getElem?_set_self hlt', List.getElem?_set_self hlt]
    · rw [List.getElem?_set_ne (fun e => hji (hinj _ _ hi hj e).symm),
        List.getElem?_set_ne (Ne.symm hji)]
      exact sim.notes j hj
  have hct := chooseTarget_relabel t hinj (hset { note with fretConflict := false }) hi
    hsorted note
  have hsim : ∀ (x : Note) (u u' : List Change) (b : List Bool),
      SameScan π n ⟨s.notes.set i x, u, b⟩ ⟨s'.notes.set (π i) x, u', b⟩ := by
    intro x u u' b
    exact ⟨by simp [sim.length], by simp [sim.length'], hset x, rfl⟩
  rw [fretNote_eq hni', hct, sim.bUsed]
  rcases fretNote_cases hni h with
    ⟨a, b, hc, rfl⟩ | ⟨a, b, hc, hb, rfl⟩ | ⟨a, b, hc, hb, hf, rfl⟩ |
    ⟨a, b, k, f, hc, hb, hf, rfl⟩
  · rw [hc]
    exact ⟨_, rfl, hsim _ _ _ _⟩
  · rw [hc]
    simp only [hb]
    exact ⟨_, rfl, hsim _ _ _ _⟩
  · rw [hc]
    simp only [hb, hf]
    exact ⟨_, rfl, hsim _ _ _ _⟩
  · rw [hc]
    simp only [hb, hf]
    exact ⟨_, rfl, hsim _ _ _ _⟩

theorem fretLoop_relabel {t : Tablature} {π : Nat → Nat} {n : Nat} {sorted : List Nat}
    (hinj : ∀ j1 j2, j1 < n → j2 < n → π j1 = π j2 → j1 = j2)
    (hsorted : ∀ j ∈ sorted, j < n) :
    ∀ (rest : List Nat) (s s' sf : Scan), (∀ j ∈ rest, j < n) → SameScan π n s s' →
      fretLoop t sorted rest s = some sf →
      ∃ sf', fretLoop t (sorted.map π) (rest.map π) s' = some sf' ∧ SameScan π n sf sf' := by
  intro rest
  induction rest with
  | nil =>
    intro s s' sf _ sim h
    simp only [fretLoop, Option.some.injEq] at h
    subst h
    exact ⟨s', rfl, sim⟩
  | cons i rest ih =>
    intro s s' sf hlt sim h
    rw [fretLoop] at h
    cases hfn : fretNote t sorted s i with
    | none => rw [hfn] at h; cases h
    | some s1 =>
      rw [hfn] at h
      simp only at h
      obtain ⟨s1', h1, sim1⟩ :=
        fretNote_relabel hinj hsorted (hlt i (List.mem_cons_self _ _)) sim hfn
      obtain ⟨sf', h2, sim2⟩ :=
        ih s1 s1' sf (fun j hj => hlt j (List.mem_cons_of_mem _ hj)) sim1 h
      refine ⟨sf', ?_, sim2⟩
      rw [List.map_cons, fretLoop, h1]
      exact h2

theorem sortKey_relabel_lt {n1 n2 : Note} {v1 v2 w1 w2 : Nat}
    (hv1 : v1 < 100) (hv2 : v2 < 100) (hw1 : w1 < 100) (hw2 : w2 < 100)
    (hp1 : 0 ≤ n1.pitch ∧ n1.pitch ≤ 127) (hp2 : 0 ≤ n2.pitch ∧ n2.pitch ≤ 127)
    (hne : n1.pitch ≠ n2.pitch)
    (h : sortKey n1 (v1 : Int) < sortKey n2 (v2 : Int)) :
    sortKey n1 (w1 : Int) < sortKey n2 (w2 : Int) := by
  rw [sortKey_abs, sortKey_abs] at h ⊢
  have h1 := abs_nonneg n1.string
  have h2 := abs_nonneg n2.string
  generalize |n1.string| = a1 at *
  generalize |n2.string| = a2 at *
  omega

/-- With pairwise distinct pitches in 0..127 and at most 100 notes the order of the visits
does not depend on the positions of the notes in the list. -/
theorem sortedNotes_relabel {π : Nat → Nat} {l l' : List Note} (R : Rearranged π l l')
    (hlen : l.length ≤ 100) (hdistinct : (l.map Note.pitch).Nodup)
    (hpitch : ∀ note ∈ l, 0 ≤ note.pitch ∧ note.pitch ≤ 127) :
    sortedNotes l' = (sortedNotes l).map π := by
  have hlen' : l'.length ≤ 100 := by rw [R.length_eq]; exact hlen
  have hp1 : (sortedNotes l').Perm (List.range l.length) := by
    rw [← R.length_eq]; exact sortedNotes_perm l' hlen'
  have hp2 : ((sortedNotes l).map π).Perm ((List.range l.length).map π) :=
    (sortedNotes_perm l hlen).map π
  have hp3 : ((List.range l.length).map π).Perm (List.range l.length) := by
    have hnd : ((List.range l.length).map π).Nodup :=
      List.Nodup.map_on
        (fun x hx y hy e => R.inj x y (List.mem_range.mp hx) (List.mem_range.mp hy) e)
        (List.nodup_range _)
    have hsub : (List.range l.length).map π ⊆ List.range l.length := by
      intro x hx
      obtain ⟨j, hj, rfl⟩ := List.mem_map.mp hx
      exact List.mem_range.mpr (R.lt j (List.mem_range.mp hj))
    exact (List.subperm_of_subset hnd hsub).perm_of_length_le (by simp)
  have hperm : (sortedNotes l').Perm ((sortedNotes l).map π) :=
    hp1.trans (hp3.symm.trans hp2.symm)
  let K : Nat → Int := fun v => ((l'[v]?).map (fun note => sortKey note (v : Int))).getD 0
  have hK : ∀ (v : Nat) (note : Note), l'[v]? = some note → K v = sortKey note (v : Int) := by
    intro v note hv
    show ((l'[v]?).map (fun note => sortKey note (v : Int))).getD 0 = _
    rw [hv]
    rfl
  haveI : IsAntisymm Nat (fun v1 v2 => K v1 < K v2) :=
    ⟨fun a b h1 h2 => absurd h1 (lt_asymm h2)⟩
  have hs1 : (sortedNotes l').Sorted (fun v1 v2 => K v1 < K v2) := by
    refine List.Pairwise.imp_of_mem ?_ (sortedNotes_sorted l')
    intro v1 v2 hv1 hv2 hs
    have h1 := sortedNotes_lt l' v1 hv1
    have h2 := sortedNotes_lt l' v2 hv2
    rw [hK v1 _ (List.getElem?_eq_getElem h1), hK v2 _ (List.getElem?_eq_getElem h2)]
    exact hs _ _ (List.getElem?_eq_getElem h1) (List.getElem?_eq_getElem h2)
  have hs2 : ((sortedNotes l).map π).Sorted (fun v1 v2 => K v1 < K v2) := by
    rw [List.Sorted, List.pairwise_map]
    refine List.Pairwise.imp_of_mem ?_ (sortedNotes_sorted l)
    intro v1 v2 hv1 hv2 hs
    have h1 := sortedNotes_lt l v1 hv1
    have h2 := sortedNotes_lt l v2 hv2
    have key := hs _ _ (List.getElem?_eq_getElem h1) (List.getElem?_eq_getElem h2)
    have hne : v1 ≠ v2 := by
      intro e
      subst e
      exact lt_irrefl _ key
    have hpne : (l[v1]).pitch ≠ (l[v2]).pitch := by
      intro e
      have h1' : v1 < (l.map Note.pitch).length := by rw [List.length_map]; exact h1
      have h2' : v2 < (l.map Note.pitch).length := by rw [List.length_map]; exact h2
      have hm : (l.map Note.pitch)[v1] = (l.map Note.pitch)[v2] := by
        rw [List.getElem_map, List.getElem_map]; exact e
      exact hne (hdistinct.getElem_inj_iff.mp hm)
    rw [hK (π v1) (l[v1]) (by rw [R.get v1 h1]; exact List.getElem?_eq_getElem h1),
      hK (π v2) (l[v2]) (by rw [R.get v2 h2]; exact List.getElem?_eq_getElem h2)]
    have b1 := R.lt v1 h1
    have b2 := R.lt v2 h2
    exact sortKey_relabel_lt (by omega) (by omega) (by omega) (by omega)
      (hpitch _ (List.getElem_mem _)) (hpitch _ (List.getElem_mem _)) hpne key
  exact List.eq_of_perm_of_sorted hperm hs1 hs2

theorem fretChord_relabel {t : Tablature} {π : Nat → Nat} {l l' : List Note}
    (R : Rearranged π l l') (hlen : l.length ≤ 100) (hdistinct : (l.map Note.pitch).Nodup)
    (hpitch : ∀ note ∈ l, 0 ≤ note.pitch ∧ note.pitch ≤ 127) (u u' : List Change)
    {c1 : ChordState} (h : fretChord t ⟨false, l, u⟩ = some c1) :
    ∃ c2, fretChord t ⟨false, l', u'⟩ = some c2 ∧
      ∀ j, j < l.length → c2.notes[π j]? = c1.notes[j]? := by
  unfold fretChord at h ⊢
  simp only [Bool.false_eq_true, if_false] at h ⊢
  cases hl : fretLoop t (sortedNotes l) (sortedNotes l)
      ⟨l, u, List.replicate t.stringTable.length false⟩ with
  | none => rw [hl] at h; cases h
  | some s =>
    rw [hl] at h
    cases h
    have sim0 : SameScan π l.length ⟨l, u, List.replicate t.stringTable.length false⟩
        ⟨l', u', List.replicate t.stringTable.length false⟩ :=
      ⟨rfl, R.length_eq, R.get, rfl⟩
    obtain ⟨sf', h2, sim2⟩ := fretLoop_relabel R.inj (sortedNotes_lt l) (sortedNotes l) _ _ s
      (sortedNotes_lt l) sim0 hl
    rw [sortedNotes_relabel R hlen hdistinct hpitch, h2]
    exact ⟨_, rfl, sim2.notes⟩

theorem exists_rearranged {l l' : List Note} (hperm : l.Perm l') (hnd : l.Nodup) :
    ∃ π, Rearranged π l l' := by
  have hmem : ∀ (j : Nat) (hj : j < l.length), l[j] ∈ l' :=
    fun j hj => hperm.mem_iff.mp (List.getElem_mem hj)
  have hd : ∀ (j : Nat) (hj : j < l.length), l.getD j ⟨0, 0, 0, false⟩ = l[j] :=
    fun j hj => List.getD_eq_getElem l _ hj
  have hget : ∀ (j : Nat), j < l.length →
      l'[l'.indexOf (l.getD j ⟨0, 0, 0, false⟩)]? = l[j]? := by
    intro j hj
    rw [hd j hj, List.getElem?_indexOf (hmem j hj), List.getElem?_eq_getElem hj]
  refine ⟨fun j => l'.indexOf (l.getD j ⟨0, 0, 0, false⟩), hperm.length_eq.symm, ?_, ?_, hget⟩
  · intro j hj
    show l'.indexOf (l.getD j ⟨0, 0, 0, false⟩) < l.length
    rw [hd j hj, hperm.length_eq]
    exact List.indexOf_lt_length.mpr (hmem j hj)
  · intro j1 j2 h1 h2 e
    have e1 := hget j1 h1
    have e2 := hget j2 h2
    simp only at e
    rw [e, e2, List.getElem?_eq_getElem h1, List.getElem?_eq_getElem h2] at e1
    exact (hnd.getElem_inj_iff.mp (Option.some.inj e1)).symm

/-- C28: order independence.  Take a chord of at most 100 notes whose pitches are pairwise
distinct and lie in 0..127, and any rearrangement of its note list.  A non-nested run of
`fretChord` returns on the one list exactly when it returns on the other (and both return
when every stored string is `STRING_NONE` or a string of a non-empty profile), and then
each note ends with the same string, fret and conflict flag in both results, wherever it
stands in the two lists. -/
theorem fretChord_order_independent (t : Tablature) (l l' : List Note) (u u' : List Change)
    (hperm : l.Perm l') (hlen : l.length ≤ 100) (hdistinct : (l.map Note.pitch).Nodup)
    (hpitch : ∀ note ∈ l, 0 ≤ note.pitch ∧ note.pitch ≤ 127) :
    (fretChord t ⟨false, l, u⟩).isSome = (fretChord t ⟨false, l', u'⟩).isSome ∧
    (ChordOk t ⟨false, l, u⟩ →
      ∃ c1 c2, fretChord t ⟨false, l, u⟩ = some c1 ∧ fretChord t ⟨false, l', u'⟩ = some c2) ∧
    ∀ c1 c2, fretChord t ⟨false, l, u⟩ = some c1 → fretChord t ⟨false, l', u'⟩ = some c2 →
      ∀ (j j' : Nat) (note : Note), l[j]? = some note → l'[j']? = some note →
        c2.notes[j']? = c1.notes[j]? := by
  have hnd : l.Nodup := List.Nodup.of_map _ hdistinct
  have hnd' : l'.Nodup := hperm.nodup_iff.mp hnd
  have hdistinct' : (l'.map Note.pitch).Nodup := (hperm.map Note.pitch).nodup_iff.mp hdistinct
  have hpitch' : ∀ note ∈ l', 0 ≤ note.pitch ∧ note.pitch ≤ 127 :=
    fun note hn => hpitch note (hperm.mem_iff.mpr hn)
  have hlen' : l'.length ≤ 100 := by rw [← hperm.length_eq]; exact hlen
  obtain ⟨π, R⟩ := exists_rearranged hperm hnd
  obtain ⟨π', R'⟩ := exists_rearranged hperm.symm hnd'
  have fwd : ∀ c1, fretChord t ⟨false, l, u⟩ = some c1 →
      ∃ c2, fretChord t ⟨false, l', u'⟩ = some c2 ∧
        ∀ j, j < l.length → c2.notes[π j]? = c1.notes[j]? :=
    fun c1 h => fretChord_relabel R hlen hdistinct hpitch u u' h
  have bwd : ∀ c2, fretChord t ⟨false, l', u'⟩ = some c2 →
      ∃ c1, fretChord t ⟨false, l, u⟩ = some c1 ∧
        ∀ j, j < l'.length → c1.notes[π' j]? = c2.notes[j]? :=
    fun c2 h => fretChord_relabel R' hlen' hdistinct' hpitch' u' u h
  refine ⟨?_, ?_, ?_⟩
  · rw [Bool.eq_iff_iff]
    simp only [Option.isSome_iff_exists]
    constructor
    · rintro ⟨c1, h⟩
      obtain ⟨c2, h2, _⟩ := fwd c1 h
      exact ⟨c2, h2⟩
    · rintro ⟨c2, h⟩
      obtain ⟨c1, h1, _⟩ := bwd c2 h
      exact ⟨c1, h1⟩
  · intro hok
    obtain ⟨c1, h1⟩ := fretChord_total hok
    obtain ⟨c2, h2, _⟩ := fwd c1 h1
    exact ⟨c1, c2, h1, h2⟩
  · intro c1 c2 h1 h2 j j' note hj hj'
    obtain ⟨c2', h2', hrel⟩ := fwd c1 h1
    rw [h2] at h2'
    cases h2'
    have hjl : j < l.length := lt_length_of_getElem?_eq_some hj
    have hjl' : j' < l'.length := lt_length_of_getElem?_eq_some hj'
    have hπ : π j < l'.length := by rw [R.length_eq]; exact R.lt j hjl
    have e : l'[π j]? = l'[j']? := by rw [R.get j hjl, hj, hj']
    rw [List.getElem?_eq_getElem hπ, List.getElem?_eq_getElem hjl'] at e
    have e' : π j = j' := hnd'.getElem_inj_iff.mp (Option.some.inj e)
    rw [← e']
    exact hrel j hjl

/-- Witness for C28: an E4, an E2 and an A2 (the last one stored on string 5, fret 5) on the
guitar, and the same three notes with the A2 moved to the front.  Both runs return, and in
both the A2 ends on string 4, fret 0. -/
theorem fretChord_order_independent_witness :
    fretChord guitarTablature
        ⟨false, [⟨64, STRING_NONE, FRET_NONE, false⟩, ⟨40, STRING_NONE, FRET_NONE, false⟩,
          ⟨45, 5, 5, false⟩], []⟩
      = some ⟨false, [⟨64, 0, 0, false⟩, ⟨40, 5, 0, false⟩, ⟨45, 4, 0, false⟩],
          [⟨0, .P_FRET, 0⟩, ⟨0, .P_STRING, 0⟩, ⟨1, .P_FRET, 0⟩, ⟨1, .P_STRING, 5⟩,
           ⟨2, .P_FRET, 0⟩, ⟨2, .P_STRING, 4⟩]⟩ ∧
    fretChord guitarTablature
        ⟨false, [⟨45, 5, 5, false⟩, ⟨64, STRING_NONE, FRET_NONE, false⟩,
          ⟨40, STRING_NONE, FRET_NONE, false⟩], []⟩
      = some ⟨false, [⟨45, 4, 0, false⟩, ⟨64, 0, 0, false⟩, ⟨40, 5, 0, false⟩],
          [⟨1, .P_FRET, 0⟩, ⟨1, .P_STRING, 0⟩, ⟨2, .P_FRET, 0⟩, ⟨2, .P_STRING, 5⟩,
           ⟨0, .P_FRET, 0⟩, ⟨0, .P_STRING, 4⟩]⟩ ∧
    ([⟨45, 4, 0, false⟩, ⟨64, 0, 0, false⟩, ⟨40, 5, 0, false⟩] : List Note)[0]?
      = ([⟨64, 0, 0, false⟩, ⟨40, 5, 0, false⟩, ⟨45, 4, 0, false⟩] : List Note)[2]? :=
  ⟨by decide, by decide,
   (fretChord_order_independent guitarTablature
      [⟨64, STRING_NONE, FRET_NONE, false⟩, ⟨40, STRING_NONE, FRET_NONE, false⟩,
        ⟨45, 5, 5, false⟩]
      [⟨45, 5, 5, false⟩, ⟨64, STRING_NONE, FRET_NONE, false⟩,
        ⟨40, STRING_NONE, FRET_NONE, false⟩] [] []
      ((List.Perm.cons _ (List.Perm.swap _ _ [])).trans (List.Perm.swap _ _ _))
      (by decide) (by decide) (by decide)).2.2
    ⟨false, [⟨64, 0, 0, false⟩, ⟨40, 5, 0, false⟩, ⟨45, 4, 0, false⟩],
      [⟨0, .P_FRET, 0⟩, ⟨0, .P_STRING, 0⟩, ⟨1, .P_FRET, 0⟩, ⟨1, .P_STRING, 5⟩,
       ⟨2, .P_FRET, 0⟩, ⟨2, .P_STRING, 4⟩]⟩
    ⟨false, [⟨45, 4, 0, false⟩, ⟨64, 0, 0, false⟩, ⟨40, 5, 0, false⟩],
      [⟨1, .P_FRET, 0⟩, ⟨1, .P_STRING, 0⟩, ⟨2, .P_FRET, 0⟩, ⟨2, .P_STRING, 5⟩,
       ⟨0, .P_FRET, 0⟩, ⟨0, .P_STRING, 4⟩]⟩
    (by decide) (by decide) 2 0 ⟨45, 5, 5, false⟩ rfl rfl⟩

/-! ### Notes that a chord of 101 notes drops from the map -/

set_option maxRecDepth 100000 in
/-- C22 (the code at the failing input): on the guitar profile, in the 101 note chord
`stabilityChord` the first note (stored on string 1) gets the same sort key as the last
one (93500) and is dropped from the map.  The note at position 50 (pitch 59, stale
position string 2 fret 0) must be recomputed, `convertPitch` picks string 1 fret 0, and
`fret(59, 2)` is 4; the first note is still stored on string 1 when the note at position
50 is visited (it is the last one visited, after the 99 other notes of the map), but the
scan over the map does not see it: the target is the fresh pick (1, 0), not (2, 4), and
after `fretChord` the note is stored on string 1, fret 0. -/
theorem fretChord_stability_missed :
    sortKey ⟨65, 1, 6, false⟩ 0 = 93500 ∧
    sortKey ⟨64, STRING_NONE, FRET_NONE, false⟩ 100 = 93500 ∧
    stabilityChord.length = 101 ∧ 0 ∉ sortedNotes stabilityChord ∧
    (sortedNotes stabilityChord).drop 99 = [50] ∧
    needsFretting guitarTablature ⟨59, 2, 0, false⟩ = some true ∧
    convertPitch guitarTablature 59 = some ⟨true, 1, 0⟩ ∧
    fret guitarTablature 59 2 = some 4 ∧
    (fretLoop guitarTablature (sortedNotes stabilityChord)
        ((sortedNotes stabilityChord).take 99)
        ⟨stabilityChord, [], List.replicate 6 false⟩).map
        (fun s => (s.notes[0]?, s.notes[50]?))
      = some (some ⟨65, 1, 6, false⟩, some ⟨59, 2, 0, false⟩) ∧
    (fretLoop guitarTablature (sortedNotes stabilityChord)
        ((sortedNotes stabilityChord).take 99)
        ⟨stabilityChord, [], List.replicate 6 false⟩).bind
        (fun s => chooseTarget guitarTablature (sortedNotes stabilityChord)
          (setFretConflict s 50 false).notes 50 ⟨59, 2, 0, false⟩)
      = some (.position 1 0) ∧
    (fretChord guitarTablature ⟨false, stabilityChord, []⟩).map
        (fun c => (c.notes[0]?, c.notes[50]?))
      = some (some ⟨65, 1, 6, false⟩, some ⟨59, 1, 0, false⟩) := by
  decide

set_option maxRecDepth 100000 in
/-- C23 (the code at the failing input): on the guitar profile, in the 101 note chord
`unfrettableChord` the first note (pitch 30, no position) gets the same sort key as the
last one (97000) and is dropped from the map.  Its position must be recomputed and
`convertPitch(30)` fails with the fallback string 5, fret 0; after `fretChord` the
second note has the conflict flag and the fallback values, but the first note is as it
was: no conflict flag, no string, no fret, and no `undoChangeProperty` call names it. -/
theorem fretChord_unfrettable_missed :
    sortKey ⟨30, STRING_NONE, FRET_NONE, false⟩ 0 = 97000 ∧
    sortKey ⟨29, STRING_NONE, FRET_NONE, false⟩ 100 = 97000 ∧
    unfrettableChord.length = 101 ∧ 0 ∉ sortedNotes unfrettableChord ∧
    needsFretting guitarTablature ⟨30, STRING_NONE, FRET_NONE, false⟩ = some true ∧
    convertPitch guitarTablature 30 = some ⟨false, 5, 0⟩ ∧
    (fretChord guitarTablature ⟨false, unfrettableChord, []⟩).map
        (fun c => (c.notes[0]?, c.notes[1]?, c.undo.filter (fun ch => ch.note = 0)))
      = some (some ⟨30, STRING_NONE, FRET_NONE, false⟩, some ⟨30, 5, 0, true⟩, []) := by
  decide

set_option maxRecDepth 100000 in
/-- C24 (the code at the failing input): on the guitar profile, in the 101 note chord
`reuseChord` the first note (pitch 45 stored on string 4, fret 0, conflict flag set)
gets the same sort key as the last one (395500) and is dropped from the map.  Its
position is valid (`getPitch(4, 0)` is 45) and at the end of the loop string 4 is not
marked used, yet after `fretChord` its conflict flag is still set. -/
theorem fretChord_reuse_missed :
    sortKey ⟨45, 4, 0, true⟩ 0 = 395500 ∧ sortKey ⟨44, 4, 0, false⟩ 100 = 395500 ∧
    reuseChord.length = 101 ∧ 0 ∉ sortedNotes reuseChord ∧
    getPitch guitarTablature 4 0 = some 45 ∧
    (fretLoop guitarTablature (sortedNotes reuseChord) (sortedNotes reuseChord)
        ⟨reuseChord, [], List.replicate 6 false⟩).map (fun s => s.bUsed)
      = some [false, false, false, false, false, true] ∧
    (fretChord guitarTablature ⟨false, reuseChord, []⟩).map (fun c => c.notes[0]?)
      = some (some ⟨45, 4, 0, true⟩) := by
  decide

/-! ### The order of the visits beyond 100 notes -/

set_option maxRecDepth 100000 in
/-- C30 (counterexample): in the 102 note chord `interleaveChord` every note gets its own sort
key and the map keeps all 102 notes, but the last note (pitch 59, stored on string 1) has
key 93999 and the first note (pitch 60, no string) has key 94000: the note of the lower
pitch is visited first. -/
theorem sortedNotes_interleave_counterexample :
    interleaveChord.length = 102 ∧ (sortedNotes interleaveChord).length = 102 ∧
    interleaveChord[0]? = some ⟨60, STRING_NONE, FRET_NONE, false⟩ ∧
    interleaveChord[101]? = some ⟨59, 1, 0, false⟩ ∧
    sortKey ⟨60, STRING_NONE, FRET_NONE, false⟩ 0 = 94000 ∧
    sortKey ⟨59, 1, 0, false⟩ 101 = 93999 ∧
    (sortedNotes interleaveChord).take 2 = [101, 0] := by
  decide

end Tab
